import Mathlib

/-!
# A shallow embedding of `opt_malloc.c`

The allocator is modelled over a flat byte-addressed memory.  Addresses are natural
numbers, a byte is stored as a natural number below 256, and the multi-byte fields of the
C structures are laid out little-endian exactly as in `xmalloc.h`:

* `bucket_header.size`   : bytes 0..7   (`size_t`)
* `bucket_header.fill`   : bytes 8..11  (`int`)
* `bucket_header.arena`  : bytes 12..15 (`int`)
* `bucket_header.bitmap` : bytes 16..1039 (`uint8_t[1024]`)

so `sizeof(bucket_header) = 1040`.  The static array `arenas[8]` and the flag `init` are
kept in the `State` record.  The operating system (mmap / munmap) is modelled by a log of
the calls made; the address returned by `mmap` is supplied by the caller of the model as
the argument `ret`.  Every function is executed atomically: threads and the blocking of
mutexes are not modelled.  The mutex calls a function makes are recorded, in program
order, by the separate functions `xmalloc_locks` and `xfree_locks`.
-/

namespace XMalloc

/-! ## Memory -/

/-- Byte-addressed memory. -/
abbrev Mem := Nat → Nat

/-- Load one byte. -/
def read8 (m : Mem) (a : Nat) : Nat := m a % 256

/-- Store one byte. -/
def write8 (m : Mem) (a v : Nat) : Mem := fun x => if x = a then v % 256 else m x

/-- Little-endian load of `k` bytes starting at `a`. -/
def readLE (m : Mem) : Nat → Nat → Nat
  | _, 0 => 0
  | a, k + 1 => read8 m a + 256 * readLE m (a + 1) k

/-- Little-endian store of the low `k` bytes of `v` starting at `a`. -/
def writeLE : Mem → Nat → Nat → Nat → Mem
  | m, _, _, 0 => m
  | m, a, v, k + 1 => writeLE (write8 m a v) (a + 1) (v / 256) k

/-- Load of a `size_t`. -/
def read64 (m : Mem) (a : Nat) : Nat := readLE m a 8

/-- Store of a `size_t` (`memcpy(.., .., 8)` of a `size_t`, or assignment to one). -/
def write64 (m : Mem) (a v : Nat) : Mem := writeLE m a v 8

/-- Load of an `int`, as its 32-bit pattern. -/
def read32 (m : Mem) (a : Nat) : Nat := readLE m a 4

/-- Store of an `int`, as its 32-bit pattern. -/
def write32 (m : Mem) (a v : Nat) : Mem := writeLE m a v 4

/-! ## Tables and program state -/

/-- The table `static long sizes[8]`. -/
def sizes : List Nat := [16, 32, 64, 128, 256, 512, 1024, 2048]

/-- The table `static long page_nums[8]`. -/
def page_nums : List Nat := [4, 8, 16, 32, 64, 128, 256, 512]

/-- The constant `PAGE_SIZE`. -/
def PAGE_SIZE : Nat := 4096

/-- The value of `sizeof(bucket_header)`: 8 + 4 + 4 + 1024. -/
def sizeof_bucket_header : Nat := 1040

/-- Entry `k` of `sizes` (0 outside the table). -/
def sz (k : Nat) : Nat := sizes.getD k 0

/-- Entry `k` of `page_nums` (0 outside the table). -/
def pn (k : Nat) : Nat := page_nums.getD k 0

/-- A call made to the operating system. -/
inductive Call where
  | mmap (len ret : Nat)
  | munmap (addr len : Nat)
  deriving DecidableEq

/-- The C `struct arena`, without its mutex.  A bucket pointer is an address, 0 is null. -/
structure Arena where
  id : Nat
  in_use : Nat
  bucket_head : Nat → Nat

/-- The global state: `init`, `arenas[8]`, the memory, and the system calls made so far
(newest first). -/
structure State where
  init : Nat
  arenas : Nat → Arena
  mem : Mem
  calls : List Call

/-- The state at program start: statics are zero, no system call has been made. -/
def initial (m : Mem) : State :=
  { init := 0, arenas := fun _ => { id := 0, in_use := 0, bucket_head := fun _ => 0 },
    mem := m, calls := [] }

/-- Assignment `arenas[a].in_use = v`. -/
def set_in_use (ars : Nat → Arena) (a v : Nat) : Nat → Arena :=
  Function.update ars a { ars a with in_use := v }

/-- Assignment `arenas[a].bucket_head[k] = v`. -/
def set_head (ars : Nat → Arena) (a k v : Nat) : Nat → Arena :=
  Function.update ars a { ars a with bucket_head := Function.update (ars a).bucket_head k v }

/-! ## The functions of `opt_malloc.c` -/

/-- The function `init_arenas`: the loop body for `ii = 0 .. 7`, then `init = 1`. -/
def init_arenas (st : State) : State :=
  { st with
    arenas := (List.range 8).foldl
      (fun ars ii => Function.update ars ii { ars ii with id := ii, in_use := 0 }) st.arenas,
    init := 1 }

/-- The loop of `choose_arena`, started at index `ii` with `fuel` iterations left.
Returns the index of the chosen arena and the updated array. -/
def choose_arena_loop (ars : Nat → Arena) : Nat → Nat → Nat × (Nat → Arena)
  | 0, _ => (0, ars)
  | fuel + 1, ii =>
    if (ars ii).in_use = 0 then (ii, set_in_use ars ii 1)
    else choose_arena_loop ars fuel (ii + 1)

/-- The function `choose_arena`. -/
def choose_arena (ars : Nat → Arena) : Nat × (Nat → Arena) := choose_arena_loop ars 8 0

/-- The function `newpage`: one `mmap` call of `size` bytes whose result is `ret`. -/
def newpage (st : State) (size ret : Nat) : Nat × State :=
  (ret, { st with calls := Call.mmap size ret :: st.calls })

/-- The call `munmap(addr, len)`; its result is ignored by the program. -/
def munmap (st : State) (addr len : Nat) : State :=
  { st with calls := Call.munmap addr len :: st.calls }

/-- The number of slots taken by the bucket metadata, as computed in `page_setup` and
`xfree`: `sizeof(bucket_header) / size`, plus one when there is a remainder. -/
def divs (size : Nat) : Nat :=
  if sizeof_bucket_header % size = 0 then sizeof_bucket_header / size
  else sizeof_bucket_header / size + 1

/-- The function `page_setup`; `ret` is what `mmap` returns. -/
def page_setup (st : State) (index a ret : Nat) : Nat × State :=
  let size := sz index
  let (bucket, st1) := newpage st (PAGE_SIZE * pn index) ret
  let d := divs size
  let m1 := write64 st1.mem bucket size
  let m2 := write32 m1 (bucket + 12) (st1.arenas a).id
  let m3 := write32 m2 (bucket + 8) d
  let m4 := (List.range d).foldl (fun m ii => write8 m (bucket + 16 + ii) 1) m3
  let m5 := (List.range' d (1024 - d)).foldl (fun m ii => write8 m (bucket + 16 + ii) 0) m4
  (bucket, { st1 with mem := m5 })

/-- The scan of `get_block`: the first `ii` at or after the start index whose bitmap byte
is 0, or the start index plus `fuel` when there is none. -/
def scan (m : Mem) (bucket : Nat) : Nat → Nat → Nat
  | 0, ii => ii
  | fuel + 1, ii => if read8 m (bucket + 16 + ii) = 0 then ii else scan m bucket fuel (ii + 1)

/-- The function `get_block`.  Returns `data` and the new state. -/
def get_block (st : State) (bucket bucket_num a : Nat) : Nat × State :=
  let ii := scan st.mem bucket 1024 0
  let m1 := if ii < 1024 then write8 st.mem (bucket + 16 + ii) 1 else st.mem
  let m2 := write32 m1 (bucket + 8) (read32 m1 (bucket + 8) + 1)
  let ars := if read32 m2 (bucket + 8) = 1024 then set_head st.arenas a bucket_num 0
             else st.arenas
  let bit_offset := (read64 m2 bucket * ii) % 2 ^ 64
  let data := bucket + bit_offset
  let m3 := write64 m2 data bit_offset
  (data, { st with mem := m3, arenas := ars })

/-- The loop `while (sizes[index] < nbytes) index++` of `xmalloc`.  It is only run with
`nbytes <= 2048`, where it stops inside the table; the fuel is the table length. -/
def size_class_loop (nbytes : Nat) : Nat → Nat → Nat
  | 0, index => index
  | fuel + 1, index =>
    if sz index < nbytes then size_class_loop nbytes fuel (index + 1) else index

/-- The size-class index selected by `xmalloc` for the adjusted request `nbytes`. -/
def size_class (nbytes : Nat) : Nat := size_class_loop nbytes 8 0

/-- The function `xmalloc`.  `nbytes` is a `size_t`, so arithmetic on it is modulo `2^64`;
`ret` is what `mmap` returns if this call maps a region.  Returns the pointer and the new
state. -/
def xmalloc (st : State) (nbytes ret : Nat) : Nat × State :=
  let st0 := if st.init = 0 then init_arenas st else st
  let (a, ars) := choose_arena st0.arenas
  let st1 := { st0 with arenas := ars }
  let nbytes1 := (nbytes + 8) % 2 ^ 64
  if nbytes1 > 2048 then
    let nbytes2 := (nbytes1 + 8) % 2 ^ 64
    let (data, st2) := newpage st1 nbytes2 ret
    let m1 := write64 st2.mem data nbytes2
    let m2 := write64 m1 (data + 8) 8
    (data + 16, { st2 with mem := m2, arenas := set_in_use st2.arenas a 0 })
  else
    let index := size_class nbytes1
    let st2 :=
      if (st1.arenas a).bucket_head index = 0 then
        let (b, s) := page_setup st1 index a ret
        { s with arenas := set_head s.arenas a index b }
      else st1
    let (data, st3) := get_block st2 ((st2.arenas a).bucket_head index) index a
    (data + 8, { st3 with arenas := set_in_use st3.arenas a 0 })

/-- The offset header `xfree` reads: the `size_t` in the 8 bytes before the pointer. -/
def xfree_offset (m : Mem) (ap : Nat) : Nat := read64 m (ap - 8)

/-- The bucket (or region) address `xfree` computes: `(ap - 8) - offset`. -/
def xfree_bucket (m : Mem) (ap : Nat) : Nat := (ap - 8) - xfree_offset m ap

/-- The value `bucket->size` that `xfree` reads. -/
def xfree_size (m : Mem) (ap : Nat) : Nat := read64 m (xfree_bucket m ap)

/-- The loop `while (sizes[bucket_num] != size) bucket_num++` of `xfree`; `none` when it
runs off the table. -/
def bucket_num_loop (size : Nat) : Nat → Nat → Option Nat
  | 0, _ => none
  | fuel + 1, n =>
    match sizes[n]? with
    | none => none
    | some s => if s ≠ size then bucket_num_loop size fuel (n + 1) else some n

/-- The function `xfree`.  The result is `none` where the C code has no defined behaviour:
pointer arithmetic below address 0, an arena index outside `arenas[8]`, a division by
zero, a bitmap index outside `bitmap[1024]`, or a size that is not in `sizes`. -/
def xfree (st : State) (p : Nat) : Option State :=
  if p < 8 then none
  else
    let ap := p - 8
    let offset := xfree_offset st.mem p
    if ap < offset then none
    else
      let bucket := xfree_bucket st.mem p
      let size := xfree_size st.mem p
      if size > 2048 then some (munmap st ap size)
      else
        let a := read32 st.mem (bucket + 12)
        if 8 ≤ a then none
        else if size = 0 then none
        else
          let index := offset / size
          if 1024 ≤ index then none
          else
            let m1 := write8 st.mem (bucket + 16 + index) 0
            let m2 := write32 m1 (bucket + 8) (read32 m1 (bucket + 8) + (2 ^ 32 - 1))
            if read32 m2 (bucket + 8) = divs size then
              match bucket_num_loop size 9 0 with
              | none => none
              | some bucket_num =>
                some (munmap { st with mem := m2, arenas := set_head st.arenas a bucket_num 0 }
                        bucket (PAGE_SIZE * pn bucket_num))
            else some { st with mem := m2 }

/-! ## The page provider and the reachable states -/

/-- The value `MAP_FAILED`, that is `(void*) -1`. -/
def MAP_FAILED : Nat := 2 ^ 64 - 1

/-- Page `pg` holds a byte of the range `[addr, addr + len)`. -/
def pagesOf (addr len pg : Nat) : Prop := addr / 4096 ≤ pg ∧ pg * 4096 < addr + len

instance (addr len pg : Nat) : Decidable (pagesOf addr len pg) := by
  unfold pagesOf; infer_instance

/-- The pages that are mapped after a log of calls (newest first).  A successful `mmap`
maps the pages of the returned range.  `munmap` fails with `EINVAL`, changing nothing,
when the address is not page-aligned or the length is 0; otherwise it unmaps every page
of the range. -/
def mapped : List Call → Nat → Bool
  | [], _ => false
  | Call.mmap len ret :: cs, pg =>
    if ret = MAP_FAILED then mapped cs pg else decide (pagesOf ret len pg) || mapped cs pg
  | Call.munmap addr len :: cs, pg =>
    if addr % 4096 = 0 ∧ 0 < len then !decide (pagesOf addr len pg) && mapped cs pg
    else mapped cs pg

/-- What the operating system guarantees of a successful `mmap` of `len` bytes: the result
is not null, is page-aligned, and none of its pages was mapped before. -/
def Fresh (cs : List Call) (ret len : Nat) : Prop :=
  ret ≠ 0 ∧ ret % 4096 = 0 ∧ ∀ pg, pagesOf ret len pg → mapped cs pg = false

/-- Entry `i` of the bitmap of the bucket at `b`. -/
def bitmap (m : Mem) (b i : Nat) : Nat := read8 m (b + 16 + i)

/-- The number of bitmap entries equal to 1 among the first `n` of the bucket at `b`. -/
def ones (m : Mem) (b : Nat) : Nat → Nat
  | 0 => 0
  | n + 1 => ones m b n + (if bitmap m b n = 1 then 1 else 0)

/-- The states reachable from program start by `xmalloc` calls and by `xfree` calls on
live pointers, together with the list of live allocations (pointer, requested size).
Requests stay below `2^64 - 16`, so that no size computation wraps, and every `mmap`
succeeds with a fresh region. -/
inductive Reach : State → List (Nat × Nat) → Prop where
  | start (m : Mem) : Reach (initial m) []
  | malloc {st : State} {live : List (Nat × Nat)} (n ret : Nat) :
      Reach st live → n + 16 < 2 ^ 64 →
      (∀ len, (xmalloc st n ret).2.calls = Call.mmap len ret :: st.calls →
        Fresh st.calls ret len) →
      Reach (xmalloc st n ret).2 (((xmalloc st n ret).1, n) :: live)
  | free {st st' : State} {live : List (Nat × Nat)} (p n : Nat) :
      Reach st live → (p, n) ∈ live → xfree st p = some st' →
      Reach st' (live.filter (fun e => e.1 ≠ p))

/-- The bytes an allocation occupies, as a half-open range: for a small request the whole
slot (header included), for a large one the whole requested region. -/
def extent (e : Nat × Nat) : Nat × Nat :=
  if e.2 + 8 ≤ 2048 then (e.1 - 8, e.1 - 8 + sz (size_class (e.2 + 8)))
  else (e.1 - 16, e.1 + e.2)

/-! ## The invariant of the reachable states -/

/-- The page ranges of two regions (base, length) do not meet. -/
def PageDisj (x y : Nat × Nat) : Prop :=
  ∀ pg, pagesOf x.1 x.2 pg → pagesOf y.1 y.2 pg → False

/-- The metadata of the bucket of class `k` at address `b` is consistent: the size field
is the class size, the owner is an arena index, every bitmap entry is 0 or 1, the slots
under the metadata are marked, and `fill` counts the marked entries. -/
structure BucketWF (m : Mem) (b k : Nat) : Prop where
  size_eq : read64 m b = sz k
  owner_lt : read32 m (b + 12) < 8
  bits01 : ∀ i, i < 1024 → bitmap m b i = 0 ∨ bitmap m b i = 1
  meta_set : ∀ i, i < divs (sz k) → bitmap m b i = 1
  fill_eq : read32 m (b + 8) = ones m b 1024

/-- The live small allocation `p` of `n` bytes sits in a marked slot of a tracked bucket. -/
def SmallLive (m : Mem) (bs : List (Nat × Nat)) (p n : Nat) : Prop :=
  ∃ b k i, (b, k) ∈ bs ∧ divs (sz k) ≤ i ∧ i < 1024 ∧ p = b + sz k * i + 8 ∧
    bitmap m b i = 1 ∧ read64 m (b + sz k * i) = sz k * i ∧ size_class (n + 8) = k

/-- The live large allocation `p` of `n` bytes has its two header words intact. -/
def LargeLive (m : Mem) (p n : Nat) : Prop :=
  ∃ r, p = r + 16 ∧ r % 4096 = 0 ∧ read64 m r = n + 16 ∧ read64 m (r + 8) = 8

/-- The regions (base, length) in use: the tracked buckets and the live large regions. -/
def IsRegion (bs live : List (Nat × Nat)) (x : Nat × Nat) : Prop :=
  (∃ b k, (b, k) ∈ bs ∧ x = (b, PAGE_SIZE * pn k)) ∨
  (∃ p n, (p, n) ∈ live ∧ 2048 < n + 8 ∧ x = (p - 16, n + 16))

/-- The invariant, relative to the list `bs` of the buckets (base, class) that exist. -/
structure InvG (st : State) (live bs : List (Nat × Nat)) : Prop where
  ids : st.init ≠ 0 → ∀ a, a < 8 → (st.arenas a).id = a
  pre : st.init = 0 → bs = [] ∧ live = []
  buckets : ∀ b k, (b, k) ∈ bs →
    k < 8 ∧ b ≠ 0 ∧ b % 4096 = 0 ∧ BucketWF st.mem b k
  heads : ∀ a k, a < 8 → k < 8 → (st.arenas a).bucket_head k ≠ 0 →
    ((st.arenas a).bucket_head k, k) ∈ bs ∧
    read32 st.mem ((st.arenas a).bucket_head k + 12) = a ∧
    read32 st.mem ((st.arenas a).bucket_head k + 8) < 1024
  lives : ∀ p n, (p, n) ∈ live →
    n + 16 < 2 ^ 64 ∧ (if n + 8 ≤ 2048 then SmallLive st.mem bs p n else LargeLive st.mem p n)
  regs_mapped : ∀ x, IsRegion bs live x → ∀ pg, pagesOf x.1 x.2 pg → mapped st.calls pg = true
  regs_disj : ∀ x y, IsRegion bs live x → IsRegion bs live y → x = y ∨ PageDisj x y

/-- The invariant of the reachable states. -/
def Inv (st : State) (live : List (Nat × Nat)) : Prop := ∃ bs, InvG st live bs

/-- The state in which `xmalloc` reaches its size test: arenas initialised, one chosen. -/
def entered (st : State) : State :=
  let st0 := if st.init = 0 then init_arenas st else st
  { st0 with arenas := (choose_arena st0.arenas).2 }

/-- The index of the arena `xmalloc` chooses in state `st`. -/
def chosen (st : State) : Nat :=
  (choose_arena (if st.init = 0 then init_arenas st else st).arenas).1

/-- The state after the test `if (bucket == 0)` of `xmalloc`: arena `a` has a bucket for
class `index`, freshly set up at `ret` if there was none. -/
def with_bucket (st : State) (a index ret : Nat) : State :=
  if (st.arenas a).bucket_head index = 0 then
    { (page_setup st index a ret).2 with
      arenas := set_head (page_setup st index a ret).2.arenas a index
        (page_setup st index a ret).1 }
  else st

/-! ## Runs of allocations and of frees -/

/-- Every arena of the pool has its busy flag clear. -/
def Idle (st : State) : Prop := ∀ a, a < 8 → (st.arenas a).in_use = 0

/-- The requests `reqs` (size, `mmap` result) served by `xmalloc` one after the other:
the pointers returned, in order, and the final state. -/
def alloc_all : State → List (Nat × Nat) → List Nat × State
  | st, [] => ([], st)
  | st, q :: qs =>
    ((xmalloc st q.1 q.2).1 :: (alloc_all (xmalloc st q.1 q.2).2 qs).1,
     (alloc_all (xmalloc st q.1 q.2).2 qs).2)

/-- The list of live allocations after the requests `reqs`. -/
def live_after : State → List (Nat × Nat) → List (Nat × Nat) → List (Nat × Nat)
  | _, [], live => live
  | st, q :: qs, live =>
    live_after (xmalloc st q.1 q.2).2 qs (((xmalloc st q.1 q.2).1, q.1) :: live)

/-- The pointers `ps` released by `xfree` one after the other. -/
def free_all : State → List Nat → Option State
  | st, [] => some st
  | st, p :: ps => (xfree st p).bind (fun s => free_all s ps)

/-- The list of live allocations after the pointers `ps` have been released. -/
def live_less : List (Nat × Nat) → List Nat → List (Nat × Nat)
  | live, [] => live
  | live, p :: ps => live_less (live.filter (fun e => decide (e.1 ≠ p))) ps

/-- The requests that fill a bucket of the 2048-byte class: 1023 requests of 2040 bytes,
the bucket being mapped at address 4096. -/
def fill_requests : List (Nat × Nat) := (2040, 4096) :: List.replicate 1022 (2040, 4096)

/-! ## Reallocation -/

/-- The call `memcpy(dst, src, n)` on ranges that do not overlap: for every `i < n`, byte
`i` of the destination receives byte `i` of the source. -/
def memcpy (m : Mem) (dst src : Nat) : Nat → Mem
  | 0 => m
  | n + 1 => write8 (memcpy m dst src n) (dst + n) (read8 m (src + n))

/-- The function `xrealloc`; `ret` is what `mmap` returns if the inner `xmalloc` maps a
region.  The result is `none` where the inner `xfree` has no defined behaviour. -/
def xrealloc (st : State) (prev nn ret : Nat) : Option (Nat × State) :=
  let (new_data, st1) := xmalloc st nn ret
  let st2 := { st1 with mem := memcpy st1.mem new_data prev nn }
  (xfree st2 prev).map (fun s => (new_data, s))

/-! ## The mutex calls -/

/-- A mutex of the program: `global_lock`, or the field `lock` of `arenas[a]`. -/
inductive Mutex where
  | global
  | arena (a : Nat)
  deriving DecidableEq

/-- A call made on a mutex: `pthread_mutex_init`, `pthread_mutex_lock` or
`pthread_mutex_unlock`. -/
inductive LockOp where
  | init (m : Mutex)
  | lock (m : Mutex)
  | unlock (m : Mutex)
  deriving DecidableEq

/-- The mutex calls `init_arenas` makes: `pthread_mutex_init` on the lock of `arenas[ii]`
for `ii = 0 .. 7`, in the order of its loop. -/
def init_arenas_locks : List LockOp :=
  (List.range 8).map (fun ii => LockOp.init (Mutex.arena ii))

/-- The mutex calls `xmalloc` makes, in program order: on a call that finds `init` clear
the calls of `init_arenas`; then `global_lock` around `choose_arena`; then the lock of the
chosen arena, taken before the size test and released at the end of either branch. -/
def xmalloc_locks (st : State) (nbytes : Nat) : List LockOp :=
  let st0 := if st.init = 0 then init_arenas st else st
  let a := (choose_arena st0.arenas).1
  let nbytes1 := (nbytes + 8) % 2 ^ 64
  (if st.init = 0 then init_arenas_locks else []) ++
    [LockOp.lock Mutex.global, LockOp.unlock Mutex.global, LockOp.lock (Mutex.arena a)] ++
    (if nbytes1 > 2048 then [LockOp.unlock (Mutex.arena a)]
     else [LockOp.unlock (Mutex.arena a)])

/-- The mutex calls `xfree` makes, in program order: none in the large branch, the lock of
`arenas[bucket->arena]` around the small branch. -/
def xfree_locks (st : State) (p : Nat) : List LockOp :=
  if xfree_size st.mem p > 2048 then []
  else
    [LockOp.lock (Mutex.arena (read32 st.mem (xfree_bucket st.mem p + 12))),
     LockOp.unlock (Mutex.arena (read32 st.mem (xfree_bucket st.mem p + 12)))]

/-! ## Concrete pools and states used as examples -/

/-- A pool in which arenas 0 and 1 are busy and the others are not. -/
def pool_two_busy : Nat → Arena :=
  fun i => { id := i, in_use := if i < 2 then 1 else 0, bucket_head := fun _ => 0 }

/-- A pool in which every arena is busy. -/
def pool_all_busy : Nat → Arena :=
  fun i => { id := i, in_use := 1, bucket_head := fun _ => 0 }

/-- The state right after `page_setup(0, &arenas[0])` at program start, the bucket being
mapped at address 4096. -/
def setup_state : State := (page_setup (initial (fun _ => 0)) 0 0 4096).2

/-! ## The reachable states with the history of their buckets -/

/-- The reachable states (as in `Reach`) together with the list `bk` of the buckets that
exist: a bucket enters the list when `xmalloc` calls `page_setup` (the request is small and
the chosen arena has no bucket for the class), with its address, the class index it is
created for and the index of the arena that creates it; it leaves the list when `xfree`
unmaps it, that is when the call made by `xfree` is `munmap` of its region. -/
inductive ReachB : State → List (Nat × Nat) → List (Nat × Nat × Nat) → Prop where
  | start (m : Mem) : ReachB (initial m) [] []
  | malloc {st : State} {live : List (Nat × Nat)} {bk : List (Nat × Nat × Nat)}
      (n ret : Nat) :
      ReachB st live bk → n + 16 < 2 ^ 64 →
      (∀ len, (xmalloc st n ret).2.calls = Call.mmap len ret :: st.calls →
        Fresh st.calls ret len) →
      ReachB (xmalloc st n ret).2 (((xmalloc st n ret).1, n) :: live)
        (if n + 8 ≤ 2048 ∧ ((entered st).arenas (chosen st)).bucket_head (size_class (n + 8)) = 0
         then (ret, size_class (n + 8), chosen st) :: bk else bk)
  | free {st st' : State} {live : List (Nat × Nat)} {bk : List (Nat × Nat × Nat)}
      (p n : Nat) :
      ReachB st live bk → (p, n) ∈ live → xfree st p = some st' →
      ReachB st' (live.filter (fun e => e.1 ≠ p))
        (bk.filter (fun e =>
          decide (st'.calls ≠ Call.munmap e.1 (PAGE_SIZE * pn e.2.1) :: st.calls)))

end XMalloc

namespace XMalloc

/-! ## Memory lemmas -/

theorem read8_lt (m : Mem) (a : Nat) : read8 m a < 256 := by
  unfold read8; omega

theorem read8_write8 (m : Mem) (a v x : Nat) :
    read8 (write8 m a v) x = if x = a then v % 256 else read8 m x := by
  unfold read8 write8
  split <;> simp

theorem writeLE_other (k : Nat) (m : Mem) (a v x : Nat) (h : x < a ∨ a + k ≤ x) :
    writeLE m a v k x = m x := by
  induction k generalizing m a v with
  | zero => rfl
  | succ k ih =>
    rw [writeLE, ih _ _ _ (by omega)]
    unfold write8
    rw [if_neg (by omega)]

theorem readLE_congr (k : Nat) {m m' : Mem} (a : Nat)
    (h : ∀ x, a ≤ x → x < a + k → m' x = m x) : readLE m' a k = readLE m a k := by
  induction k generalizing a with
  | zero => rfl
  | succ k ih =>
    rw [readLE, readLE, ih (a + 1) (fun x h1 h2 => h x (by omega) (by omega))]
    unfold read8
    rw [h a (by omega) (by omega)]

theorem readLE_lt (m : Mem) (k a : Nat) : readLE m a k < 256 ^ k := by
  induction k generalizing a with
  | zero => simp [readLE]
  | succ k ih =>
    have h1 := ih (a + 1)
    have h2 := read8_lt m a
    rw [readLE, pow_succ]
    omega

theorem readLE_writeLE (k : Nat) (m : Mem) (a v : Nat) :
    readLE (writeLE m a v k) a k = v % 256 ^ k := by
  induction k generalizing m a v with
  | zero => simp [readLE, Nat.mod_one]
  | succ k ih =>
    rw [writeLE, readLE, ih, pow_succ', Nat.mod_mul]
    congr 1
    unfold read8
    rw [writeLE_other _ _ _ _ _ (by omega)]
    simp [write8]

theorem read64_write64 (m : Mem) (a v : Nat) : read64 (write64 m a v) a = v % 2 ^ 64 := by
  unfold read64 write64
  rw [readLE_writeLE]; norm_num

theorem read32_write32 (m : Mem) (a v : Nat) : read32 (write32 m a v) a = v % 2 ^ 32 := by
  unfold read32 write32
  rw [readLE_writeLE]; norm_num

theorem read64_lt (m : Mem) (a : Nat) : read64 m a < 2 ^ 64 := by
  have := readLE_lt m 8 a
  unfold read64; norm_num at this ⊢; exact this

theorem read32_lt (m : Mem) (a : Nat) : read32 m a < 2 ^ 32 := by
  have := readLE_lt m 4 a
  unfold read32; norm_num at this ⊢; exact this

theorem write64_other (m : Mem) (a v x : Nat) (h : x < a ∨ a + 8 ≤ x) :
    write64 m a v x = m x := writeLE_other 8 m a v x h

theorem write32_other (m : Mem) (a v x : Nat) (h : x < a ∨ a + 4 ≤ x) :
    write32 m a v x = m x := writeLE_other 4 m a v x h

theorem write8_other (m : Mem) (a v x : Nat) (h : x ≠ a) : write8 m a v x = m x := by
  unfold write8; rw [if_neg h]

theorem read8_congr {m m' : Mem} (a : Nat) (h : m' a = m a) : read8 m' a = read8 m a := by
  unfold read8; rw [h]

theorem read64_congr {m m' : Mem} (a : Nat) (h : ∀ x, a ≤ x → x < a + 8 → m' x = m x) :
    read64 m' a = read64 m a := readLE_congr 8 a h

theorem read32_congr {m m' : Mem} (a : Nat) (h : ∀ x, a ≤ x → x < a + 4 → m' x = m x) :
    read32 m' a = read32 m a := readLE_congr 4 a h

/-- Writing the same byte value over a range of consecutive addresses. -/
theorem foldl_write8_range (c v : Nat) (n s : Nat) (m : Mem) (x : Nat) :
    (List.range' s n).foldl (fun m ii => write8 m (c + ii) v) m x =
      if c + s ≤ x ∧ x < c + s + n then v % 256 else m x := by
  induction n generalizing s m with
  | zero => rw [if_neg (by omega)]; rfl
  | succ n ih =>
    rw [List.range'_succ, List.foldl_cons, ih]
    unfold write8
    by_cases h1 : x = c + s
    · subst h1; simp
    · rw [if_neg h1]
      by_cases h2 : c + (s + 1) ≤ x ∧ x < c + (s + 1) + n
      · rw [if_pos h2, if_pos (by omega)]
      · rw [if_neg h2, if_neg (by omega)]

/-! ## The tables -/

theorem sz_pos {k : Nat} (hk : k < 8) : 16 ≤ sz k ∧ sz k ≤ 2048 := by
  interval_cases k <;> simp [sz, sizes]

theorem pages_eq {k : Nat} (hk : k < 8) : PAGE_SIZE * pn k = 1024 * sz k := by
  interval_cases k <;> simp [sz, sizes, pn, page_nums, PAGE_SIZE]

theorem divs_bounds {k : Nat} (hk : k < 8) :
    1 ≤ divs (sz k) ∧ divs (sz k) ≤ 65 ∧ 1040 ≤ sz k * divs (sz k) := by
  interval_cases k <;> simp [sz, sizes, divs, sizeof_bucket_header]

theorem sz_inj {k j : Nat} (hk : k < 8) (hj : j < 8) (h : sz k = sz j) : k = j := by
  interval_cases k <;> interval_cases j <;> simp [sz, sizes] at h ⊢

theorem bucket_num_loop_sz {k : Nat} (hk : k < 8) : bucket_num_loop (sz k) 9 0 = some k := by
  interval_cases k <;> simp [sz, sizes, bucket_num_loop]

/-- Address arithmetic of slot `i` in a bucket of class `k`. -/
theorem slot_bounds (k : Nat) {i : Nat} (hi : i < 1024) :
    sz k * i + sz k ≤ 1024 * sz k := by
  have h : sz k * (i + 1) ≤ sz k * 1024 := Nat.mul_le_mul_left _ (by omega)
  rw [Nat.mul_add, Nat.mul_one] at h
  omega

theorem slot_above_meta {k i : Nat} (hk : k < 8) (hi : divs (sz k) ≤ i) : 1040 ≤ sz k * i := by
  have h : sz k * divs (sz k) ≤ sz k * i := Nat.mul_le_mul_left _ hi
  have := (divs_bounds hk).2.2
  omega

theorem slot_apart (k : Nat) {i j : Nat} (hij : i ≠ j) :
    sz k * i + sz k ≤ sz k * j ∨ sz k * j + sz k ≤ sz k * i := by
  rcases Nat.lt_or_gt_of_ne hij with h | h
  · left
    have h1 : sz k * (i + 1) ≤ sz k * j := Nat.mul_le_mul_left _ h
    rw [Nat.mul_add, Nat.mul_one] at h1; exact h1
  · right
    have h1 : sz k * (j + 1) ≤ sz k * i := Nat.mul_le_mul_left _ h
    rw [Nat.mul_add, Nat.mul_one] at h1; exact h1

/-! ## Counting marked bitmap entries -/

theorem ones_le (m : Mem) (b n : Nat) : ones m b n ≤ n := by
  induction n with
  | zero => simp [ones]
  | succ n ih => rw [ones]; split <;> omega

theorem ones_mono (m : Mem) (b : Nat) {n n' : Nat} (h : n ≤ n') : ones m b n ≤ ones m b n' := by
  induction n' with
  | zero => have : n = 0 := by omega
            subst this; exact Nat.le_refl _
  | succ k ih =>
    rcases Nat.eq_or_lt_of_le h with h1 | h1
    · rw [h1]
    · have := ih (by omega)
      rw [ones]; omega

theorem ones_congr {m m' : Mem} {b : Nat} (n : Nat)
    (h : ∀ i, i < n → bitmap m' b i = bitmap m b i) : ones m' b n = ones m b n := by
  induction n with
  | zero => rfl
  | succ n ih =>
    rw [ones, ones, ih (fun i hi => h i (by omega)), h n (by omega)]

theorem ones_all {m : Mem} {b : Nat} (n : Nat) (h : ∀ i, i < n → bitmap m b i = 1) :
    ones m b n = n := by
  induction n with
  | zero => rfl
  | succ n ih =>
    rw [ones, ih (fun i hi => h i (by omega)), if_pos (h n (by omega))]

theorem ones_full {m : Mem} {b : Nat} (n : Nat) (h : ones m b n = n) :
    ∀ i, i < n → bitmap m b i = 1 := by
  induction n with
  | zero => intro i hi; omega
  | succ n ih =>
    rw [ones] at h
    have hle := ones_le m b n
    by_cases hb : bitmap m b n = 1
    · rw [if_pos hb] at h
      intro i hi
      rcases Nat.eq_or_lt_of_le (Nat.le_of_lt_succ hi) with h1 | h1
      · rw [h1]; exact hb
      · exact ih (by omega) i h1
    · rw [if_neg hb] at h; omega

theorem ones_set {m m' : Mem} {b i : Nat} (n : Nat) (hi : i < n)
    (h0 : bitmap m b i ≠ 1) (h1 : bitmap m' b i = 1)
    (ho : ∀ j, j < n → j ≠ i → bitmap m' b j = bitmap m b j) :
    ones m' b n = ones m b n + 1 := by
  induction n with
  | zero => omega
  | succ n ih =>
    rw [ones, ones]
    rcases Nat.eq_or_lt_of_le (Nat.le_of_lt_succ hi) with h2 | h2
    · subst h2
      rw [ones_congr i (fun j hj => ho j (by omega) (by omega)), if_pos h1, if_neg h0]
    · rw [ih h2 (fun j hj hne => ho j (by omega) hne), ho n (by omega) (by omega)]
      omega

theorem ones_clear {m m' : Mem} {b i : Nat} (n : Nat) (hi : i < n)
    (h1 : bitmap m b i = 1) (h0 : bitmap m' b i ≠ 1)
    (ho : ∀ j, j < n → j ≠ i → bitmap m' b j = bitmap m b j) :
    ones m b n = ones m' b n + 1 :=
  ones_set n hi h0 h1 (fun j hj hne => (ho j hj hne).symm)

theorem ones_above {m : Mem} {b N n i : Nat} (hp : ∀ j, j < N → bitmap m b j = 1)
    (hN : N ≤ i) (hi : i < n) (hb : bitmap m b i = 1) : N < ones m b n := by
  have h1 : ones m b N = N := ones_all N hp
  have h2 : ones m b N ≤ ones m b i := ones_mono m b hN
  have h3 : ones m b (i + 1) ≤ ones m b n := ones_mono m b hi
  rw [ones, if_pos hb] at h3
  omega

/-! ## The scan of `get_block` -/

theorem scan_spec (m : Mem) (b fuel ii : Nat) :
    ii ≤ scan m b fuel ii ∧ scan m b fuel ii ≤ ii + fuel ∧
    (∀ x, ii ≤ x → x < scan m b fuel ii → bitmap m b x ≠ 0) ∧
    (scan m b fuel ii < ii + fuel → bitmap m b (scan m b fuel ii) = 0) := by
  induction fuel generalizing ii with
  | zero =>
    refine ⟨Nat.le_refl _, Nat.le_refl _, fun x h1 h2 => ?_, fun h => ?_⟩
    · simp only [scan] at h2; omega
    · simp only [scan] at h; omega
  | succ fuel ih =>
    rw [scan]
    by_cases h : read8 m (b + 16 + ii) = 0
    · rw [if_pos h]
      refine ⟨Nat.le_refl _, by omega, fun x h1 h2 => by omega, fun _ => h⟩
    · rw [if_neg h]
      obtain ⟨h1, h2, h3, h4⟩ := ih (ii + 1)
      refine ⟨by omega, by omega, fun x hx1 hx2 => ?_, fun hlt => h4 (by omega)⟩
      rcases Nat.eq_or_lt_of_le hx1 with e | e
      · rw [← e]; exact h
      · exact h3 x e hx2

/-- In a consistent bucket that is not full the scan stops at a free slot above the
metadata. -/
theorem scan_free {m : Mem} {b k : Nat} (wf : BucketWF m b k)
    (hfill : read32 m (b + 8) < 1024) :
    divs (sz k) ≤ scan m b 1024 0 ∧ scan m b 1024 0 < 1024 ∧
    bitmap m b (scan m b 1024 0) = 0 := by
  obtain ⟨_, h2, h3, h4⟩ := scan_spec m b 1024 0
  have hlt : scan m b 1024 0 < 1024 := by
    by_contra hc
    have hs : scan m b 1024 0 = 1024 := by omega
    have hall : ∀ i, i < 1024 → bitmap m b i = 1 := fun i hi => by
      rcases wf.bits01 i hi with e | e
      · exact absurd e (h3 i (Nat.zero_le _) (by omega))
      · exact e
    have := ones_all 1024 hall
    have := wf.fill_eq
    omega
  refine ⟨?_, hlt, h4 (by omega)⟩
  by_contra hc
  have := wf.meta_set _ (Nat.lt_of_not_le hc)
  have := h4 (by omega)
  omega

/-! ## One call of `get_block` -/

/-- The memory `get_block` leaves behind when it takes slot `i` of the bucket of class
`k` at `b` whose fill was `f`. -/
theorem get_block_eq {st : State} {b k : Nat} (a : Nat) (hk : k < 8)
    (wf : BucketWF st.mem b k) (hfill : read32 st.mem (b + 8) < 1024) :
    get_block st b k a =
      (b + sz k * scan st.mem b 1024 0,
       { st with
         mem := write64 (write32 (write8 st.mem (b + 16 + scan st.mem b 1024 0) 1) (b + 8)
                  (read32 st.mem (b + 8) + 1)) (b + sz k * scan st.mem b 1024 0)
                  (sz k * scan st.mem b 1024 0),
         arenas := if read32 st.mem (b + 8) + 1 = 1024 then set_head st.arenas a k 0
                   else st.arenas }) := by
  obtain ⟨h1, h2, h3⟩ := scan_free wf hfill
  have hs := sz_pos hk
  have hsl := slot_bounds k h2
  have e1 : read32 (write8 st.mem (b + 16 + scan st.mem b 1024 0) 1) (b + 8)
      = read32 st.mem (b + 8) :=
    read32_congr _ (fun x hx1 hx2 => write8_other _ _ _ _ (by omega))
  have e2 : read64 (write32 (write8 st.mem (b + 16 + scan st.mem b 1024 0) 1) (b + 8)
      (read32 st.mem (b + 8) + 1)) b = sz k := by
    rw [← wf.size_eq]
    exact read64_congr _ (fun x hx1 hx2 => by
      rw [write32_other _ _ _ _ (by omega), write8_other _ _ _ _ (by omega)])
  have e3 : (sz k * scan st.mem b 1024 0) % 2 ^ 64 = sz k * scan st.mem b 1024 0 :=
    Nat.mod_eq_of_lt (by omega)
  have e4 : (read32 st.mem (b + 8) + 1) % 2 ^ 32 = read32 st.mem (b + 8) + 1 :=
    Nat.mod_eq_of_lt (by omega)
  unfold get_block
  simp only [if_pos h2, e1, e2, e3, read32_write32, e4]

/-! ## `xmalloc` in pieces -/

theorem xmalloc_small_eq (st : State) (n ret : Nat) (h : (n + 8) % 2 ^ 64 ≤ 2048) :
    xmalloc st n ret =
      ((get_block (with_bucket (entered st) (chosen st) (size_class ((n + 8) % 2 ^ 64)) ret)
          (((with_bucket (entered st) (chosen st) (size_class ((n + 8) % 2 ^ 64)) ret).arenas
            (chosen st)).bucket_head (size_class ((n + 8) % 2 ^ 64)))
          (size_class ((n + 8) % 2 ^ 64)) (chosen st)).1 + 8,
       { (get_block (with_bucket (entered st) (chosen st) (size_class ((n + 8) % 2 ^ 64)) ret)
          (((with_bucket (entered st) (chosen st) (size_class ((n + 8) % 2 ^ 64)) ret).arenas
            (chosen st)).bucket_head (size_class ((n + 8) % 2 ^ 64)))
          (size_class ((n + 8) % 2 ^ 64)) (chosen st)).2 with
         arenas := set_in_use (get_block
          (with_bucket (entered st) (chosen st) (size_class ((n + 8) % 2 ^ 64)) ret)
          (((with_bucket (entered st) (chosen st) (size_class ((n + 8) % 2 ^ 64)) ret).arenas
            (chosen st)).bucket_head (size_class ((n + 8) % 2 ^ 64)))
          (size_class ((n + 8) % 2 ^ 64)) (chosen st)).2.arenas (chosen st) 0 }) := by
  unfold xmalloc
  simp only [if_neg (Nat.not_lt.mpr h)]
  rfl

theorem xmalloc_large_eq (st : State) (n ret : Nat) (h : 2048 < (n + 8) % 2 ^ 64) :
    xmalloc st n ret =
      (ret + 16,
       { entered st with
         calls := Call.mmap (((n + 8) % 2 ^ 64 + 8) % 2 ^ 64) ret :: st.calls,
         mem := write64 (write64 st.mem ret (((n + 8) % 2 ^ 64 + 8) % 2 ^ 64)) (ret + 8) 8,
         arenas := set_in_use (entered st).arenas (chosen st) 0 }) := by
  unfold xmalloc
  simp only [if_pos h]
  unfold entered chosen newpage
  split <;> rfl

/-! ## Arena initialisation and selection -/

theorem init_arenas_id (st : State) {a : Nat} (ha : a < 8) :
    ((init_arenas st).arenas a).id = a := by
  interval_cases a <;> simp [init_arenas, List.range_succ, Function.update]

theorem init_fold_head (l : List Nat) (ars : Nat → Arena) (a : Nat) :
    ((l.foldl (fun ars ii => Function.update ars ii { ars ii with id := ii, in_use := 0 })
      ars) a).bucket_head = (ars a).bucket_head := by
  induction l generalizing ars with
  | nil => rfl
  | cons ii l ih =>
    rw [List.foldl_cons, ih]
    by_cases h : a = ii
    · subst h; simp
    · rw [Function.update_noteq h]

theorem init_arenas_head (st : State) (a : Nat) :
    ((init_arenas st).arenas a).bucket_head = (st.arenas a).bucket_head :=
  init_fold_head _ _ _

theorem choose_arena_loop_spec (ars : Nat → Arena) (fuel ii : Nat) :
    ((choose_arena_loop ars fuel ii).1 = 0 ∨
      (ii ≤ (choose_arena_loop ars fuel ii).1 ∧ (choose_arena_loop ars fuel ii).1 < ii + fuel)) ∧
    ∀ a, ((choose_arena_loop ars fuel ii).2 a).id = (ars a).id ∧
      ((choose_arena_loop ars fuel ii).2 a).bucket_head = (ars a).bucket_head := by
  induction fuel generalizing ii with
  | zero => simp [choose_arena_loop]
  | succ fuel ih =>
    rw [choose_arena_loop]
    split
    · refine ⟨Or.inr ⟨Nat.le_refl _, by omega⟩, fun a => ?_⟩
      simp only [set_in_use, Function.update]
      split
      · subst_vars; exact ⟨rfl, rfl⟩
      · exact ⟨rfl, rfl⟩
    · obtain ⟨h1, h2⟩ := ih (ii + 1)
      refine ⟨?_, h2⟩
      rcases h1 with h | h
      · exact Or.inl h
      · exact Or.inr ⟨by omega, by omega⟩

theorem chosen_lt (st : State) : chosen st < 8 := by
  unfold chosen choose_arena
  rcases (choose_arena_loop_spec (if st.init = 0 then init_arenas st else st).arenas 8 0).1
    with h | h <;> omega

theorem entered_mem (st : State) : (entered st).mem = st.mem := by
  unfold entered; split <;> rfl

theorem entered_calls (st : State) : (entered st).calls = st.calls := by
  unfold entered; split <;> rfl

theorem entered_init (st : State) : (entered st).init ≠ 0 := by
  unfold entered
  by_cases h : st.init = 0
  · simp [h, init_arenas]
  · simp [h]

theorem entered_head (st : State) (a : Nat) :
    ((entered st).arenas a).bucket_head = (st.arenas a).bucket_head := by
  unfold entered choose_arena
  by_cases h : st.init = 0
  · simp only [h, if_true]
    rw [(choose_arena_loop_spec _ 8 0).2 a |>.2, init_arenas_head]
  · simp only [h, if_false]
    rw [(choose_arena_loop_spec _ 8 0).2 a |>.2]

theorem entered_id (st : State) (hid : st.init ≠ 0 → ∀ a, a < 8 → (st.arenas a).id = a)
    {a : Nat} (ha : a < 8) : ((entered st).arenas a).id = a := by
  unfold entered choose_arena
  by_cases h : st.init = 0
  · simp only [h, if_true]
    rw [(choose_arena_loop_spec _ 8 0).2 a |>.1, init_arenas_id st ha]
  · simp only [h, if_false]
    rw [(choose_arena_loop_spec _ 8 0).2 a |>.1, hid h a ha]

/-! ## Regions and framing -/

theorem bytes_apart {x y : Nat × Nat} (h : PageDisj x y) {a : Nat}
    (h1 : x.1 ≤ a) (h2 : a < x.1 + x.2) (h3 : y.1 ≤ a) (h4 : a < y.1 + y.2) : False :=
  h (a / 4096) ⟨by omega, by omega⟩ ⟨by omega, by omega⟩

theorem BucketWF_congr {m m' : Mem} {b k : Nat} (hk : k < 8)
    (h : ∀ x, b ≤ x → x < b + 1040 → m' x = m x) (wf : BucketWF m b k) : BucketWF m' b k := by
  have hd := divs_bounds hk
  have hb : ∀ i, i < 1024 → bitmap m' b i = bitmap m b i := fun i hi =>
    read8_congr _ (h _ (by omega) (by omega))
  have hf : read32 m' (b + 8) = read32 m (b + 8) :=
    read32_congr _ (fun x h1 h2 => h x (by omega) (by omega))
  refine ⟨?_, ?_, ?_, ?_, ?_⟩
  · rw [← wf.size_eq]
    exact read64_congr _ (fun x h1 h2 => h x (by omega) (by omega))
  · rw [read32_congr _ (fun x h1 h2 => h x (by omega) (by omega))]
    exact wf.owner_lt
  · intro i hi; rw [hb i hi]; exact wf.bits01 i hi
  · intro i hi
    rw [hb i (by omega)]; exact wf.meta_set i hi
  · rw [hf, wf.fill_eq]
    exact (ones_congr 1024 hb).symm

theorem BucketWF_fill_ge {m : Mem} {b k : Nat} (hk : k < 8) (wf : BucketWF m b k) :
    divs (sz k) ≤ read32 m (b + 8) ∧ read32 m (b + 8) ≤ 1024 := by
  have hd := divs_bounds hk
  have h1 : ones m b (divs (sz k)) = divs (sz k) := ones_all _ wf.meta_set
  have h2 : ones m b (divs (sz k)) ≤ ones m b 1024 := ones_mono m b (by omega)
  have h3 := ones_le m b 1024
  have h4 := wf.fill_eq
  omega

theorem bucket_region {bs : List (Nat × Nat)} (live : List (Nat × Nat)) {b k : Nat}
    (h : (b, k) ∈ bs) :
    IsRegion bs live (b, PAGE_SIZE * pn k) := Or.inl ⟨b, k, h, rfl⟩

theorem large_region {bs live : List (Nat × Nat)} {p n : Nat} (h : (p, n) ∈ live)
    (hn : 2048 < n + 8) : IsRegion bs live (p - 16, n + 16) := Or.inr ⟨p, n, h, hn, rfl⟩

/-- A store confined to one region in use leaves the bytes of every other region alone. -/
theorem agree_region {st : State} {live bs : List (Nat × Nat)} (inv : InvG st live bs)
    (m' : Mem) {y : Nat × Nat} (hy : IsRegion bs live y)
    (hout : ∀ a, (a < y.1 ∨ y.1 + y.2 ≤ a) → m' a = st.mem a) :
    ∀ x, IsRegion bs live x → x ≠ y → ∀ a, x.1 ≤ a → a < x.1 + x.2 → m' a = st.mem a := by
  intro x hx hne a h1 h2
  rcases inv.regs_disj x y hx hy with e | e
  · exact absurd e hne
  · apply hout
    by_contra hc
    exact bytes_apart e h1 h2 (by omega) (by omega)

/-- A store confined to a freshly mapped region leaves the bytes of every region in use
alone. -/
theorem agree_fresh {st : State} {live bs : List (Nat × Nat)} (inv : InvG st live bs)
    (m' : Mem) {ret len : Nat} (hf : Fresh st.calls ret len)
    (hout : ∀ a, (a < ret ∨ ret + len ≤ a) → m' a = st.mem a) :
    ∀ x, IsRegion bs live x → ∀ a, x.1 ≤ a → a < x.1 + x.2 → m' a = st.mem a := by
  intro x hx a h1 h2
  apply hout
  by_contra hc
  have hm := inv.regs_mapped x hx (a / 4096) ⟨by omega, by omega⟩
  have hu := hf.2.2 (a / 4096) ⟨by omega, by omega⟩
  rw [hm] at hu
  exact Bool.noConfusion hu

/-- A freshly mapped region shares no page with a region in use. -/
theorem fresh_disj {st : State} {live bs : List (Nat × Nat)} (inv : InvG st live bs)
    {ret len : Nat} (hf : Fresh st.calls ret len) {x : Nat × Nat} (hx : IsRegion bs live x) :
    PageDisj x (ret, len) := by
  intro pg h1 h2
  have hm := inv.regs_mapped x hx pg h1
  have hu := hf.2.2 pg h2
  rw [hm] at hu
  exact Bool.noConfusion hu

theorem PageDisj_symm {x y : Nat × Nat} (h : PageDisj x y) : PageDisj y x :=
  fun pg h1 h2 => h pg h2 h1

/-- Two tracked buckets with the same base have the same class. -/
theorem bucket_class_unique {st : State} {live bs : List (Nat × Nat)} (inv : InvG st live bs)
    {b k k' : Nat} (h : (b, k) ∈ bs) (h' : (b, k') ∈ bs) : k = k' := by
  obtain ⟨hk, _, _, wf⟩ := inv.buckets b k h
  obtain ⟨hk', _, _, wf'⟩ := inv.buckets b k' h'
  exact sz_inj hk hk' (by rw [← wf.size_eq, wf'.size_eq])

/-- A tracked bucket is not the region of a live large allocation. -/
theorem bucket_ne_large {st : State} {live bs : List (Nat × Nat)} (inv : InvG st live bs)
    {b k p n : Nat} (h : (b, k) ∈ bs) (hl : (p, n) ∈ live) (hn : 2048 < n + 8) :
    b ≠ p - 16 := by
  intro e
  obtain ⟨hk, _, _, wf⟩ := inv.buckets b k h
  have h1 := (inv.lives p n hl).2
  rw [if_neg (by omega)] at h1
  obtain ⟨r, hp, _, hr, _⟩ := h1
  have h2 := wf.size_eq
  have h3 := sz_pos hk
  have : b = r := by omega
  subst this
  omega

/-! ## The stores of `get_block` -/

/-- What the three stores of `get_block` (bitmap byte, fill, slot header) change. -/
theorem take_slot (m : Mem) {b s i f : Nat} (hi : i < 1024) (hlo : 1040 ≤ s * i)
    (hhi : s * i + s ≤ 1024 * s) (hs : 16 ≤ s) (hf : f < 1024) (hs2 : s ≤ 2048) :
    (∀ x, (x < b ∨ b + 1024 * s ≤ x) →
      write64 (write32 (write8 m (b + 16 + i) 1) (b + 8) (f + 1)) (b + s * i) (s * i) x = m x) ∧
    (∀ j, j < 1024 → j ≠ i →
      bitmap (write64 (write32 (write8 m (b + 16 + i) 1) (b + 8) (f + 1)) (b + s * i) (s * i)) b j
        = bitmap m b j) ∧
    bitmap (write64 (write32 (write8 m (b + 16 + i) 1) (b + 8) (f + 1)) (b + s * i) (s * i)) b i
      = 1 ∧
    read32 (write64 (write32 (write8 m (b + 16 + i) 1) (b + 8) (f + 1)) (b + s * i) (s * i))
      (b + 8) = f + 1 ∧
    read32 (write64 (write32 (write8 m (b + 16 + i) 1) (b + 8) (f + 1)) (b + s * i) (s * i))
      (b + 12) = read32 m (b + 12) ∧
    read64 (write64 (write32 (write8 m (b + 16 + i) 1) (b + 8) (f + 1)) (b + s * i) (s * i)) b
      = read64 m b ∧
    read64 (write64 (write32 (write8 m (b + 16 + i) 1) (b + 8) (f + 1)) (b + s * i) (s * i))
      (b + s * i) = s * i ∧
    (∀ a, b + 1040 ≤ a → (a + 8 ≤ b + s * i ∨ b + s * i + 8 ≤ a) →
      read64 (write64 (write32 (write8 m (b + 16 + i) 1) (b + 8) (f + 1)) (b + s * i) (s * i)) a
        = read64 m a) := by
  refine ⟨?_, ?_, ?_, ?_, ?_, ?_, ?_, ?_⟩
  · intro x hx
    rw [write64_other _ _ _ _ (by omega), write32_other _ _ _ _ (by omega),
      write8_other _ _ _ _ (by omega)]
  · intro j hj hne
    unfold bitmap
    apply read8_congr
    rw [write64_other _ _ _ _ (by omega), write32_other _ _ _ _ (by omega),
      write8_other _ _ _ _ (by omega)]
  · unfold bitmap read8
    rw [write64_other _ _ _ _ (by omega), write32_other _ _ _ _ (by omega)]
    simp [write8]
  · rw [read32_congr (m := write32 (write8 m (b + 16 + i) 1) (b + 8) (f + 1)) _
      (fun x h1 h2 => write64_other _ _ _ _ (by omega)), read32_write32]
    exact Nat.mod_eq_of_lt (by omega)
  · exact read32_congr _ (fun x h1 h2 => by
      rw [write64_other _ _ _ _ (by omega), write32_other _ _ _ _ (by omega),
        write8_other _ _ _ _ (by omega)])
  · exact read64_congr _ (fun x h1 h2 => by
      rw [write64_other _ _ _ _ (by omega), write32_other _ _ _ _ (by omega),
        write8_other _ _ _ _ (by omega)])
  · rw [read64_write64]
    exact Nat.mod_eq_of_lt (by omega)
  · intro a ha h1
    exact read64_congr _ (fun x h2 h3 => by
      rw [write64_other _ _ _ _ (by omega), write32_other _ _ _ _ (by omega),
        write8_other _ _ _ _ (by omega)])

/-- Taking a free slot keeps a bucket consistent and raises `fill` by one. -/
theorem take_slot_wf {m : Mem} {b k i : Nat} (hk : k < 8) (wf : BucketWF m b k)
    (hi : i < 1024) (hd : divs (sz k) ≤ i) (h0 : bitmap m b i = 0)
    (hfill : read32 m (b + 8) < 1024) :
    BucketWF (write64 (write32 (write8 m (b + 16 + i) 1) (b + 8) (read32 m (b + 8) + 1))
      (b + sz k * i) (sz k * i)) b k := by
  obtain ⟨_, t2, t3, t4, t5, t6, _, _⟩ :=
    take_slot m (b := b) hi (slot_above_meta hk hd) (slot_bounds k hi) (sz_pos hk).1 hfill
      (sz_pos hk).2
  refine ⟨by rw [t6]; exact wf.size_eq, by rw [t5]; exact wf.owner_lt, ?_, ?_, ?_⟩
  · intro j hj
    by_cases e : j = i
    · subst e; exact Or.inr t3
    · rw [t2 j hj e]; exact wf.bits01 j hj
  · intro j hj
    by_cases e : j = i
    · subst e; exact t3
    · rw [t2 j (by have := divs_bounds hk; omega) e]; exact wf.meta_set j hj
  · have h1 : bitmap m b i ≠ 1 := by omega
    have h2 := ones_set (m := m) 1024 hi h1 t3 (fun j hj hne => t2 j hj hne)
    have h3 := wf.fill_eq
    rw [t4, h2, h3]

/-! ## Arena updates -/

theorem set_head_id (ars : Nat → Arena) (a k v a' : Nat) :
    (set_head ars a k v a').id = (ars a').id := by
  unfold set_head
  by_cases h : a' = a
  · subst h; simp
  · rw [Function.update_noteq h]

theorem set_head_head (ars : Nat → Arena) (a k v a' k' : Nat) :
    (set_head ars a k v a').bucket_head k' =
      if a' = a ∧ k' = k then v else (ars a').bucket_head k' := by
  unfold set_head
  by_cases h : a' = a
  · subst h
    by_cases h2 : k' = k
    · subst h2; simp
    · simp [h2]
  · rw [Function.update_noteq h, if_neg (fun hc => h hc.1)]

theorem set_in_use_id (ars : Nat → Arena) (a v a' : Nat) :
    (set_in_use ars a v a').id = (ars a').id := by
  unfold set_in_use
  by_cases h : a' = a
  · subst h; simp
  · rw [Function.update_noteq h]

theorem set_in_use_head (ars : Nat → Arena) (a v a' : Nat) :
    (set_in_use ars a v a').bucket_head = (ars a').bucket_head := by
  unfold set_in_use
  by_cases h : a' = a
  · subst h; simp
  · rw [Function.update_noteq h]

theorem IsRegion_cons_small {bs live : List (Nat × Nat)} {p n : Nat} (hn : n + 8 ≤ 2048)
    {x : Nat × Nat} (h : IsRegion bs ((p, n) :: live) x) : IsRegion bs live x := by
  rcases h with h | ⟨q, n', hq, hbig, e⟩
  · exact Or.inl h
  · rcases List.mem_cons.mp hq with e1 | e1
    · have : n' = n := (Prod.mk.inj e1).2
      omega
    · exact Or.inr ⟨q, n', e1, hbig, e⟩

/-- Changing only the `in_use` flags and nothing else keeps the invariant. -/
theorem InvG_in_use {st : State} {live bs : List (Nat × Nat)} (inv : InvG st live bs)
    (a v : Nat) : InvG { st with arenas := set_in_use st.arenas a v } live bs := by
  refine ⟨?_, inv.pre, inv.buckets, ?_, inv.lives, inv.regs_mapped, inv.regs_disj⟩
  · intro h a' ha'
    show (set_in_use st.arenas a v a').id = a'
    rw [set_in_use_id]; exact inv.ids h a' ha'
  · intro a' k' ha' hk' hh
    have e : (set_in_use st.arenas a v a').bucket_head = (st.arenas a').bucket_head :=
      set_in_use_head _ _ _ _
    have hh' : (st.arenas a').bucket_head k' ≠ 0 := by rw [← e]; exact hh
    have := inv.heads a' k' ha' hk' hh'
    show ((set_in_use st.arenas a v a').bucket_head k', k') ∈ bs ∧ _
    rw [e]; exact this

/-! ## `get_block` keeps the invariant -/

theorem get_block_inv {st : State} {live bs : List (Nat × Nat)} (inv : InvG st live bs)
    {a k n : Nat} (ha : a < 8) (hk : k < 8) (hn : n + 8 ≤ 2048) (hn2 : n + 16 < 2 ^ 64)
    (hc : size_class (n + 8) = k) (hh : (st.arenas a).bucket_head k ≠ 0) :
    InvG (get_block st ((st.arenas a).bucket_head k) k a).2
      (((get_block st ((st.arenas a).bucket_head k) k a).1 + 8, n) :: live) bs := by
  obtain ⟨hb, how, hfl⟩ := inv.heads a k ha hk hh
  generalize hbdef : (st.arenas a).bucket_head k = b at hb how hfl hh ⊢
  obtain ⟨_, hb0, hal, wf⟩ := inv.buckets b k hb
  obtain ⟨hi1, hi2, hi3⟩ := scan_free wf hfl
  rw [get_block_eq a hk wf hfl]
  generalize scan st.mem b 1024 0 = i at hi1 hi2 hi3 ⊢
  obtain ⟨t1, t2, t3, t4, t5, t6, t7, t8⟩ :=
    take_slot st.mem (b := b) (f := read32 st.mem (b + 8)) hi2 (slot_above_meta hk hi1)
      (slot_bounds k hi2) (sz_pos hk).1 hfl (sz_pos hk).2
  have twf := take_slot_wf hk wf hi2 hi1 hi3 hfl
  generalize hm' : write64 (write32 (write8 st.mem (b + 16 + i) 1) (b + 8)
      (read32 st.mem (b + 8) + 1)) (b + sz k * i) (sz k * i) = m' at t1 t2 t3 t4 t5 t6 t7 t8 twf ⊢
  have hpg := pages_eq hk
  have hm := agree_region inv m' (bucket_region live hb)
    (fun x hx => t1 x (by simp only at hx; omega))
  have hsl := slot_bounds k hi2
  have hab := slot_above_meta hk hi1
  have hsz := sz_pos hk
  -- agreement on the whole region of every other bucket
  have hother : ∀ b' k', (b', k') ∈ bs → b' ≠ b →
      ∀ x, b' ≤ x → x < b' + 1024 * sz k' → m' x = st.mem x := by
    intro b' k' h' hne x h1 h2
    have hk' := (inv.buckets b' k' h').1
    have := pages_eq hk'
    exact hm (b', PAGE_SIZE * pn k') (bucket_region live h')
      (fun e => hne (Prod.mk.inj e).1) x h1 (by simp only; omega)
  have hars : ∀ a' k', (a' < 8 → k' < 8 →
      (ite (read32 st.mem (b + 8) + 1 = 1024) (set_head st.arenas a k 0) st.arenas a').bucket_head
        k' ≠ 0 →
      (st.arenas a').bucket_head k' ≠ 0 ∧
      (ite (read32 st.mem (b + 8) + 1 = 1024) (set_head st.arenas a k 0) st.arenas a').bucket_head
        k' = (st.arenas a').bucket_head k' ∧
      ((st.arenas a').bucket_head k' = b → read32 st.mem (b + 8) + 1 ≠ 1024)) ∧
      (ite (read32 st.mem (b + 8) + 1 = 1024) (set_head st.arenas a k 0) st.arenas a').id
        = (st.arenas a').id := by
    intro a' k'
    by_cases hfull : read32 st.mem (b + 8) + 1 = 1024
    · simp only [if_pos hfull, set_head_id, set_head_head]
      refine ⟨fun ha' hk' hh2 => ?_, trivial⟩
      by_cases hak : a' = a ∧ k' = k
      · rw [if_pos hak] at hh2; exact absurd rfl hh2
      · rw [if_neg hak] at hh2
        refine ⟨hh2, by rw [if_neg hak], fun e => ?_⟩
        obtain ⟨g1, g2, _⟩ := inv.heads a' k' ha' hk' hh2
        rw [e] at g1 g2
        have := bucket_class_unique inv g1 hb
        exact absurd ⟨by omega, this⟩ hak
    · simp only [if_neg hfull]
      exact ⟨fun _ _ hh2 => ⟨hh2, trivial, fun _ => hfull⟩, trivial⟩
  generalize (ite (read32 st.mem (b + 8) + 1 = 1024) (set_head st.arenas a k 0) st.arenas) = ars'
    at hars ⊢
  refine ⟨?_, ?_, ?_, ?_, ?_, ?_, ?_⟩
  · intro h a' ha'
    dsimp only
    rw [(hars a' 0).2]; exact inv.ids h a' ha'
  · intro h0
    have := (inv.pre h0).1
    rw [this] at hb
    exact absurd hb (List.not_mem_nil _)
  · intro b' k' h'
    obtain ⟨hk', hb0', hal', wf'⟩ := inv.buckets b' k' h'
    refine ⟨hk', hb0', hal', ?_⟩
    by_cases e : b' = b
    · subst e
      have := bucket_class_unique inv h' hb
      subst this
      exact twf
    · have := sz_pos hk'
      exact BucketWF_congr hk' (fun x h1 h2 => hother b' k' h' e x h1 (by omega)) wf'
  · intro a' k' ha' hk' hh'
    dsimp only at hh' ⊢
    obtain ⟨hh2, e1, e2⟩ := (hars a' k').1 ha' hk' hh'
    obtain ⟨g1, g2, g3⟩ := inv.heads a' k' ha' hk' hh2
    rw [e1]
    refine ⟨g1, ?_, ?_⟩
    · by_cases e : (st.arenas a').bucket_head k' = b
      · rw [e, t5, ← e]; exact g2
      · have := sz_pos hk'
        rw [read32_congr _ (fun x h1 h2 => hother _ k' g1 e x (by omega) (by omega))]
        exact g2
    · by_cases e : (st.arenas a').bucket_head k' = b
      · rw [e, t4]
        have := e2 e
        omega
      · have := sz_pos hk'
        rw [read32_congr _ (fun x h1 h2 => hother _ k' g1 e x (by omega) (by omega))]
        exact g3
  · intro p n' hmem
    dsimp only at hmem ⊢
    rcases List.mem_cons.mp hmem with e | e
    · obtain ⟨e1, e2⟩ := Prod.mk.inj e
      subst e1 e2
      refine ⟨hn2, ?_⟩
      rw [if_pos hn]
      exact ⟨b, k, i, hb, hi1, hi2, rfl, t3, t7, hc⟩
    · obtain ⟨g1, g2⟩ := inv.lives p n' e
      refine ⟨g1, ?_⟩
      by_cases hsm : n' + 8 ≤ 2048
      · rw [if_pos hsm] at g2 ⊢
        obtain ⟨b', k', j, q1, q2, q3, q4, q5, q6, q7⟩ := g2
        have hk' := (inv.buckets b' k' q1).1
        by_cases eb : b' = b
        · subst eb
          have := bucket_class_unique inv q1 hb
          subst this
          have hji : j ≠ i := fun ej => by rw [ej, hi3] at q5; omega
          have hap := slot_apart k' hji
          have hlo := slot_above_meta hk' q2
          refine ⟨b', k', j, q1, q2, q3, q4, ?_, ?_, q7⟩
          · rw [t2 j q3 hji]; exact q5
          · rw [t8 _ (by omega) (by omega)]; exact q6
        · have hlo := slot_above_meta hk' q2
          have hhi := slot_bounds k' q3
          have := sz_pos hk'
          refine ⟨b', k', j, q1, q2, q3, q4, ?_, ?_, q7⟩
          · unfold bitmap
            rw [read8_congr _ (hother b' k' q1 eb _ (by omega) (by omega))]
            exact q5
          · rw [read64_congr _ (fun x h1 h2 => hother b' k' q1 eb x (by omega) (by omega))]
            exact q6
      · rw [if_neg hsm] at g2 ⊢
        obtain ⟨r, q1, q2, q3, q4⟩ := g2
        have hne := bucket_ne_large inv hb e (by omega)
        have hag : ∀ x, r ≤ x → x < r + 16 → m' x = st.mem x := fun x h1 h2 =>
          hm (p - 16, n' + 16) (large_region e (by omega))
            (fun ee => hne (Prod.mk.inj ee).1.symm) x (by simp only; omega) (by simp only; omega)
        refine ⟨r, q1, q2, ?_, ?_⟩
        · rw [read64_congr _ (fun x h1 h2 => hag x (by omega) (by omega))]; exact q3
        · rw [read64_congr _ (fun x h1 h2 => hag x (by omega) (by omega))]; exact q4
  · intro x hx
    exact inv.regs_mapped x (IsRegion_cons_small hn hx)
  · intro x y hx hy
    exact inv.regs_disj x y (IsRegion_cons_small hn hx) (IsRegion_cons_small hn hy)

/-! ## `page_setup` -/

theorem page_setup_fst (st : State) (k a ret : Nat) : (page_setup st k a ret).1 = ret := rfl

theorem page_setup_calls (st : State) (k a ret : Nat) :
    (page_setup st k a ret).2.calls = Call.mmap (PAGE_SIZE * pn k) ret :: st.calls := rfl

theorem page_setup_arenas (st : State) (k a ret : Nat) :
    (page_setup st k a ret).2.arenas = st.arenas := rfl

theorem page_setup_init (st : State) (k a ret : Nat) :
    (page_setup st k a ret).2.init = st.init := rfl

theorem page_setup_mem (st : State) (k a ret x : Nat) :
    (page_setup st k a ret).2.mem x =
      if ret + 16 + divs (sz k) ≤ x ∧ x < ret + 16 + divs (sz k) + (1024 - divs (sz k)) then 0
      else if ret + 16 + 0 ≤ x ∧ x < ret + 16 + 0 + divs (sz k) then 1
      else write32 (write32 (write64 st.mem ret (sz k)) (ret + 12) (st.arenas a).id) (ret + 8)
        (divs (sz k)) x := by
  unfold page_setup newpage
  simp only [List.range_eq_range']
  rw [foldl_write8_range, foldl_write8_range]

/-- The bucket `page_setup` writes at `ret`, for a class index `k < 8`. -/
theorem page_setup_spec (st : State) {k a : Nat} (ret : Nat) (hk : k < 8) (hid : (st.arenas a).id < 8) :
    (∀ x, (x < ret ∨ ret + 1040 ≤ x) → (page_setup st k a ret).2.mem x = st.mem x) ∧
    read64 (page_setup st k a ret).2.mem ret = sz k ∧
    read32 (page_setup st k a ret).2.mem (ret + 12) = (st.arenas a).id ∧
    read32 (page_setup st k a ret).2.mem (ret + 8) = divs (sz k) ∧
    (∀ i, i < 1024 →
      bitmap (page_setup st k a ret).2.mem ret i = if i < divs (sz k) then 1 else 0) := by
  have hd := divs_bounds hk
  have hs := sz_pos hk
  refine ⟨?_, ?_, ?_, ?_, ?_⟩
  · intro x hx
    rw [page_setup_mem, if_neg (by omega), if_neg (by omega), write32_other _ _ _ _ (by omega),
      write32_other _ _ _ _ (by omega), write64_other _ _ _ _ (by omega)]
  · rw [read64_congr (m := write64 st.mem ret (sz k)) _ (fun x h1 h2 => by
      rw [page_setup_mem, if_neg (by omega), if_neg (by omega),
        write32_other _ _ _ _ (by omega), write32_other _ _ _ _ (by omega)]), read64_write64]
    exact Nat.mod_eq_of_lt (by omega)
  · rw [read32_congr (m := write32 (write64 st.mem ret (sz k)) (ret + 12) (st.arenas a).id) _
      (fun x h1 h2 => by
        rw [page_setup_mem, if_neg (by omega), if_neg (by omega),
          write32_other _ _ _ _ (by omega)]), read32_write32]
    exact Nat.mod_eq_of_lt (by omega)
  · rw [read32_congr (m := write32 (write32 (write64 st.mem ret (sz k)) (ret + 12)
        (st.arenas a).id) (ret + 8) (divs (sz k))) _
      (fun x h1 h2 => by
        rw [page_setup_mem, if_neg (by omega), if_neg (by omega)]), read32_write32]
    exact Nat.mod_eq_of_lt (by omega)
  · intro i hi
    unfold bitmap read8
    rw [page_setup_mem]
    by_cases h : i < divs (sz k)
    · rw [if_neg (by omega), if_pos (by omega), if_pos h]
    · rw [if_pos (by omega), if_neg h]

theorem ones_exact {m : Mem} {b N : Nat} (n : Nat) (hN : N ≤ n)
    (h : ∀ i, i < n → bitmap m b i = if i < N then 1 else 0) : ones m b n = N := by
  induction n with
  | zero => rw [ones]; omega
  | succ n ih =>
    rw [ones, h n (by omega)]
    rcases Nat.eq_or_lt_of_le hN with e | e
    · have h1 : ones m b n = n :=
        ones_all n (fun i hi => by rw [h i (by omega), if_pos (by omega)])
      rw [h1]
      split_ifs <;> omega
    · rw [ih (by omega) (fun i hi => h i (by omega)), if_neg (show ¬ n < N by omega)]
      simp

theorem page_setup_wf (st : State) {k a : Nat} (ret : Nat) (hk : k < 8) (hid : (st.arenas a).id < 8) :
    BucketWF (page_setup st k a ret).2.mem ret k := by
  obtain ⟨_, p2, p3, p4, p5⟩ := page_setup_spec st ret hk hid
  have hd := divs_bounds hk
  refine ⟨p2, by rw [p3]; exact hid, ?_, ?_, ?_⟩
  · intro i hi; rw [p5 i hi]; split <;> simp
  · intro i hi; rw [p5 i (by omega), if_pos hi]
  · have := ones_exact (m := (page_setup st k a ret).2.mem) (b := ret) (N := divs (sz k)) 1024
      (by omega) p5
    rw [p4, this]

/-! ## Setting up a new bucket keeps the invariant -/

theorem mapped_mmap (cs : List Call) {ret : Nat} (len pg : Nat) (h : ret % 4096 = 0) :
    mapped (Call.mmap len ret :: cs) pg = (decide (pagesOf ret len pg) || mapped cs pg) := by
  rw [mapped, if_neg]
  unfold MAP_FAILED
  omega

theorem IsRegion_cons_bucket {bs live : List (Nat × Nat)} {b k : Nat} {x : Nat × Nat}
    (h : IsRegion ((b, k) :: bs) live x) : x = (b, PAGE_SIZE * pn k) ∨ IsRegion bs live x := by
  rcases h with ⟨b', k', h1, h2⟩ | h
  · rcases List.mem_cons.mp h1 with e | e
    · obtain ⟨e1, e2⟩ := Prod.mk.inj e
      subst e1 e2; exact Or.inl h2
    · exact Or.inr (Or.inl ⟨b', k', e, h2⟩)
  · exact Or.inr (Or.inr h)

theorem with_bucket_old {st : State} {a k : Nat} (ret : Nat)
    (h : (st.arenas a).bucket_head k ≠ 0) : with_bucket st a k ret = st := by
  unfold with_bucket; rw [if_neg h]

theorem with_bucket_new {st : State} {a k : Nat} (ret : Nat)
    (h : (st.arenas a).bucket_head k = 0) :
    with_bucket st a k ret =
      { init := st.init, arenas := set_head st.arenas a k ret,
        mem := (page_setup st k a ret).2.mem,
        calls := Call.mmap (PAGE_SIZE * pn k) ret :: st.calls } := by
  unfold with_bucket; rw [if_pos h]; rfl

theorem with_bucket_new_inv {st : State} {live bs : List (Nat × Nat)} (inv : InvG st live bs)
    (hinit : st.init ≠ 0) {a k ret : Nat} (ha : a < 8) (hk : k < 8)
    (hhead : (st.arenas a).bucket_head k = 0) (hf : Fresh st.calls ret (PAGE_SIZE * pn k)) :
    InvG (with_bucket st a k ret) live ((ret, k) :: bs) := by
  rw [with_bucket_new ret hhead]
  have hid : (st.arenas a).id < 8 := by rw [inv.ids hinit a ha]; exact ha
  obtain ⟨p1, p2, p3, p4, p5⟩ := page_setup_spec st ret hk hid
  have pwf := page_setup_wf st ret hk hid
  generalize (page_setup st k a ret).2.mem = m' at p1 p2 p3 p4 p5 pwf ⊢
  have hpg := pages_eq hk
  have hsz := sz_pos hk
  have hd := divs_bounds hk
  have hm := agree_fresh inv m' hf (fun x hx => p1 x (by omega))
  have hother : ∀ b' k', (b', k') ∈ bs →
      ∀ x, b' ≤ x → x < b' + 1024 * sz k' → m' x = st.mem x := by
    intro b' k' h' x h1 h2
    have hk' := (inv.buckets b' k' h').1
    have := pages_eq hk'
    exact hm (b', PAGE_SIZE * pn k') (bucket_region live h') x h1 (by simp only; omega)
  refine ⟨?_, ?_, ?_, ?_, ?_, ?_, ?_⟩
  · intro h a' ha'
    dsimp only
    rw [set_head_id]; exact inv.ids h a' ha'
  · intro h0; exact absurd h0 hinit
  · intro b' k' h'
    rcases List.mem_cons.mp h' with e | e
    · obtain ⟨e1, e2⟩ := Prod.mk.inj e
      subst e1 e2
      exact ⟨hk, hf.1, hf.2.1, pwf⟩
    · obtain ⟨hk', hb0', hal', wf'⟩ := inv.buckets b' k' e
      have := sz_pos hk'
      exact ⟨hk', hb0', hal', BucketWF_congr hk'
        (fun x h1 h2 => hother b' k' e x h1 (by omega)) wf'⟩
  · intro a' k' ha' hk' hh'
    dsimp only at hh' ⊢
    rw [set_head_head] at hh' ⊢
    by_cases hak : a' = a ∧ k' = k
    · rw [if_pos hak]
      obtain ⟨e1, e2⟩ := hak
      subst e1 e2
      refine ⟨List.mem_cons_self _ _, ?_, by omega⟩
      rw [p3]; exact inv.ids hinit a' ha'
    · rw [if_neg hak] at hh' ⊢
      obtain ⟨g1, g2, g3⟩ := inv.heads a' k' ha' hk' hh'
      have := sz_pos hk'
      refine ⟨List.mem_cons_of_mem _ g1, ?_, ?_⟩
      · rw [read32_congr _ (fun x h1 h2 => hother _ k' g1 x (by omega) (by omega))]
        exact g2
      · rw [read32_congr _ (fun x h1 h2 => hother _ k' g1 x (by omega) (by omega))]
        exact g3
  · intro p n' e
    dsimp only
    obtain ⟨g1, g2⟩ := inv.lives p n' e
    refine ⟨g1, ?_⟩
    by_cases hsm : n' + 8 ≤ 2048
    · rw [if_pos hsm] at g2 ⊢
      obtain ⟨b', k', j, q1, q2, q3, q4, q5, q6, q7⟩ := g2
      have hk' := (inv.buckets b' k' q1).1
      have hlo := slot_above_meta hk' q2
      have hhi := slot_bounds k' q3
      have := sz_pos hk'
      refine ⟨b', k', j, List.mem_cons_of_mem _ q1, q2, q3, q4, ?_, ?_, q7⟩
      · unfold bitmap
        rw [read8_congr _ (hother b' k' q1 _ (by omega) (by omega))]
        exact q5
      · rw [read64_congr _ (fun x h1 h2 => hother b' k' q1 x (by omega) (by omega))]
        exact q6
    · rw [if_neg hsm] at g2 ⊢
      obtain ⟨r, q1, q2, q3, q4⟩ := g2
      have hag : ∀ x, r ≤ x → x < r + 16 → m' x = st.mem x := fun x h1 h2 =>
        hm (p - 16, n' + 16) (large_region e (by omega)) x (by simp only; omega)
          (by simp only; omega)
      refine ⟨r, q1, q2, ?_, ?_⟩
      · rw [read64_congr _ (fun x h1 h2 => hag x (by omega) (by omega))]; exact q3
      · rw [read64_congr _ (fun x h1 h2 => hag x (by omega) (by omega))]; exact q4
  · intro x hx pg hp
    dsimp only
    rw [mapped_mmap _ _ _ hf.2.1]
    rcases IsRegion_cons_bucket hx with e | e
    · subst e
      simp only [Bool.or_eq_true, decide_eq_true_eq]
      exact Or.inl hp
    · rw [inv.regs_mapped x e pg hp]; simp
  · intro x y hx hy
    rcases IsRegion_cons_bucket hx with e1 | e1 <;> rcases IsRegion_cons_bucket hy with e2 | e2
    · left; rw [e1, e2]
    · right; rw [e1]; exact PageDisj_symm (fresh_disj inv hf e2)
    · right; rw [e2]; exact fresh_disj inv hf e1
    · exact inv.regs_disj x y e1 e2

/-! ## The size-class selection of `xmalloc` -/

theorem size_class_spec (nb : Nat) (h : nb ≤ 2048) :
    size_class nb < 8 ∧ nb ≤ sz (size_class nb) ∧ ∀ j, j < size_class nb → sz j < nb := by
  have e0 : sz 0 = 16 := rfl
  have e1 : sz 1 = 32 := rfl
  have e2 : sz 2 = 64 := rfl
  have e3 : sz 3 = 128 := rfl
  have e4 : sz 4 = 256 := rfl
  have e5 : sz 5 = 512 := rfl
  have e6 : sz 6 = 1024 := rfl
  have e7 : sz 7 = 2048 := rfl
  simp only [size_class, size_class_loop, e0, e1, e2, e3, e4, e5, e6, e7]
  split_ifs
  all_goals first
    | omega
    | (refine ⟨by omega, by simp only [e0, e1, e2, e3, e4, e5, e6, e7]; omega, fun j hj => ?_⟩
       interval_cases j <;> simp only [e0, e1, e2, e3, e4, e5, e6, e7] <;> omega)

/-! ## `xmalloc` keeps the invariant -/

theorem entered_inv {st : State} {live bs : List (Nat × Nat)} (inv : InvG st live bs) :
    InvG (entered st) live bs := by
  refine ⟨?_, ?_, ?_, ?_, ?_, ?_, ?_⟩
  · intro _ a ha; exact entered_id st inv.ids ha
  · intro h0; exact absurd h0 (entered_init st)
  · rw [entered_mem]; exact inv.buckets
  · intro a k ha hk hh
    rw [entered_head] at hh ⊢
    rw [entered_mem]
    exact inv.heads a k ha hk hh
  · rw [entered_mem]; exact inv.lives
  · rw [entered_calls]; exact inv.regs_mapped
  · exact inv.regs_disj

theorem get_block_calls (st : State) (b k a : Nat) : (get_block st b k a).2.calls = st.calls :=
  rfl

theorem get_block_init (st : State) (b k a : Nat) : (get_block st b k a).2.init = st.init :=
  rfl

theorem IsRegion_cons_large {bs live : List (Nat × Nat)} {p n : Nat} {x : Nat × Nat}
    (h : IsRegion bs ((p, n) :: live) x) : x = (p - 16, n + 16) ∨ IsRegion bs live x := by
  rcases h with h | ⟨q, n', hq, hbig, e⟩
  · exact Or.inr (Or.inl h)
  · rcases List.mem_cons.mp hq with e1 | e1
    · obtain ⟨e2, e3⟩ := Prod.mk.inj e1
      subst e2 e3; exact Or.inl e
    · exact Or.inr (Or.inr ⟨q, n', e1, hbig, e⟩)

/-- The large path of `xmalloc` keeps the invariant. -/
theorem large_inv {st : State} {live bs : List (Nat × Nat)} (inv : InvG st live bs)
    (hinit : st.init ≠ 0) {n ret : Nat} (hbig : 2048 < n + 8) (hn : n + 16 < 2 ^ 64)
    (hf : Fresh st.calls ret (n + 16)) :
    InvG { st with calls := Call.mmap (n + 16) ret :: st.calls,
                   mem := write64 (write64 st.mem ret (n + 16)) (ret + 8) 8 }
      ((ret + 16, n) :: live) bs := by
  have hout : ∀ x, (x < ret ∨ ret + (n + 16) ≤ x) →
      write64 (write64 st.mem ret (n + 16)) (ret + 8) 8 x = st.mem x := fun x hx => by
    rw [write64_other _ _ _ _ (by omega), write64_other _ _ _ _ (by omega)]
  have r1 : read64 (write64 (write64 st.mem ret (n + 16)) (ret + 8) 8) ret = n + 16 := by
    rw [read64_congr (m := write64 st.mem ret (n + 16)) _
      (fun x h1 h2 => write64_other _ _ _ _ (by omega)), read64_write64]
    exact Nat.mod_eq_of_lt hn
  have r2 : read64 (write64 (write64 st.mem ret (n + 16)) (ret + 8) 8) (ret + 8) = 8 := by
    rw [read64_write64]; norm_num
  generalize write64 (write64 st.mem ret (n + 16)) (ret + 8) 8 = m' at hout r1 r2 ⊢
  have hm := agree_fresh inv m' hf hout
  have hother : ∀ b' k', (b', k') ∈ bs →
      ∀ x, b' ≤ x → x < b' + 1024 * sz k' → m' x = st.mem x := by
    intro b' k' h' x h1 h2
    have hk' := (inv.buckets b' k' h').1
    have := pages_eq hk'
    exact hm (b', PAGE_SIZE * pn k') (bucket_region live h') x h1 (by simp only; omega)
  refine ⟨inv.ids, fun h0 => absurd h0 hinit, ?_, ?_, ?_, ?_, ?_⟩
  · intro b' k' e
    obtain ⟨hk', hb0', hal', wf'⟩ := inv.buckets b' k' e
    have := sz_pos hk'
    exact ⟨hk', hb0', hal', BucketWF_congr hk'
      (fun x h1 h2 => hother b' k' e x h1 (by omega)) wf'⟩
  · intro a' k' ha' hk' hh'
    obtain ⟨g1, g2, g3⟩ := inv.heads a' k' ha' hk' hh'
    have := sz_pos hk'
    dsimp only
    refine ⟨g1, ?_, ?_⟩
    · rw [read32_congr _ (fun x h1 h2 => hother _ k' g1 x (by omega) (by omega))]
      exact g2
    · rw [read32_congr _ (fun x h1 h2 => hother _ k' g1 x (by omega) (by omega))]
      exact g3
  · intro p n' hmem
    dsimp only
    rcases List.mem_cons.mp hmem with e | e
    · obtain ⟨e1, e2⟩ := Prod.mk.inj e
      subst e1 e2
      refine ⟨hn, ?_⟩
      rw [if_neg (by omega)]
      exact ⟨ret, rfl, hf.2.1, r1, r2⟩
    · obtain ⟨g1, g2⟩ := inv.lives p n' e
      refine ⟨g1, ?_⟩
      by_cases hsm : n' + 8 ≤ 2048
      · rw [if_pos hsm] at g2 ⊢
        obtain ⟨b', k', j, q1, q2, q3, q4, q5, q6, q7⟩ := g2
        have hk' := (inv.buckets b' k' q1).1
        have hlo := slot_above_meta hk' q2
        have hhi := slot_bounds k' q3
        have := sz_pos hk'
        refine ⟨b', k', j, q1, q2, q3, q4, ?_, ?_, q7⟩
        · unfold bitmap
          rw [read8_congr _ (hother b' k' q1 _ (by omega) (by omega))]
          exact q5
        · rw [read64_congr _ (fun x h1 h2 => hother b' k' q1 x (by omega) (by omega))]
          exact q6
      · rw [if_neg hsm] at g2 ⊢
        obtain ⟨r, q1, q2, q3, q4⟩ := g2
        have hag : ∀ x, r ≤ x → x < r + 16 → m' x = st.mem x := fun x h1 h2 =>
          hm (p - 16, n' + 16) (large_region e (by omega)) x (by simp only; omega)
            (by simp only; omega)
        refine ⟨r, q1, q2, ?_, ?_⟩
        · rw [read64_congr _ (fun x h1 h2 => hag x (by omega) (by omega))]; exact q3
        · rw [read64_congr _ (fun x h1 h2 => hag x (by omega) (by omega))]; exact q4
  · intro x hx pg hp
    dsimp only
    rw [mapped_mmap _ _ _ hf.2.1]
    rcases IsRegion_cons_large hx with e | e
    · subst e
      simp only [Bool.or_eq_true, decide_eq_true_eq]
      left
      have : ret + 16 - 16 = ret := by omega
      rw [this] at hp; exact hp
    · rw [inv.regs_mapped x e pg hp]; simp
  · intro x y hx hy
    have e0 : ret + 16 - 16 = ret := by omega
    rcases IsRegion_cons_large hx with e1 | e1 <;> rcases IsRegion_cons_large hy with e2 | e2
    · left; rw [e1, e2]
    · right; rw [e1, e0]; exact PageDisj_symm (fresh_disj inv hf e2)
    · right; rw [e2, e0]; exact fresh_disj inv hf e1
    · exact inv.regs_disj x y e1 e2

theorem with_bucket_head_new {st : State} {a k : Nat} (ret : Nat)
    (h : (st.arenas a).bucket_head k = 0) :
    ((with_bucket st a k ret).arenas a).bucket_head k = ret := by
  rw [with_bucket_new ret h]
  dsimp only
  rw [set_head_head, if_pos ⟨rfl, rfl⟩]

theorem with_bucket_calls_new {st : State} {a k : Nat} (ret : Nat)
    (h : (st.arenas a).bucket_head k = 0) :
    (with_bucket st a k ret).calls = Call.mmap (PAGE_SIZE * pn k) ret :: st.calls := by
  rw [with_bucket_new ret h]

/-- The small path of `xmalloc`, from the state in which an arena has been chosen. -/
theorem small_inv {st : State} {live bs : List (Nat × Nat)} (inv : InvG st live bs)
    (hinit : st.init ≠ 0) {a k n ret : Nat} (ha : a < 8) (hk : k < 8) (hn : n + 8 ≤ 2048)
    (hn2 : n + 16 < 2 ^ 64) (hc : size_class (n + 8) = k)
    (hf : (st.arenas a).bucket_head k = 0 → Fresh st.calls ret (PAGE_SIZE * pn k)) :
    ∃ bs', InvG
      (get_block (with_bucket st a k ret) (((with_bucket st a k ret).arenas a).bucket_head k)
        k a).2
      (((get_block (with_bucket st a k ret) (((with_bucket st a k ret).arenas a).bucket_head k)
        k a).1 + 8, n) :: live) bs' := by
  by_cases hh : (st.arenas a).bucket_head k = 0
  · have inv2 := with_bucket_new_inv inv hinit ha hk hh (hf hh)
    have hne : ((with_bucket st a k ret).arenas a).bucket_head k ≠ 0 := by
      rw [with_bucket_head_new ret hh]; exact (hf hh).1
    exact ⟨_, get_block_inv inv2 ha hk hn hn2 hc hne⟩
  · rw [with_bucket_old ret hh]
    exact ⟨_, get_block_inv inv ha hk hn hn2 hc hh⟩

theorem xmalloc_small_calls (st : State) (n ret : Nat) (h : (n + 8) % 2 ^ 64 ≤ 2048) :
    (xmalloc st n ret).2.calls =
      (with_bucket (entered st) (chosen st) (size_class ((n + 8) % 2 ^ 64)) ret).calls := by
  rw [xmalloc_small_eq st n ret h]
  dsimp only
  rw [get_block_calls]

theorem xmalloc_inv {st : State} {live bs : List (Nat × Nat)} (inv : InvG st live bs)
    {n ret : Nat} (hn : n + 16 < 2 ^ 64)
    (hf : ∀ len, (xmalloc st n ret).2.calls = Call.mmap len ret :: st.calls →
      Fresh st.calls ret len) :
    Inv (xmalloc st n ret).2 (((xmalloc st n ret).1, n) :: live) := by
  have hmod : (n + 8) % 2 ^ 64 = n + 8 := Nat.mod_eq_of_lt (by omega)
  have inv1 := entered_inv inv
  by_cases hsm : n + 8 ≤ 2048
  · have hcalls := xmalloc_small_calls st n ret (by rw [hmod]; exact hsm)
    have hx := xmalloc_small_eq st n ret (by rw [hmod]; exact hsm)
    rw [hmod] at hx hcalls
    have hk := (size_class_spec (n + 8) hsm).1
    have hfr : ((entered st).arenas (chosen st)).bucket_head (size_class (n + 8)) = 0 →
        Fresh (entered st).calls ret (PAGE_SIZE * pn (size_class (n + 8))) := by
      intro hh
      rw [entered_calls]
      apply hf
      rw [hcalls, with_bucket_calls_new ret hh, entered_calls]
    obtain ⟨bs', h⟩ := small_inv (k := size_class (n + 8)) inv1 (entered_init st) (chosen_lt st)
      hk hsm hn rfl hfr
    have h2 := InvG_in_use h (chosen st) 0
    rw [hx]
    exact ⟨bs', h2⟩
  · have hbig : 2048 < n + 8 := by omega
    have hx := xmalloc_large_eq st n ret (by rw [hmod]; exact hbig)
    have hlen : ((n + 8) % 2 ^ 64 + 8) % 2 ^ 64 = n + 16 := by
      rw [hmod]; exact Nat.mod_eq_of_lt (by omega)
    rw [hlen] at hx
    have hfr : Fresh (entered st).calls ret (n + 16) := by
      rw [entered_calls]
      apply hf
      rw [hx]
    have h := large_inv inv1 (entered_init st) hbig hn hfr
    rw [entered_calls, entered_mem] at h
    have h2 := InvG_in_use h (chosen st) 0
    rw [hx]
    exact ⟨bs, h2⟩

/-! ## `xfree` on a small allocation -/

/-- The decoding steps of `xfree` on the pointer of slot `i` of the bucket at `b`. -/
theorem xfree_decode {m : Mem} {b s i : Nat} (hhdr : read64 m (b + s * i) = s * i) :
    xfree_offset m (b + s * i + 8) = s * i ∧ xfree_bucket m (b + s * i + 8) = b := by
  have e : b + s * i + 8 - 8 = b + s * i := by omega
  have h1 : xfree_offset m (b + s * i + 8) = s * i := by
    unfold xfree_offset; rw [e, hhdr]
  refine ⟨h1, ?_⟩
  unfold xfree_bucket
  rw [h1, e]; omega

/-- The result of `xfree` on the pointer of slot `i` of a bucket of class `k` at `b`. -/
theorem xfree_small_eq {st : State} {b k i : Nat} (hk : k < 8)
    (hsize : read64 st.mem b = sz k) (hown : read32 st.mem (b + 12) < 8) (hi : i < 1024)
    (hhdr : read64 st.mem (b + sz k * i) = sz k * i) :
    xfree st (b + sz k * i + 8) =
      some (if (read32 st.mem (b + 8) + (2 ^ 32 - 1)) % 2 ^ 32 = divs (sz k) then
          munmap { st with
            mem := write32 (write8 st.mem (b + 16 + i) 0) (b + 8)
              (read32 st.mem (b + 8) + (2 ^ 32 - 1)),
            arenas := set_head st.arenas (read32 st.mem (b + 12)) k 0 } b (PAGE_SIZE * pn k)
        else
          { st with
            mem := write32 (write8 st.mem (b + 16 + i) 0) (b + 8)
              (read32 st.mem (b + 8) + (2 ^ 32 - 1)) }) := by
  obtain ⟨d1, d2⟩ := xfree_decode hhdr
  have hs := sz_pos hk
  have d3 : xfree_size st.mem (b + sz k * i + 8) = sz k := by
    unfold xfree_size; rw [d2, hsize]
  have e : b + sz k * i + 8 - 8 = b + sz k * i := by omega
  have e1 : read32 (write8 st.mem (b + 16 + i) 0) (b + 8) = read32 st.mem (b + 8) :=
    read32_congr _ (fun x hx1 hx2 => write8_other _ _ _ _ (by omega))
  have e2 : sz k * i / sz k = i := Nat.mul_div_cancel_left i (by omega)
  unfold xfree
  rw [if_neg (by omega)]
  simp only [d1, d2, d3, e, e2]
  rw [if_neg (by omega), if_neg (by omega), if_neg (by omega), if_neg (by omega),
    if_neg (by omega)]
  simp only [e1, read32_write32, bucket_num_loop_sz hk]
  split <;> rfl

/-- What the two stores of `xfree` (bitmap byte, fill) change, when `fill` was `f ≥ 1`. -/
theorem release_slot (m : Mem) {b i f : Nat} (hi : i < 1024) (hf1 : 1 ≤ f) (hf2 : f ≤ 1024) :
    (∀ x, (x < b + 8 ∨ b + 1040 ≤ x) →
      write32 (write8 m (b + 16 + i) 0) (b + 8) (f + (2 ^ 32 - 1)) x = m x) ∧
    (∀ j, j < 1024 → j ≠ i →
      bitmap (write32 (write8 m (b + 16 + i) 0) (b + 8) (f + (2 ^ 32 - 1))) b j = bitmap m b j) ∧
    bitmap (write32 (write8 m (b + 16 + i) 0) (b + 8) (f + (2 ^ 32 - 1))) b i = 0 ∧
    read32 (write32 (write8 m (b + 16 + i) 0) (b + 8) (f + (2 ^ 32 - 1))) (b + 8) = f - 1 ∧
    read32 (write32 (write8 m (b + 16 + i) 0) (b + 8) (f + (2 ^ 32 - 1))) (b + 12)
      = read32 m (b + 12) ∧
    read64 (write32 (write8 m (b + 16 + i) 0) (b + 8) (f + (2 ^ 32 - 1))) b = read64 m b := by
  refine ⟨?_, ?_, ?_, ?_, ?_, ?_⟩
  · intro x hx
    rw [write32_other _ _ _ _ (by omega), write8_other _ _ _ _ (by omega)]
  · intro j hj hne
    unfold bitmap
    apply read8_congr
    rw [write32_other _ _ _ _ (by omega), write8_other _ _ _ _ (by omega)]
  · unfold bitmap read8
    rw [write32_other _ _ _ _ (by omega)]
    simp [write8]
  · rw [read32_write32]
    omega
  · exact read32_congr _ (fun x h1 h2 => by
      rw [write32_other _ _ _ _ (by omega), write8_other _ _ _ _ (by omega)])
  · exact read64_congr _ (fun x h1 h2 => by
      rw [write32_other _ _ _ _ (by omega), write8_other _ _ _ _ (by omega)])

/-- The fill of a consistent bucket with a marked slot above the metadata exceeds the
metadata count. -/
theorem fill_gt_of_live {m : Mem} {b k i : Nat} (wf : BucketWF m b k)
    (hd : divs (sz k) ≤ i) (hi : i < 1024) (h1 : bitmap m b i = 1) :
    divs (sz k) < read32 m (b + 8) := by
  have := ones_above wf.meta_set hd hi h1
  have := wf.fill_eq
  omega

/-- Releasing a marked slot above the metadata keeps a bucket consistent and lowers `fill`
by one. -/
theorem release_slot_wf {m : Mem} {b k i : Nat} (hk : k < 8) (wf : BucketWF m b k)
    (hi : i < 1024) (hd : divs (sz k) ≤ i) (h1 : bitmap m b i = 1) :
    BucketWF (write32 (write8 m (b + 16 + i) 0) (b + 8) (read32 m (b + 8) + (2 ^ 32 - 1))) b k := by
  have hgt := fill_gt_of_live wf hd hi h1
  have hle := (BucketWF_fill_ge hk wf).2
  obtain ⟨_, u2, u3, u4, u5, u6⟩ :=
    release_slot m (b := b) (i := i) (f := read32 m (b + 8)) hi (by omega) hle
  refine ⟨by rw [u6]; exact wf.size_eq, by rw [u5]; exact wf.owner_lt, ?_, ?_, ?_⟩
  · intro j hj
    by_cases e : j = i
    · subst e; exact Or.inl u3
    · rw [u2 j hj e]; exact wf.bits01 j hj
  · intro j hj
    have := divs_bounds hk
    rw [u2 j (by omega) (by omega)]; exact wf.meta_set j hj
  · have h0 : bitmap (write32 (write8 m (b + 16 + i) 0) (b + 8)
        (read32 m (b + 8) + (2 ^ 32 - 1))) b i ≠ 1 := by rw [u3]; omega
    have h2 := ones_clear (m := m) 1024 hi h1 h0 (fun j hj hne => u2 j hj hne)
    have h3 := wf.fill_eq
    rw [u4]; omega

theorem mem_filter_ne {live : List (Nat × Nat)} {p q n : Nat}
    (h : (q, n) ∈ live.filter (fun e => decide (e.1 ≠ p))) : (q, n) ∈ live ∧ q ≠ p := by
  rw [List.mem_filter] at h
  exact ⟨h.1, by simpa using h.2⟩

theorem IsRegion_mono {bs bs' live live' : List (Nat × Nat)}
    (hb : ∀ e, e ∈ bs' → e ∈ bs) (hl : ∀ e, e ∈ live' → e ∈ live) {x : Nat × Nat}
    (h : IsRegion bs' live' x) : IsRegion bs live x := by
  rcases h with ⟨b, k, h1, h2⟩ | ⟨p, n, h1, h2, h3⟩
  · exact Or.inl ⟨b, k, hb _ h1, h2⟩
  · exact Or.inr ⟨p, n, hl _ h1, h2, h3⟩

/-! ## `xfree` keeps the invariant -/

/-- What is left untouched when `xfree` releases slot `i` of the tracked bucket `b`. -/
theorem free_shared {st : State} {live bs : List (Nat × Nat)} (inv : InvG st live bs)
    {p b k i : Nat} (hb : (b, k) ∈ bs) (hd : divs (sz k) ≤ i) (hi : i < 1024)
    (hp : p = b + sz k * i + 8) (h1 : bitmap st.mem b i = 1) :
    (∀ b' k', (b', k') ∈ bs → b' ≠ b →
      BucketWF (write32 (write8 st.mem (b + 16 + i) 0) (b + 8)
        (read32 st.mem (b + 8) + (2 ^ 32 - 1))) b' k' ∧
      read32 (write32 (write8 st.mem (b + 16 + i) 0) (b + 8)
        (read32 st.mem (b + 8) + (2 ^ 32 - 1))) (b' + 12) = read32 st.mem (b' + 12) ∧
      read32 (write32 (write8 st.mem (b + 16 + i) 0) (b + 8)
        (read32 st.mem (b + 8) + (2 ^ 32 - 1))) (b' + 8) = read32 st.mem (b' + 8)) ∧
    (∀ q n', (q, n') ∈ live → q ≠ p →
      n' + 16 < 2 ^ 64 ∧
      (if n' + 8 ≤ 2048 then
        SmallLive (write32 (write8 st.mem (b + 16 + i) 0) (b + 8)
          (read32 st.mem (b + 8) + (2 ^ 32 - 1))) bs q n'
       else
        LargeLive (write32 (write8 st.mem (b + 16 + i) 0) (b + 8)
          (read32 st.mem (b + 8) + (2 ^ 32 - 1))) q n')) := by
  obtain ⟨hk, hb0, hal, wf⟩ := inv.buckets b k hb
  have hgt := fill_gt_of_live wf hd hi h1
  have hle := (BucketWF_fill_ge hk wf).2
  obtain ⟨u1, u2, u3, u4, u5, u6⟩ :=
    release_slot st.mem (b := b) (i := i) (f := read32 st.mem (b + 8)) hi (by omega) hle
  generalize write32 (write8 st.mem (b + 16 + i) 0) (b + 8)
      (read32 st.mem (b + 8) + (2 ^ 32 - 1)) = m' at u1 u2 u3 u4 u5 u6 ⊢
  have hpg := pages_eq hk
  have hsz := sz_pos hk
  have hm := agree_region inv m' (bucket_region live hb)
    (fun x hx => u1 x (by simp only at hx; omega))
  have hother : ∀ b' k', (b', k') ∈ bs → b' ≠ b →
      ∀ x, b' ≤ x → x < b' + 1024 * sz k' → m' x = st.mem x := by
    intro b' k' h' hne x h1 h2
    have hk' := (inv.buckets b' k' h').1
    have := pages_eq hk'
    exact hm (b', PAGE_SIZE * pn k') (bucket_region live h')
      (fun e => hne (Prod.mk.inj e).1) x h1 (by simp only; omega)
  refine ⟨?_, ?_⟩
  · intro b' k' h' hne
    obtain ⟨hk', _, _, wf'⟩ := inv.buckets b' k' h'
    have := sz_pos hk'
    refine ⟨BucketWF_congr hk' (fun x h1 h2 => hother b' k' h' hne x h1 (by omega)) wf', ?_, ?_⟩
    · exact read32_congr _ (fun x h1 h2 => hother b' k' h' hne x (by omega) (by omega))
    · exact read32_congr _ (fun x h1 h2 => hother b' k' h' hne x (by omega) (by omega))
  · intro q n' e hqp
    obtain ⟨g1, g2⟩ := inv.lives q n' e
    refine ⟨g1, ?_⟩
    by_cases hsm : n' + 8 ≤ 2048
    · rw [if_pos hsm] at g2 ⊢
      obtain ⟨b', k', j, q1, q2, q3, q4, q5, q6, q7⟩ := g2
      have hk' := (inv.buckets b' k' q1).1
      have hlo := slot_above_meta hk' q2
      have hhi := slot_bounds k' q3
      have := sz_pos hk'
      by_cases eb : b' = b
      · subst eb
        have := bucket_class_unique inv q1 hb
        subst this
        have hji : j ≠ i := fun ej => hqp (by rw [q4, hp, ej])
        refine ⟨b', k', j, q1, q2, q3, q4, ?_, ?_, q7⟩
        · rw [u2 j q3 hji]; exact q5
        · rw [read64_congr _ (fun x h1 h2 => u1 x (by omega))]; exact q6
      · refine ⟨b', k', j, q1, q2, q3, q4, ?_, ?_, q7⟩
        · unfold bitmap
          rw [read8_congr _ (hother b' k' q1 eb _ (by omega) (by omega))]
          exact q5
        · rw [read64_congr _ (fun x h1 h2 => hother b' k' q1 eb x (by omega) (by omega))]
          exact q6
    · rw [if_neg hsm] at g2 ⊢
      obtain ⟨r, q1, q2, q3, q4⟩ := g2
      have hne := bucket_ne_large inv hb e (by omega)
      have hag : ∀ x, r ≤ x → x < r + 16 → m' x = st.mem x := fun x h1 h2 =>
        hm (q - 16, n' + 16) (large_region e (by omega))
          (fun ee => hne (Prod.mk.inj ee).1.symm) x (by simp only; omega) (by simp only; omega)
      refine ⟨r, q1, q2, ?_, ?_⟩
      · rw [read64_congr _ (fun x h1 h2 => hag x (by omega) (by omega))]; exact q3
      · rw [read64_congr _ (fun x h1 h2 => hag x (by omega) (by omega))]; exact q4

/-- When `xfree` releases a slot and the bucket keeps other data, the invariant is kept. -/
theorem free_keep_inv {st : State} {live bs : List (Nat × Nat)} (inv : InvG st live bs)
    {p b k i : Nat} (hb : (b, k) ∈ bs) (hd : divs (sz k) ≤ i) (hi : i < 1024)
    (hp : p = b + sz k * i + 8) (h1 : bitmap st.mem b i = 1) :
    InvG { st with
        mem := write32 (write8 st.mem (b + 16 + i) 0) (b + 8)
                (read32 st.mem (b + 8) + (2 ^ 32 - 1)) }
      (live.filter (fun e => decide (e.1 ≠ p))) bs := by
  obtain ⟨hk, hb0, hal, wf⟩ := inv.buckets b k hb
  obtain ⟨s1, s2⟩ := free_shared inv hb hd hi hp h1
  have rwf := release_slot_wf hk wf hi hd h1
  have hgt := fill_gt_of_live wf hd hi h1
  have hle := (BucketWF_fill_ge hk wf).2
  obtain ⟨u1, u2, u3, u4, u5, u6⟩ :=
    release_slot st.mem (b := b) (i := i) (f := read32 st.mem (b + 8)) hi (by omega) hle
  generalize write32 (write8 st.mem (b + 16 + i) 0) (b + 8)
      (read32 st.mem (b + 8) + (2 ^ 32 - 1)) = m' at u1 u2 u3 u4 u5 u6 s1 s2 rwf ⊢
  have hsub : ∀ e, e ∈ live.filter (fun e => decide (e.1 ≠ p)) → e ∈ live :=
    fun e he => (List.mem_filter.mp he).1
  refine ⟨inv.ids, ?_, ?_, ?_, ?_, ?_, ?_⟩
  · intro h0
    have := (inv.pre h0).1
    rw [this] at hb
    exact absurd hb (List.not_mem_nil _)
  · intro b' k' h'
    obtain ⟨hk', hb0', hal', _⟩ := inv.buckets b' k' h'
    refine ⟨hk', hb0', hal', ?_⟩
    by_cases e : b' = b
    · subst e
      have := bucket_class_unique inv h' hb
      subst this
      exact rwf
    · exact (s1 b' k' h' e).1
  · intro a' k' ha' hk' hh'
    obtain ⟨g1, g2, g3⟩ := inv.heads a' k' ha' hk' hh'
    dsimp only
    refine ⟨g1, ?_, ?_⟩
    · by_cases e : (st.arenas a').bucket_head k' = b
      · rw [e, u5, ← e]; exact g2
      · rw [(s1 _ k' g1 e).2.1]; exact g2
    · by_cases e : (st.arenas a').bucket_head k' = b
      · rw [e, u4]; omega
      · rw [(s1 _ k' g1 e).2.2]; exact g3
  · intro q n' hq
    obtain ⟨hq1, hq2⟩ := mem_filter_ne hq
    exact s2 q n' hq1 hq2
  · intro x hx
    exact inv.regs_mapped x (IsRegion_mono (fun _ h => h) hsub hx)
  · intro x y hx hy
    exact inv.regs_disj x y (IsRegion_mono (fun _ h => h) hsub hx)
      (IsRegion_mono (fun _ h => h) hsub hy)

theorem mem_filter_base {bs : List (Nat × Nat)} {b b' k' : Nat}
    (h : (b', k') ∈ bs.filter (fun e => decide (e.1 ≠ b))) : (b', k') ∈ bs ∧ b' ≠ b := by
  rw [List.mem_filter] at h
  exact ⟨h.1, by simpa using h.2⟩

/-- When `xfree` releases the last data slot of a bucket and unmaps it, the invariant is
kept for the remaining buckets. -/
theorem free_unmap_inv {st : State} {live bs : List (Nat × Nat)} (inv : InvG st live bs)
    {p b k i : Nat} (hb : (b, k) ∈ bs) (hd : divs (sz k) ≤ i) (hi : i < 1024)
    (hp : p = b + sz k * i + 8) (h1 : bitmap st.mem b i = 1)
    (hfill : read32 st.mem (b + 8) - 1 = divs (sz k)) :
    InvG (munmap { st with
        mem := write32 (write8 st.mem (b + 16 + i) 0) (b + 8)
                (read32 st.mem (b + 8) + (2 ^ 32 - 1)),
        arenas := set_head st.arenas (read32 st.mem (b + 12)) k 0 } b (PAGE_SIZE * pn k))
      (live.filter (fun e => decide (e.1 ≠ p))) (bs.filter (fun e => decide (e.1 ≠ b))) := by
  obtain ⟨hk, hb0, hal, wf⟩ := inv.buckets b k hb
  obtain ⟨s1, s2⟩ := free_shared inv hb hd hi hp h1
  have rwf := release_slot_wf hk wf hi hd h1
  have hgt := fill_gt_of_live wf hd hi h1
  have hle := (BucketWF_fill_ge hk wf).2
  obtain ⟨u1, u2, u3, u4, u5, u6⟩ :=
    release_slot st.mem (b := b) (i := i) (f := read32 st.mem (b + 8)) hi (by omega) hle
  generalize write32 (write8 st.mem (b + 16 + i) 0) (b + 8)
      (read32 st.mem (b + 8) + (2 ^ 32 - 1)) = m' at u1 u2 u3 u4 u5 u6 s1 s2 rwf ⊢
  have hsubl : ∀ e, e ∈ live.filter (fun e => decide (e.1 ≠ p)) → e ∈ live :=
    fun e he => (List.mem_filter.mp he).1
  have hsubb : ∀ e, e ∈ bs.filter (fun e => decide (e.1 ≠ b)) → e ∈ bs :=
    fun e he => (List.mem_filter.mp he).1
  have hinit : st.init ≠ 0 := by
    intro h0
    have := (inv.pre h0).1
    rw [this] at hb
    exact absurd hb (List.not_mem_nil _)
  unfold munmap
  refine ⟨?_, fun h0 => absurd h0 hinit, ?_, ?_, ?_, ?_, ?_⟩
  · intro h a' ha'
    dsimp only
    rw [set_head_id]; exact inv.ids h a' ha'
  · intro b' k' h'
    obtain ⟨h2, hne⟩ := mem_filter_base h'
    obtain ⟨hk', hb0', hal', _⟩ := inv.buckets b' k' h2
    exact ⟨hk', hb0', hal', (s1 b' k' h2 hne).1⟩
  · intro a' k' ha' hk' hh'
    dsimp only at hh' ⊢
    rw [set_head_head] at hh' ⊢
    by_cases hak : a' = read32 st.mem (b + 12) ∧ k' = k
    · rw [if_pos hak] at hh'; exact absurd rfl hh'
    · rw [if_neg hak] at hh' ⊢
      obtain ⟨g1, g2, g3⟩ := inv.heads a' k' ha' hk' hh'
      have hne : (st.arenas a').bucket_head k' ≠ b := by
        intro e
        rw [e] at g1 g2
        have := bucket_class_unique inv g1 hb
        exact hak ⟨g2.symm, this⟩
      refine ⟨List.mem_filter.mpr ⟨g1, by simpa using hne⟩, ?_, ?_⟩
      · rw [(s1 _ k' g1 hne).2.1]; exact g2
      · rw [(s1 _ k' g1 hne).2.2]; exact g3
  · intro q n' hq
    obtain ⟨hq1, hq2⟩ := mem_filter_ne hq
    obtain ⟨g1, g2⟩ := s2 q n' hq1 hq2
    refine ⟨g1, ?_⟩
    dsimp only
    by_cases hsm : n' + 8 ≤ 2048
    · rw [if_pos hsm] at g2 ⊢
      obtain ⟨b', k', j, q1, q2, q3, q4, q5, q6, q7⟩ := g2
      have hne : b' ≠ b := by
        intro e
        subst e
        have := bucket_class_unique inv q1 hb
        subst this
        have h2 := ones_above rwf.meta_set q2 q3 q5
        have h3 := rwf.fill_eq
        omega
      exact ⟨b', k', j, List.mem_filter.mpr ⟨q1, by simpa using hne⟩, q2, q3, q4, q5, q6, q7⟩
    · rw [if_neg hsm] at g2 ⊢
      exact g2
  · intro x hx pg hpg
    have hx' : IsRegion bs live x := IsRegion_mono hsubb hsubl hx
    have hmp := inv.regs_mapped x hx' pg hpg
    have hne : x ≠ (b, PAGE_SIZE * pn k) := by
      intro e
      rcases hx with ⟨b', k', q1, q2⟩ | ⟨q, n', q1, q2, q3⟩
      · have := (mem_filter_base q1).2
        rw [q2] at e
        exact this (Prod.mk.inj e).1
      · have := bucket_ne_large inv hb (hsubl _ q1) q2
        rw [q3] at e
        exact this (Prod.mk.inj e).1.symm
    have hdis : PageDisj x (b, PAGE_SIZE * pn k) := by
      rcases inv.regs_disj x _ hx' (bucket_region live hb) with e | e
      · exact absurd e hne
      · exact e
    have hnot : ¬ pagesOf b (PAGE_SIZE * pn k) pg := fun hc => hdis pg hpg hc
    dsimp only
    rw [mapped]
    split
    · rw [hmp]; simp [hnot]
    · exact hmp
  · intro x y hx hy
    exact inv.regs_disj x y (IsRegion_mono hsubb hsubl hx) (IsRegion_mono hsubb hsubl hy)

/-! ## `xfree` on a large allocation -/

theorem xfree_large_eq {st : State} {p n : Nat} (h : LargeLive st.mem p n)
    (hbig : 2048 < n + 8) :
    xfree st p = some (munmap st (p - 8) (n + 16)) := by
  obtain ⟨r, q1, q2, q3, q4⟩ := h
  subst q1
  have e : r + 16 - 8 = r + 8 := by omega
  have d1 : xfree_offset st.mem (r + 16) = 8 := by unfold xfree_offset; rw [e, q4]
  have d2 : xfree_bucket st.mem (r + 16) = r := by unfold xfree_bucket; rw [d1, e]; omega
  have d3 : xfree_size st.mem (r + 16) = n + 16 := by unfold xfree_size; rw [d2, q3]
  unfold xfree
  rw [if_neg (by omega)]
  simp only [d1, d2, d3, e]
  rw [if_neg (by omega), if_pos (by omega)]

theorem xfree_large_inv {st : State} {live bs : List (Nat × Nat)} (inv : InvG st live bs)
    {p n : Nat} (hl : (p, n) ∈ live) (hbig : 2048 < n + 8) :
    InvG (munmap st (p - 8) (n + 16)) (live.filter (fun e => decide (e.1 ≠ p))) bs := by
  have h := (inv.lives p n hl).2
  rw [if_neg (by omega)] at h
  obtain ⟨r, q1, q2, q3, q4⟩ := h
  have hsubl : ∀ e, e ∈ live.filter (fun e => decide (e.1 ≠ p)) → e ∈ live :=
    fun e he => (List.mem_filter.mp he).1
  unfold munmap
  refine ⟨inv.ids, ?_, inv.buckets, inv.heads, ?_, ?_, ?_⟩
  · intro h0
    have := (inv.pre h0).2
    rw [this] at hl
    exact absurd hl (List.not_mem_nil _)
  · intro q n' hq
    exact inv.lives q n' (hsubl _ hq)
  · intro x hx pg hpg
    dsimp only
    rw [mapped, if_neg (by omega)]
    exact inv.regs_mapped x (IsRegion_mono (fun _ h => h) hsubl hx) pg hpg
  · intro x y hx hy
    exact inv.regs_disj x y (IsRegion_mono (fun _ h => h) hsubl hx)
      (IsRegion_mono (fun _ h => h) hsubl hy)

/-- On a live pointer `xfree` is defined, and keeps the invariant. -/
theorem xfree_inv {st : State} {live bs : List (Nat × Nat)} (inv : InvG st live bs)
    {p n : Nat} (hl : (p, n) ∈ live) :
    ∃ st', xfree st p = some st' ∧ Inv st' (live.filter (fun e => decide (e.1 ≠ p))) := by
  obtain ⟨_, g2⟩ := inv.lives p n hl
  by_cases hsm : n + 8 ≤ 2048
  · rw [if_pos hsm] at g2
    obtain ⟨b, k, i, q1, q2, q3, q4, q5, q6, q7⟩ := g2
    obtain ⟨hk, hb0, hal, wf⟩ := inv.buckets b k q1
    have hgt := fill_gt_of_live wf q2 q3 q5
    have hle := (BucketWF_fill_ge hk wf).2
    have hx := xfree_small_eq hk wf.size_eq wf.owner_lt q3 q6
    rw [← q4] at hx
    have hmod : (read32 st.mem (b + 8) + (2 ^ 32 - 1)) % 2 ^ 32 = read32 st.mem (b + 8) - 1 := by
      omega
    rw [hmod] at hx
    by_cases hf : read32 st.mem (b + 8) - 1 = divs (sz k)
    · rw [if_pos hf] at hx
      exact ⟨_, hx, _, free_unmap_inv inv q1 q2 q3 q4 q5 hf⟩
    · rw [if_neg hf] at hx
      exact ⟨_, hx, _, free_keep_inv inv q1 q2 q3 q4 q5⟩
  · rw [if_neg hsm] at g2
    exact ⟨_, xfree_large_eq g2 (by omega), _, xfree_large_inv inv hl (by omega)⟩

/-! ## Every reachable state satisfies the invariant -/

theorem initial_inv (m : Mem) : InvG (initial m) [] [] := by
  refine ⟨fun h => absurd rfl h, fun _ => ⟨rfl, rfl⟩, ?_, ?_, ?_, ?_, ?_⟩
  · intro b k h; exact absurd h (List.not_mem_nil _)
  · intro a k _ _ h; exact absurd rfl h
  · intro p n h; exact absurd h (List.not_mem_nil _)
  · intro x hx
    rcases hx with ⟨_, _, h, _⟩ | ⟨_, _, h, _⟩ <;> exact absurd h (List.not_mem_nil _)
  · intro x y hx
    rcases hx with ⟨_, _, h, _⟩ | ⟨_, _, h, _⟩ <;> exact absurd h (List.not_mem_nil _)

theorem reach_inv {st : State} {live : List (Nat × Nat)} (h : Reach st live) : Inv st live := by
  induction h with
  | start m => exact ⟨[], initial_inv m⟩
  | malloc n ret _ hn hf ih =>
    obtain ⟨bs, inv⟩ := ih
    exact xmalloc_inv inv hn hf
  | free p n _ hl hx ih =>
    obtain ⟨bs, inv⟩ := ih
    obtain ⟨st'', h1, h2⟩ := xfree_inv inv hl
    rw [hx] at h1
    cases h1
    exact h2

/-! ## The pointer returned by the small path -/

/-- In a state that satisfies the invariant and whose chosen arena has a bucket for class
`k`, `get_block` returns a free slot above the metadata of that bucket. -/
theorem get_block_slot {st : State} {live bs : List (Nat × Nat)} (inv : InvG st live bs)
    {a k : Nat} (ha : a < 8) (hk : k < 8) (hh : (st.arenas a).bucket_head k ≠ 0) :
    ∃ b i, b = (st.arenas a).bucket_head k ∧ (b, k) ∈ bs ∧ divs (sz k) ≤ i ∧ i < 1024 ∧
      bitmap st.mem b i = 0 ∧ (get_block st b k a).1 = b + sz k * i ∧
      read64 (get_block st b k a).2.mem b = sz k ∧
      read64 (get_block st b k a).2.mem (b + sz k * i) = sz k * i := by
  obtain ⟨hb, how, hfl⟩ := inv.heads a k ha hk hh
  obtain ⟨_, hb0, hal, wf⟩ := inv.buckets _ k hb
  obtain ⟨hi1, hi2, hi3⟩ := scan_free wf hfl
  obtain ⟨_, _, _, _, _, t6, t7, _⟩ :=
    take_slot st.mem (b := (st.arenas a).bucket_head k) (f := read32 st.mem
      ((st.arenas a).bucket_head k + 8)) hi2 (slot_above_meta hk hi1)
      (slot_bounds k hi2) (sz_pos hk).1 hfl (sz_pos hk).2
  refine ⟨_, _, rfl, hb, hi1, hi2, hi3, ?_, ?_, ?_⟩
  · rw [get_block_eq a hk wf hfl]
  · rw [get_block_eq a hk wf hfl]; dsimp only; rw [t6]; exact wf.size_eq
  · rw [get_block_eq a hk wf hfl]; dsimp only; exact t7

/-- The state in which the small path of `xmalloc` calls `get_block` satisfies the
invariant, and the chosen arena has a bucket of the selected class. -/
theorem small_ready {st : State} {live bs : List (Nat × Nat)} (inv : InvG st live bs)
    {n ret : Nat} (hsm : n + 8 ≤ 2048)
    (hf : ∀ len, (xmalloc st n ret).2.calls = Call.mmap len ret :: st.calls →
      Fresh st.calls ret len) :
    ∃ bs', InvG (with_bucket (entered st) (chosen st) (size_class (n + 8)) ret) live bs' ∧
      ((with_bucket (entered st) (chosen st) (size_class (n + 8)) ret).arenas
        (chosen st)).bucket_head (size_class (n + 8)) ≠ 0 := by
  have hmod : (n + 8) % 2 ^ 64 = n + 8 := Nat.mod_eq_of_lt (by omega)
  have inv1 := entered_inv inv
  have hcalls := xmalloc_small_calls st n ret (by rw [hmod]; exact hsm)
  rw [hmod] at hcalls
  have hk := (size_class_spec (n + 8) hsm).1
  by_cases hh : ((entered st).arenas (chosen st)).bucket_head (size_class (n + 8)) = 0
  · have hfr : Fresh (entered st).calls ret (PAGE_SIZE * pn (size_class (n + 8))) := by
      rw [entered_calls]
      apply hf
      rw [hcalls, with_bucket_calls_new ret hh, entered_calls]
    refine ⟨_, with_bucket_new_inv inv1 (entered_init st) (chosen_lt st) hk hh hfr, ?_⟩
    rw [with_bucket_head_new ret hh]; exact hfr.1
  · rw [with_bucket_old ret hh]
    exact ⟨bs, inv1, hh⟩

/-- The pointer of the small path, in terms of the state in which `get_block` runs. -/
theorem xmalloc_small_ptr (st : State) (n ret : Nat) (hsm : n + 8 ≤ 2048) :
    (xmalloc st n ret).1 =
      (get_block (with_bucket (entered st) (chosen st) (size_class (n + 8)) ret)
        (((with_bucket (entered st) (chosen st) (size_class (n + 8)) ret).arenas
          (chosen st)).bucket_head (size_class (n + 8))) (size_class (n + 8)) (chosen st)).1 + 8 ∧
    (xmalloc st n ret).2.mem =
      (get_block (with_bucket (entered st) (chosen st) (size_class (n + 8)) ret)
        (((with_bucket (entered st) (chosen st) (size_class (n + 8)) ret).arenas
          (chosen st)).bucket_head (size_class (n + 8))) (size_class (n + 8)) (chosen st)).2.mem
      := by
  have hmod : (n + 8) % 2 ^ 64 = n + 8 := Nat.mod_eq_of_lt (by omega)
  have hx := xmalloc_small_eq st n ret (by rw [hmod]; exact hsm)
  rw [hmod] at hx
  rw [hx]
  exact ⟨rfl, rfl⟩

/-! ## Claims about the size class and the slot of a small allocation -/

/-- C1: for a request `n` with `n + 8 <= 2048` made in a reachable state, the selection
loop of `xmalloc` stops at the least index `k <= 7` with `sizes[k] >= n + 8`, the returned
pointer is the data pointer of a slot of a bucket whose size field is `sizes[k]`, and the
`sizes[k] - 8` bytes behind the pointer are at least `n`. -/
theorem xmalloc_small_class (st : State) (live : List (Nat × Nat)) (n ret : Nat)
    (hr : Reach st live) (hn : n + 8 ≤ 2048)
    (hf : ∀ len, (xmalloc st n ret).2.calls = Call.mmap len ret :: st.calls →
      Fresh st.calls ret len) :
    size_class (n + 8) ≤ 7 ∧ n + 8 ≤ sz (size_class (n + 8)) ∧
    (∀ j, j < size_class (n + 8) → sz j < n + 8) ∧
    (∃ b i, i < 1024 ∧ (xmalloc st n ret).1 = b + sz (size_class (n + 8)) * i + 8 ∧
      read64 (xmalloc st n ret).2.mem b = sz (size_class (n + 8)) ∧
      xfree_bucket (xmalloc st n ret).2.mem (xmalloc st n ret).1 = b) ∧
    n ≤ sz (size_class (n + 8)) - 8 := by
  obtain ⟨c1, c2, c3⟩ := size_class_spec (n + 8) hn
  obtain ⟨bs, inv⟩ := reach_inv hr
  obtain ⟨bs', inv2, hh⟩ := small_ready inv hn hf
  obtain ⟨b, i, hb, _, _, hi, _, g1, g2, g3⟩ := get_block_slot inv2 (chosen_lt st) c1 hh
  obtain ⟨p1, p2⟩ := xmalloc_small_ptr st n ret hn
  rw [← hb] at p1 p2
  refine ⟨by omega, c2, c3, ⟨b, i, hi, ?_, ?_, ?_⟩, by omega⟩
  · rw [p1, g1]
  · rw [p2, g2]
  · rw [p1, p2, g1]
    exact (xfree_decode g3).2

/-- Witness for C1: the first request, of 10 bytes, at program start. -/
theorem xmalloc_small_class_witness :
    size_class (10 + 8) ≤ 7 ∧ 10 + 8 ≤ sz (size_class (10 + 8)) ∧
    (∀ j, j < size_class (10 + 8) → sz j < 10 + 8) ∧
    (∃ b i, i < 1024 ∧
      (xmalloc (initial (fun _ => 0)) 10 4096).1 = b + sz (size_class (10 + 8)) * i + 8 ∧
      read64 (xmalloc (initial (fun _ => 0)) 10 4096).2.mem b = sz (size_class (10 + 8)) ∧
      xfree_bucket (xmalloc (initial (fun _ => 0)) 10 4096).2.mem
        (xmalloc (initial (fun _ => 0)) 10 4096).1 = b) ∧
    10 ≤ sz (size_class (10 + 8)) - 8 :=
  xmalloc_small_class (initial (fun _ => 0)) [] 10 4096 (Reach.start _) (by decide)
    (fun _ _ => ⟨by decide, by decide, fun _ _ => rfl⟩)

/-- Two non-empty byte ranges inside regions that share no page do not overlap. -/
theorem ranges_apart {x y : Nat × Nat} (h : PageDisj x y) (lo1 hi1 lo2 hi2 : Nat)
    (a1 : x.1 ≤ lo1) (a2 : hi1 ≤ x.1 + x.2) (a3 : lo1 < hi1)
    (b1 : y.1 ≤ lo2) (b2 : hi2 ≤ y.1 + y.2) (b3 : lo2 < hi2) :
    hi1 ≤ lo2 ∨ hi2 ≤ lo1 := by
  by_contra hc
  rcases Nat.le_total lo1 lo2 with e | e
  · exact bytes_apart h (a := lo2) (by omega) (by omega) (by omega) (by omega)
  · exact bytes_apart h (a := lo1) (by omega) (by omega) (by omega) (by omega)

/-- A free slot above the metadata of a tracked bucket overlaps no live allocation. -/
theorem slot_extent_disjoint {st : State} {live bs : List (Nat × Nat)} (inv : InvG st live bs)
    {b k i : Nat} (hbs : (b, k) ∈ bs) (hi1 : divs (sz k) ≤ i) (hi2 : i < 1024)
    (hi3 : bitmap st.mem b i = 0) :
    ∀ e, e ∈ live → (extent e).2 ≤ b + sz k * i ∨ b + sz k * i + sz k ≤ (extent e).1 := by
  have hk := (inv.buckets b k hbs).1
  have hsz := sz_pos hk
  have hlo := slot_above_meta hk hi1
  have hhi := slot_bounds k hi2
  have hpg := pages_eq hk
  intro e he
  obtain ⟨q, m⟩ := e
  obtain ⟨_, g2⟩ := inv.lives q m he
  unfold extent
  by_cases hsm : m + 8 ≤ 2048
  · rw [if_pos hsm] at g2
    simp only [if_pos hsm]
    obtain ⟨b', k', j, q1, q2, q3, q4, q5, q6, q7⟩ := g2
    have hk' := (inv.buckets b' k' q1).1
    have hsz' := sz_pos hk'
    have hlo' := slot_above_meta hk' q2
    have hhi' := slot_bounds k' q3
    have hpg' := pages_eq hk'
    rw [q7, q4]
    have e8 : b' + sz k' * j + 8 - 8 = b' + sz k' * j := by omega
    rw [e8]
    by_cases eb : b' = b
    · subst eb
      have := bucket_class_unique inv q1 hbs
      subst this
      have hji : j ≠ i := fun ej => by rw [ej, hi3] at q5; omega
      rcases slot_apart k' hji with h | h
      · left; omega
      · right; omega
    · rcases inv.regs_disj (b', PAGE_SIZE * pn k') (b, PAGE_SIZE * pn k)
        (bucket_region live q1) (bucket_region live hbs) with h | h
      · exact absurd (Prod.mk.inj h).1 eb
      · have := ranges_apart h (b' + sz k' * j) (b' + sz k' * j + sz k')
          (b + sz k * i) (b + sz k * i + sz k)
          (by simp only; omega) (by simp only; omega) (by omega)
          (by simp only; omega) (by simp only; omega) (by omega)
        omega
  · rw [if_neg hsm] at g2
    simp only [if_neg hsm]
    obtain ⟨r, q1, q2, q3, q4⟩ := g2
    have hne := bucket_ne_large inv hbs he (by omega)
    rcases inv.regs_disj (q - 16, m + 16) (b, PAGE_SIZE * pn k)
      (large_region he (by omega)) (bucket_region live hbs) with h | h
    · exact absurd (Prod.mk.inj h).1.symm hne
    · have := ranges_apart h (q - 16) (q + m)
        (b + sz k * i) (b + sz k * i + sz k)
        (by simp only; omega) (by simp only; omega) (by omega)
        (by simp only; omega) (by simp only; omega) (by omega)
      omega

/-- The data pointer of a free slot above the metadata of a tracked bucket is not a live
pointer. -/
theorem slot_ptr_fresh {st : State} {live bs : List (Nat × Nat)} (inv : InvG st live bs)
    {b k i : Nat} (hbs : (b, k) ∈ bs) (hi1 : divs (sz k) ≤ i) (hi2 : i < 1024)
    (hi3 : bitmap st.mem b i = 0) :
    ∀ q m, (q, m) ∈ live → q ≠ b + sz k * i + 8 := by
  intro q m he heq
  have h1 := slot_extent_disjoint inv hbs hi1 hi2 hi3 (q, m) he
  have hk := (inv.buckets b k hbs).1
  have hsz := sz_pos hk
  obtain ⟨_, g2⟩ := inv.lives q m he
  unfold extent at h1
  by_cases hsm : m + 8 ≤ 2048
  · simp only [if_pos hsm] at h1
    have := sz_pos (size_class_spec (m + 8) hsm).1
    omega
  · simp only [if_neg hsm] at h1
    rw [if_neg hsm] at g2
    obtain ⟨r, q1, _⟩ := g2
    omega

/-- C2: in every reachable state the slot a small `xmalloc` returns is disjoint from every
live allocation.  The slot is slot `i` of the bucket `b` that the chosen arena points to
for the class `k = size_class (n + 8)` when `get_block` runs; it is the bucket whose size
field is `sizes[k]` and that `xfree` computes from the returned pointer.  Its bitmap entry
was 0 when `get_block` scanned, no live pointer is the returned one, `i` is at least
`N = divs sizes[k]` so the slot starts at or after byte 1040 of the bucket (past the
metadata), and the `sizes[k]` bytes of the slot do not overlap the bytes of any live
allocation. -/
theorem xmalloc_slot_disjoint (st : State) (live : List (Nat × Nat)) (n ret : Nat)
    (hr : Reach st live) (hn : n + 8 ≤ 2048)
    (hf : ∀ len, (xmalloc st n ret).2.calls = Call.mmap len ret :: st.calls →
      Fresh st.calls ret len) :
    size_class (n + 8) < 8 ∧
    ∃ b i,
      b = ((with_bucket (entered st) (chosen st) (size_class (n + 8)) ret).arenas
        (chosen st)).bucket_head (size_class (n + 8)) ∧
      read64 (xmalloc st n ret).2.mem b = sz (size_class (n + 8)) ∧
      xfree_bucket (xmalloc st n ret).2.mem (xmalloc st n ret).1 = b ∧
      divs (sz (size_class (n + 8))) ≤ i ∧ i < 1024 ∧
      (xmalloc st n ret).1 = b + sz (size_class (n + 8)) * i + 8 ∧
      bitmap (with_bucket (entered st) (chosen st) (size_class (n + 8)) ret).mem b i = 0 ∧
      sizeof_bucket_header ≤ sz (size_class (n + 8)) * i ∧
      (∀ q m, (q, m) ∈ live → q ≠ (xmalloc st n ret).1) ∧
      (∀ e, e ∈ live →
        (extent e).2 ≤ b + sz (size_class (n + 8)) * i ∨
        b + sz (size_class (n + 8)) * i + sz (size_class (n + 8)) ≤ (extent e).1) := by
  obtain ⟨c1, _, _⟩ := size_class_spec (n + 8) hn
  obtain ⟨bs, inv⟩ := reach_inv hr
  obtain ⟨bs', inv2, hh⟩ := small_ready inv hn hf
  obtain ⟨b, i, hb, hbs, hi1, hi2, hi3, g1, g2, g3⟩ :=
    get_block_slot inv2 (chosen_lt st) c1 hh
  obtain ⟨p1, p2⟩ := xmalloc_small_ptr st n ret hn
  rw [← hb] at p1 p2
  refine ⟨c1, b, i, hb, by rw [p2, g2], ?_, hi1, hi2, by rw [p1, g1], hi3,
    slot_above_meta c1 hi1, ?_, slot_extent_disjoint inv2 hbs hi1 hi2 hi3⟩
  · rw [p1, p2, g1]
    exact (xfree_decode g3).2
  · rw [p1, g1]
    exact slot_ptr_fresh inv2 hbs hi1 hi2 hi3

/-- Witness for C2: a second request, in the state reached by one allocation. -/
theorem xmalloc_slot_disjoint_witness :
    size_class (20 + 8) < 8 ∧
    ∃ b i,
      b = ((with_bucket (entered (xmalloc (initial (fun _ => 0)) 10 4096).2)
        (chosen (xmalloc (initial (fun _ => 0)) 10 4096).2) (size_class (20 + 8))
        1048576).arenas
        (chosen (xmalloc (initial (fun _ => 0)) 10 4096).2)).bucket_head (size_class (20 + 8)) ∧
      read64 (xmalloc (xmalloc (initial (fun _ => 0)) 10 4096).2 20 1048576).2.mem b
        = sz (size_class (20 + 8)) ∧
      xfree_bucket (xmalloc (xmalloc (initial (fun _ => 0)) 10 4096).2 20 1048576).2.mem
        (xmalloc (xmalloc (initial (fun _ => 0)) 10 4096).2 20 1048576).1 = b ∧
      divs (sz (size_class (20 + 8))) ≤ i ∧ i < 1024 ∧
      (xmalloc (xmalloc (initial (fun _ => 0)) 10 4096).2 20 1048576).1
        = b + sz (size_class (20 + 8)) * i + 8 ∧
      bitmap (with_bucket (entered (xmalloc (initial (fun _ => 0)) 10 4096).2)
        (chosen (xmalloc (initial (fun _ => 0)) 10 4096).2) (size_class (20 + 8)) 1048576).mem
        b i = 0 ∧
      sizeof_bucket_header ≤ sz (size_class (20 + 8)) * i ∧
      (∀ q m, (q, m) ∈ [((xmalloc (initial (fun _ => 0)) 10 4096).1, 10)] →
        q ≠ (xmalloc (xmalloc (initial (fun _ => 0)) 10 4096).2 20 1048576).1) ∧
      (∀ e, e ∈ [((xmalloc (initial (fun _ => 0)) 10 4096).1, 10)] →
        (extent e).2 ≤ b + sz (size_class (20 + 8)) * i ∨
        b + sz (size_class (20 + 8)) * i + sz (size_class (20 + 8)) ≤ (extent e).1) :=
  xmalloc_slot_disjoint (xmalloc (initial (fun _ => 0)) 10 4096).2
    [((xmalloc (initial (fun _ => 0)) 10 4096).1, 10)] 20 1048576
    (Reach.malloc 10 4096 (Reach.start _) (by decide)
      (fun _ _ => ⟨by decide, by decide, fun _ _ => rfl⟩))
    (by decide)
    (fun len _ => ⟨by decide, by decide, fun pg hp => by
      have hc : (xmalloc (initial (fun _ => 0)) 10 4096).2.calls = [Call.mmap 32768 4096] := rfl
      rw [hc]
      unfold pagesOf at hp
      simp only [mapped, MAP_FAILED, pagesOf, Bool.or_false, decide_eq_false_iff_not]
      rw [if_neg (by decide)]
      simp only [decide_eq_false_iff_not]
      omega⟩)

/-! ## Headers -/

/-- C3: header round trip.  When `get_block` takes slot `i < 1024` of the bucket at `b`
whose size field is the class size `s = sizes[k]`, the pointer `xmalloc` hands out is
`p = data + 8 = b + s * i + 8`, the 8 bytes before `p` hold `s * i`, and the decoding steps
of `xfree` on `p` recover the bucket and the slot: `(p - 8) - offset = b` and
`offset / s = i`. -/
theorem header_round_trip (st : State) (b k a : Nat) (hk : k < 8)
    (hsize : read64 st.mem b = sz k) (hi : scan st.mem b 1024 0 < 1024) :
    (get_block st b k a).1 + 8 = b + sz k * scan st.mem b 1024 0 + 8 ∧
    read64 (get_block st b k a).2.mem ((get_block st b k a).1 + 8 - 8)
      = sz k * scan st.mem b 1024 0 ∧
    ((get_block st b k a).1 + 8 - 8)
      - xfree_offset (get_block st b k a).2.mem ((get_block st b k a).1 + 8) = b ∧
    xfree_bucket (get_block st b k a).2.mem ((get_block st b k a).1 + 8) = b ∧
    xfree_offset (get_block st b k a).2.mem ((get_block st b k a).1 + 8) / sz k
      = scan st.mem b 1024 0 := by
  have hs := sz_pos hk
  have hsl := slot_bounds k hi
  have e1 : read64 (write32 (write8 st.mem (b + 16 + scan st.mem b 1024 0) 1) (b + 8)
      (read32 (write8 st.mem (b + 16 + scan st.mem b 1024 0) 1) (b + 8) + 1)) b = sz k := by
    rw [← hsize]
    exact read64_congr _ (fun x hx1 hx2 => by
      rw [write32_other _ _ _ _ (by omega), write8_other _ _ _ _ (by omega)])
  have e2 : (sz k * scan st.mem b 1024 0) % 2 ^ 64 = sz k * scan st.mem b 1024 0 :=
    Nat.mod_eq_of_lt (by omega)
  have hd : (get_block st b k a).1 = b + sz k * scan st.mem b 1024 0 := by
    unfold get_block
    simp only [if_pos hi, e1, e2]
  have hm : read64 (get_block st b k a).2.mem (b + sz k * scan st.mem b 1024 0)
      = sz k * scan st.mem b 1024 0 := by
    unfold get_block
    simp only [if_pos hi, e1, e2, read64_write64]
  obtain ⟨d1, d2⟩ := xfree_decode hm
  have e8 : b + sz k * scan st.mem b 1024 0 + 8 - 8 = b + sz k * scan st.mem b 1024 0 := by
    omega
  rw [hd]
  refine ⟨rfl, by rw [e8]; exact hm, ?_, d2, ?_⟩
  · rw [d1, e8]; omega
  · rw [d1]; exact Nat.mul_div_cancel_left _ (by omega)

/-- Witness for C3: the bucket of the 16-byte class that `page_setup` writes at 4096. -/
theorem header_round_trip_witness :
    (get_block (page_setup (initial (fun _ => 0)) 0 0 4096).2 4096 0 0).1 + 8
      = 4096 + sz 0 * scan (page_setup (initial (fun _ => 0)) 0 0 4096).2.mem 4096 1024 0 + 8 ∧
    read64 (get_block (page_setup (initial (fun _ => 0)) 0 0 4096).2 4096 0 0).2.mem
        ((get_block (page_setup (initial (fun _ => 0)) 0 0 4096).2 4096 0 0).1 + 8 - 8)
      = sz 0 * scan (page_setup (initial (fun _ => 0)) 0 0 4096).2.mem 4096 1024 0 ∧
    ((get_block (page_setup (initial (fun _ => 0)) 0 0 4096).2 4096 0 0).1 + 8 - 8)
      - xfree_offset (get_block (page_setup (initial (fun _ => 0)) 0 0 4096).2 4096 0 0).2.mem
          ((get_block (page_setup (initial (fun _ => 0)) 0 0 4096).2 4096 0 0).1 + 8) = 4096 ∧
    xfree_bucket (get_block (page_setup (initial (fun _ => 0)) 0 0 4096).2 4096 0 0).2.mem
      ((get_block (page_setup (initial (fun _ => 0)) 0 0 4096).2 4096 0 0).1 + 8) = 4096 ∧
    xfree_offset (get_block (page_setup (initial (fun _ => 0)) 0 0 4096).2 4096 0 0).2.mem
        ((get_block (page_setup (initial (fun _ => 0)) 0 0 4096).2 4096 0 0).1 + 8) / sz 0
      = scan (page_setup (initial (fun _ => 0)) 0 0 4096).2.mem 4096 1024 0 :=
  header_round_trip (page_setup (initial (fun _ => 0)) 0 0 4096).2 4096 0 0 (by decide)
    (page_setup_spec (initial (fun _ => 0)) 4096 (by decide) (by decide)).2.1
    (scan_free (page_setup_wf (initial (fun _ => 0)) 4096 (by decide) (by decide))
      (by rw [(page_setup_spec (initial (fun _ => 0)) 4096 (by decide) (by decide)).2.2.2.1]
          decide)).2.1

/-! ## The large path -/

/-- C7: for a request `n >= 2041` with `n + 16 < 2^64`, `xmalloc` makes one `mmap` call of
exactly `n + 16` bytes, stores `n + 16` in bytes 0..7 of the region and 8 in bytes 8..15,
and returns the region base plus 16, so the `n` bytes behind the pointer end where the
requested region ends. -/
theorem xmalloc_large (st : State) (n ret : Nat) (h1 : 2041 ≤ n) (h2 : n + 16 < 2 ^ 64) :
    (xmalloc st n ret).2.calls = Call.mmap (n + 16) ret :: st.calls ∧
    read64 (xmalloc st n ret).2.mem ret = n + 16 ∧
    read64 (xmalloc st n ret).2.mem (ret + 8) = 8 ∧
    (xmalloc st n ret).1 = ret + 16 ∧
    (xmalloc st n ret).1 + n ≤ ret + (n + 16) := by
  have hmod : (n + 8) % 2 ^ 64 = n + 8 := Nat.mod_eq_of_lt (by omega)
  have hx := xmalloc_large_eq st n ret (by rw [hmod]; omega)
  have hlen : ((n + 8) % 2 ^ 64 + 8) % 2 ^ 64 = n + 16 := by
    rw [hmod]; exact Nat.mod_eq_of_lt (by omega)
  rw [hlen] at hx
  rw [hx]
  dsimp only
  refine ⟨rfl, ?_, ?_, rfl, by omega⟩
  · rw [read64_congr (m := write64 st.mem ret (n + 16)) _
      (fun x h1 h2 => write64_other _ _ _ _ (by omega)), read64_write64]
    exact Nat.mod_eq_of_lt h2
  · rw [read64_write64]; norm_num

/-- Witness for C7: a request of `1 << 20` bytes at program start. -/
theorem xmalloc_large_witness :
    (xmalloc (initial (fun _ => 0)) 1048576 4096).2.calls
      = Call.mmap (1048576 + 16) 4096 :: (initial (fun _ => 0)).calls ∧
    read64 (xmalloc (initial (fun _ => 0)) 1048576 4096).2.mem 4096 = 1048576 + 16 ∧
    read64 (xmalloc (initial (fun _ => 0)) 1048576 4096).2.mem (4096 + 8) = 8 ∧
    (xmalloc (initial (fun _ => 0)) 1048576 4096).1 = 4096 + 16 ∧
    (xmalloc (initial (fun _ => 0)) 1048576 4096).1 + 1048576 ≤ 4096 + (1048576 + 16) :=
  xmalloc_large (initial (fun _ => 0)) 1048576 4096 (by decide) (by decide)

/-! ## Freeing a small allocation -/

/-- Everything `xfree` does on a live small allocation, in a state that satisfies the
invariant. -/
theorem xfree_small_effect {st : State} {live bs : List (Nat × Nat)} (inv : InvG st live bs)
    {p n : Nat} (hl : (p, n) ∈ live) (hn : n + 8 ≤ 2048) :
    ∃ b k i st', k < 8 ∧ (b, k) ∈ bs ∧ divs (sz k) ≤ i ∧ i < 1024 ∧ p = b + sz k * i + 8 ∧
      size_class (n + 8) = k ∧ read64 st.mem b = sz k ∧
      xfree_offset st.mem p = sz k * i ∧ xfree_bucket st.mem p = b ∧
      bitmap st.mem b i = 1 ∧
      xfree st p = some st' ∧
      bitmap st'.mem b i = 0 ∧
      (∀ j, j < 1024 → j ≠ i → bitmap st'.mem b j = bitmap st.mem b j) ∧
      read32 st'.mem (b + 8) + 1 = read32 st.mem (b + 8) ∧
      st'.calls = (if read32 st'.mem (b + 8) = divs (sz k) then
          Call.munmap b (PAGE_SIZE * pn k) :: st.calls else st.calls) ∧
      st'.arenas = (if read32 st'.mem (b + 8) = divs (sz k) then
          set_head st.arenas (read32 st.mem (b + 12)) k 0 else st.arenas) ∧
      read32 st'.mem (b + 12) = read32 st.mem (b + 12) ∧
      InvG st' (live.filter (fun e => decide (e.1 ≠ p)))
        (if read32 st'.mem (b + 8) = divs (sz k) then bs.filter (fun e => decide (e.1 ≠ b))
         else bs) := by
  obtain ⟨_, g2⟩ := inv.lives p n hl
  rw [if_pos hn] at g2
  obtain ⟨b, k, i, q1, q2, q3, q4, q5, q6, q7⟩ := g2
  obtain ⟨hk, hb0, hal, wf⟩ := inv.buckets b k q1
  have hgt := fill_gt_of_live wf q2 q3 q5
  have hle := (BucketWF_fill_ge hk wf).2
  have hx := xfree_small_eq hk wf.size_eq wf.owner_lt q3 q6
  rw [← q4] at hx
  have hmod : (read32 st.mem (b + 8) + (2 ^ 32 - 1)) % 2 ^ 32 = read32 st.mem (b + 8) - 1 := by
    omega
  rw [hmod] at hx
  obtain ⟨d1, d2⟩ := xfree_decode q6
  rw [← q4] at d1 d2
  obtain ⟨_, u2, u3, u4, u5, _⟩ :=
    release_slot st.mem (b := b) (i := i) (f := read32 st.mem (b + 8)) q3 (by omega) hle
  by_cases hf : read32 st.mem (b + 8) - 1 = divs (sz k)
  · rw [if_pos hf] at hx
    have hinv := free_unmap_inv inv q1 q2 q3 q4 q5 hf
    refine ⟨b, k, i, _, hk, q1, q2, q3, q4, q7, wf.size_eq, d1, d2, q5, hx, ?_⟩
    unfold munmap at hinv ⊢
    dsimp only
    rw [u4, if_pos hf, if_pos hf, if_pos hf]
    exact ⟨u3, u2, by omega, rfl, rfl, u5, hinv⟩
  · rw [if_neg hf] at hx
    have hinv := free_keep_inv inv q1 q2 q3 q4 q5
    refine ⟨b, k, i, _, hk, q1, q2, q3, q4, q7, wf.size_eq, d1, d2, q5, hx, ?_⟩
    dsimp only
    rw [u4, if_neg hf, if_neg hf, if_neg hf]
    exact ⟨u3, u2, by omega, rfl, rfl, u5, hinv⟩

/-- C5: for a live small allocation `p` at slot `i` of the bucket `B` of class
`s = sizes[k]` at `b`, `xfree(p)` sets `B.bitmap[i]` to 0, leaves the other bitmap entries
unchanged, lowers `B.fill` by exactly 1, and calls `munmap` if and only if the new fill is
`N = divs s`; the span released is then `b` with length `4096 * page_nums[k]`, the length
`page_setup` passes to `mmap` for class `k`. -/
theorem xfree_small (st : State) (live : List (Nat × Nat)) (p n : Nat)
    (hr : Reach st live) (hl : (p, n) ∈ live) (hn : n + 8 ≤ 2048) :
    ∃ b k i st', k < 8 ∧ i < 1024 ∧ divs (sz k) ≤ i ∧ p = b + sz k * i + 8 ∧
      read64 st.mem b = sz k ∧ xfree_bucket st.mem p = b ∧ bitmap st.mem b i = 1 ∧
      xfree st p = some st' ∧
      bitmap st'.mem b i = 0 ∧
      (∀ j, j < 1024 → j ≠ i → bitmap st'.mem b j = bitmap st.mem b j) ∧
      read32 st'.mem (b + 8) + 1 = read32 st.mem (b + 8) ∧
      st'.calls = (if read32 st'.mem (b + 8) = divs (sz k) then
          Call.munmap b (PAGE_SIZE * pn k) :: st.calls else st.calls) ∧
      (∀ (s0 : State) (a : Nat),
        (page_setup s0 k a b).2.calls = Call.mmap (PAGE_SIZE * pn k) b :: s0.calls) := by
  obtain ⟨bs, inv⟩ := reach_inv hr
  obtain ⟨b, k, i, st', e1, _, e3, e4, e5, _, e7, _, e9, e10, e11, e12, e13, e14, e15, _⟩ :=
    xfree_small_effect inv hl hn
  exact ⟨b, k, i, st', e1, e4, e3, e5, e7, e9, e10, e11, e12, e13, e14, e15,
    fun s0 a => page_setup_calls s0 k a b⟩

/-- Witness for C5: freeing the only allocation, made at program start. -/
theorem xfree_small_witness :
    ∃ b k i st', k < 8 ∧ i < 1024 ∧ divs (sz k) ≤ i ∧
      (xmalloc (initial (fun _ => 0)) 10 4096).1 = b + sz k * i + 8 ∧
      read64 (xmalloc (initial (fun _ => 0)) 10 4096).2.mem b = sz k ∧
      xfree_bucket (xmalloc (initial (fun _ => 0)) 10 4096).2.mem
        (xmalloc (initial (fun _ => 0)) 10 4096).1 = b ∧
      bitmap (xmalloc (initial (fun _ => 0)) 10 4096).2.mem b i = 1 ∧
      xfree (xmalloc (initial (fun _ => 0)) 10 4096).2
        (xmalloc (initial (fun _ => 0)) 10 4096).1 = some st' ∧
      bitmap st'.mem b i = 0 ∧
      (∀ j, j < 1024 → j ≠ i →
        bitmap st'.mem b j = bitmap (xmalloc (initial (fun _ => 0)) 10 4096).2.mem b j) ∧
      read32 st'.mem (b + 8) + 1 = read32 (xmalloc (initial (fun _ => 0)) 10 4096).2.mem (b + 8) ∧
      st'.calls = (if read32 st'.mem (b + 8) = divs (sz k) then
          Call.munmap b (PAGE_SIZE * pn k) :: (xmalloc (initial (fun _ => 0)) 10 4096).2.calls
        else (xmalloc (initial (fun _ => 0)) 10 4096).2.calls) ∧
      (∀ (s0 : State) (a : Nat),
        (page_setup s0 k a b).2.calls = Call.mmap (PAGE_SIZE * pn k) b :: s0.calls) :=
  xfree_small (xmalloc (initial (fun _ => 0)) 10 4096).2
    [((xmalloc (initial (fun _ => 0)) 10 4096).1, 10)]
    (xmalloc (initial (fun _ => 0)) 10 4096).1 10
    (Reach.malloc 10 4096 (Reach.start _) (by decide)
      (fun _ _ => ⟨by decide, by decide, fun _ _ => rfl⟩))
    (List.mem_cons_self _ _) (by decide)

/-! ## How `xfree` classifies an allocation -/

/-- C8: `xfree` classifies an allocation the way `xmalloc` created it.  For
`2041 <= n` the address `xfree` computes from the pointer `xmalloc(n)` returned is the
region base, the size field it reads is `n + 16 > 2048`, and it takes the large branch.
For `n <= 2040`, in a reachable state, the size field it reads is the size class of the
bucket, at most 2048, and it takes the bucket branch (it clears the bitmap entry of the
slot). -/
theorem xfree_classifies (st : State) (live : List (Nat × Nat)) (n ret : Nat)
    (hr : Reach st live) (hn : n + 16 < 2 ^ 64)
    (hf : ∀ len, (xmalloc st n ret).2.calls = Call.mmap len ret :: st.calls →
      Fresh st.calls ret len) :
    (2041 ≤ n →
      xfree_bucket (xmalloc st n ret).2.mem (xmalloc st n ret).1 = ret ∧
      xfree_size (xmalloc st n ret).2.mem (xmalloc st n ret).1 = n + 16 ∧
      2048 < xfree_size (xmalloc st n ret).2.mem (xmalloc st n ret).1 ∧
      xfree (xmalloc st n ret).2 (xmalloc st n ret).1
        = some (munmap (xmalloc st n ret).2 ((xmalloc st n ret).1 - 8) (n + 16))) ∧
    (n ≤ 2040 →
      xfree_size (xmalloc st n ret).2.mem (xmalloc st n ret).1 = sz (size_class (n + 8)) ∧
      xfree_size (xmalloc st n ret).2.mem (xmalloc st n ret).1 ≤ 2048 ∧
      ∃ st', xfree (xmalloc st n ret).2 (xmalloc st n ret).1 = some st' ∧
        bitmap st'.mem (xfree_bucket (xmalloc st n ret).2.mem (xmalloc st n ret).1)
          (xfree_offset (xmalloc st n ret).2.mem (xmalloc st n ret).1
            / xfree_size (xmalloc st n ret).2.mem (xmalloc st n ret).1) = 0 ∧
        st'.calls ≠ Call.munmap ((xmalloc st n ret).1 - 8)
          (xfree_size (xmalloc st n ret).2.mem (xmalloc st n ret).1)
            :: (xmalloc st n ret).2.calls) := by
  have hr' := Reach.malloc n ret hr hn hf
  obtain ⟨bs, inv⟩ := reach_inv hr'
  have hl : ((xmalloc st n ret).1, n) ∈ ((xmalloc st n ret).1, n) :: live :=
    List.mem_cons_self _ _
  have hptr : 2041 ≤ n → (xmalloc st n ret).1 = ret + 16 := fun hbig => by
    rw [xmalloc_large_eq st n ret (by
      rw [Nat.mod_eq_of_lt (by omega)]; omega)]
  generalize (xmalloc st n ret).1 = p at inv hl hptr ⊢
  generalize (xmalloc st n ret).2 = st1 at inv ⊢
  refine ⟨fun hbig => ?_, fun hsm => ?_⟩
  · have h := (inv.lives p n hl).2
    have hp := hptr hbig
    rw [if_neg (by omega)] at h
    have hx := xfree_large_eq h (by omega)
    obtain ⟨r, q1, q2, q3, q4⟩ := h
    have e : r + 16 - 8 = r + 8 := by omega
    have d1 : xfree_offset st1.mem p = 8 := by unfold xfree_offset; rw [q1, e, q4]
    have d2 : xfree_bucket st1.mem p = r := by unfold xfree_bucket; rw [d1, q1, e]; omega
    have d3 : xfree_size st1.mem p = n + 16 := by unfold xfree_size; rw [d2, q3]
    rw [d2, d3]
    exact ⟨by omega, rfl, by omega, hx⟩
  · obtain ⟨b, k, i, st', e1, _, e3, e4, e5, e6, e7, e8, e9, e10, e11, e12, e13, e14, e15, _⟩ :=
      xfree_small_effect inv hl (by omega)
    have hs := sz_pos e1
    have hsize : xfree_size st1.mem p = sz k := by unfold xfree_size; rw [e9, e7]
    rw [hsize, e9, e8, e6]
    refine ⟨rfl, hs.2, st', e11, ?_, ?_⟩
    · rw [Nat.mul_div_cancel_left _ (by omega)]; exact e12
    · rw [e15]
      split
      · intro hc
        have := (List.cons.inj hc).1
        injection this with h1 h2
        have := slot_above_meta e1 e3
        omega
      · intro hc
        have := congrArg List.length hc
        simp at this

/-- Witness for C8: a request of 10 bytes and a request of `1 << 20` bytes at program
start. -/
theorem xfree_classifies_witness :
    (xfree_size (xmalloc (initial (fun _ => 0)) 10 4096).2.mem
        (xmalloc (initial (fun _ => 0)) 10 4096).1 = sz (size_class (10 + 8)) ∧
      xfree_size (xmalloc (initial (fun _ => 0)) 10 4096).2.mem
        (xmalloc (initial (fun _ => 0)) 10 4096).1 ≤ 2048 ∧
      ∃ st', xfree (xmalloc (initial (fun _ => 0)) 10 4096).2
          (xmalloc (initial (fun _ => 0)) 10 4096).1 = some st' ∧
        bitmap st'.mem (xfree_bucket (xmalloc (initial (fun _ => 0)) 10 4096).2.mem
            (xmalloc (initial (fun _ => 0)) 10 4096).1)
          (xfree_offset (xmalloc (initial (fun _ => 0)) 10 4096).2.mem
              (xmalloc (initial (fun _ => 0)) 10 4096).1
            / xfree_size (xmalloc (initial (fun _ => 0)) 10 4096).2.mem
              (xmalloc (initial (fun _ => 0)) 10 4096).1) = 0 ∧
        st'.calls ≠ Call.munmap ((xmalloc (initial (fun _ => 0)) 10 4096).1 - 8)
          (xfree_size (xmalloc (initial (fun _ => 0)) 10 4096).2.mem
            (xmalloc (initial (fun _ => 0)) 10 4096).1)
            :: (xmalloc (initial (fun _ => 0)) 10 4096).2.calls) ∧
    (xfree_bucket (xmalloc (initial (fun _ => 0)) 1048576 4096).2.mem
        (xmalloc (initial (fun _ => 0)) 1048576 4096).1 = 4096 ∧
      xfree_size (xmalloc (initial (fun _ => 0)) 1048576 4096).2.mem
        (xmalloc (initial (fun _ => 0)) 1048576 4096).1 = 1048576 + 16 ∧
      2048 < xfree_size (xmalloc (initial (fun _ => 0)) 1048576 4096).2.mem
        (xmalloc (initial (fun _ => 0)) 1048576 4096).1 ∧
      xfree (xmalloc (initial (fun _ => 0)) 1048576 4096).2
          (xmalloc (initial (fun _ => 0)) 1048576 4096).1
        = some (munmap (xmalloc (initial (fun _ => 0)) 1048576 4096).2
            ((xmalloc (initial (fun _ => 0)) 1048576 4096).1 - 8) (1048576 + 16))) :=
  ⟨(xfree_classifies (initial (fun _ => 0)) [] 10 4096 (Reach.start _) (by decide)
      (fun _ _ => ⟨by decide, by decide, fun _ _ => rfl⟩)).2 (by decide),
   (xfree_classifies (initial (fun _ => 0)) [] 1048576 4096 (Reach.start _) (by decide)
      (fun _ _ => ⟨by decide, by decide, fun _ _ => rfl⟩)).1 (by decide)⟩

/-! ## Requests that wrap around -/

/-- C4 (failing input): a request of `2^64 - 8` bytes.  The sum `nbytes + 8` wraps to 0,
the test `nbytes > 2048` fails, class index 0 is selected, and the only system call is the
`mmap` of a bucket of the 16-byte class: the request is not served by the large path. -/
theorem xmalloc_wraps_to_small :
    (2 ^ 64 - 8 + 8) % 2 ^ 64 = 0 ∧
    size_class ((2 ^ 64 - 8 + 8) % 2 ^ 64) = 0 ∧
    (xmalloc (initial (fun _ => 0)) (2 ^ 64 - 8) 4096).2.calls
      = [Call.mmap (PAGE_SIZE * pn 0) 4096] ∧
    PAGE_SIZE * pn 0 = 1024 * 16 := by
  refine ⟨by norm_num, by decide, ?_, by decide⟩
  rw [xmalloc_small_calls _ _ _ (by norm_num)]
  rfl

/-- The boundary cases of the size test that do hold: a request of 0 bytes selects class
0, a request of 2040 bytes selects class 7, and every request from 2041 up to
`2^64 - 9` bytes takes the large path. -/
theorem size_test_boundaries (st : State) (ret : Nat) :
    size_class ((0 + 8) % 2 ^ 64) = 0 ∧ (0 + 8) % 2 ^ 64 ≤ 2048 ∧
    size_class ((2040 + 8) % 2 ^ 64) = 7 ∧ (2040 + 8) % 2 ^ 64 ≤ 2048 ∧
    ∀ n, 2041 ≤ n → n < 2 ^ 64 - 8 →
      (xmalloc st n ret).1 = ret + 16 ∧
      (xmalloc st n ret).2.calls = Call.mmap ((n + 16) % 2 ^ 64) ret :: st.calls := by
  refine ⟨by decide, by decide, by decide, by decide, fun n h1 h2 => ?_⟩
  have hmod : (n + 8) % 2 ^ 64 = n + 8 := Nat.mod_eq_of_lt (by omega)
  rw [xmalloc_large_eq st n ret (by rw [hmod]; omega), hmod]
  exact ⟨rfl, rfl⟩

/-! ## Freeing a large allocation -/

/-- The call `xfree` makes on a pointer whose two header words are those the large path
of `xmalloc` writes: `munmap(p - 8, size)`. -/
theorem xfree_large_raw {st : State} {r n : Nat} (q3 : read64 st.mem r = n + 16)
    (q4 : read64 st.mem (r + 8) = 8) (hbig : 2048 < n + 8) :
    xfree st (r + 16) = some (munmap st (r + 8) (n + 16)) := by
  have e : r + 16 - 8 = r + 8 := by omega
  have d1 : xfree_offset st.mem (r + 16) = 8 := by unfold xfree_offset; rw [e, q4]
  have d2 : xfree_bucket st.mem (r + 16) = r := by unfold xfree_bucket; rw [d1, e]; omega
  have d3 : xfree_size st.mem (r + 16) = n + 16 := by unfold xfree_size; rw [d2, q3]
  unfold xfree
  rw [if_neg (by omega)]
  simp only [d1, d2, d3, e]
  rw [if_neg (by omega), if_pos (by omega)]

/-- Freeing the pointer a large `xmalloc` returned calls `munmap` on the region base plus
8, with the stored size. -/
theorem xfree_after_large (st : State) (n ret : Nat) (h1 : 2041 ≤ n) (h2 : n + 16 < 2 ^ 64) :
    xfree (xmalloc st n ret).2 (xmalloc st n ret).1
      = some (munmap (xmalloc st n ret).2 (ret + 8) (n + 16)) ∧
    (xmalloc st n ret).2.calls = Call.mmap (n + 16) ret :: st.calls := by
  have hmod : (n + 8) % 2 ^ 64 = n + 8 := Nat.mod_eq_of_lt (by omega)
  have hx := xmalloc_large_eq st n ret (by rw [hmod]; omega)
  have hlen : ((n + 8) % 2 ^ 64 + 8) % 2 ^ 64 = n + 16 := by
    rw [hmod]; exact Nat.mod_eq_of_lt (by omega)
  rw [hlen] at hx
  rw [hx]
  dsimp only
  refine ⟨xfree_large_raw ?_ ?_ (by omega), rfl⟩
  · dsimp only
    rw [read64_congr (m := write64 st.mem ret (n + 16)) _
      (fun x h1 h2 => write64_other _ _ _ _ (by omega)), read64_write64]
    exact Nat.mod_eq_of_lt h2
  · dsimp only
    rw [read64_write64]; norm_num

/-- C9 (failing input): `p = xmalloc(1 << 20)` at program start, with the region mapped at
4096, then `xfree(p)`.  The release call is `munmap(4104, 1048592)`: its address is
`p - 8`, not the region base `p - 16 = 4096` that `mmap` returned.  The address is not
page-aligned, so the call fails and the pages of the region stay mapped. -/
theorem xfree_large_wrong_base :
    (xmalloc (initial (fun _ => 0)) 1048576 4096).1 = 4096 + 16 ∧
    (xfree (xmalloc (initial (fun _ => 0)) 1048576 4096).2
        (xmalloc (initial (fun _ => 0)) 1048576 4096).1).map (fun s => s.calls)
      = some [Call.munmap (4096 + 8) 1048592, Call.mmap 1048592 4096] ∧
    (∀ pg, mapped [Call.munmap (4096 + 8) 1048592, Call.mmap 1048592 4096] pg
      = mapped [Call.mmap 1048592 4096] pg) ∧
    mapped [Call.munmap (4096 + 8) 1048592, Call.mmap 1048592 4096] 1 = true := by
  obtain ⟨h1, h2⟩ := xfree_after_large (initial (fun _ => 0)) 1048576 4096 (by decide)
    (by decide)
  refine ⟨?_, ?_, fun pg => rfl, by decide⟩
  · rw [xmalloc_large_eq _ _ _ (by decide)]
  · rw [h1]
    simp only [Option.map_some', munmap, h2]
    rfl

/-! ## Single-threaded use: every call finds the arenas idle and takes arena 0 -/

theorem init_arenas_in_use (st : State) {a : Nat} (ha : a < 8) :
    ((init_arenas st).arenas a).in_use = 0 := by
  interval_cases a <;> simp [init_arenas, List.range_succ, Function.update]

theorem set_head_in_use (ars : Nat → Arena) (a k v a' : Nat) :
    (set_head ars a k v a').in_use = (ars a').in_use := by
  unfold set_head
  by_cases h : a' = a
  · subst h; simp
  · rw [Function.update_noteq h]

theorem set_in_use_in_use (ars : Nat → Arena) (a v a' : Nat) :
    (set_in_use ars a v a').in_use = if a' = a then v else (ars a').in_use := by
  unfold set_in_use
  by_cases h : a' = a
  · subst h; simp
  · rw [Function.update_noteq h, if_neg h]

theorem chosen_idle {st : State} (h : Idle st) : chosen st = 0 := by
  unfold chosen choose_arena
  by_cases h0 : st.init = 0
  · simp only [h0, if_true]
    rw [choose_arena_loop, if_pos (init_arenas_in_use st (by omega))]
  · simp only [h0, if_false]
    rw [choose_arena_loop, if_pos (h 0 (by omega))]

theorem entered_in_use {st : State} (h : Idle st) {a : Nat} (ha : a < 8) :
    ((entered st).arenas a).in_use = if a = 0 then 1 else 0 := by
  unfold entered choose_arena
  by_cases h0 : st.init = 0
  · simp only [h0, if_true]
    rw [choose_arena_loop, if_pos (init_arenas_in_use st (by omega))]
    dsimp only
    rw [set_in_use_in_use]
    split
    · rfl
    · exact init_arenas_in_use st ha
  · simp only [h0, if_false]
    rw [choose_arena_loop, if_pos (h 0 (by omega))]
    dsimp only
    rw [set_in_use_in_use]
    split
    · rfl
    · exact h a ha

theorem get_block_in_use (st : State) (b k a a' : Nat) :
    ((get_block st b k a).2.arenas a').in_use = (st.arenas a').in_use := by
  have h : ∀ (c : Prop) [Decidable c],
      ((if c then set_head st.arenas a k 0 else st.arenas) a').in_use = (st.arenas a').in_use := by
    intro c _
    split
    · rw [set_head_in_use]
    · rfl
  unfold get_block
  dsimp only
  exact h _

theorem with_bucket_in_use (st : State) (a k ret a' : Nat) :
    ((with_bucket st a k ret).arenas a').in_use = (st.arenas a').in_use := by
  unfold with_bucket
  split
  · dsimp only
    rw [set_head_in_use, page_setup_arenas]
  · rfl

theorem xmalloc_in_use (st : State) (n ret a' : Nat) :
    ((xmalloc st n ret).2.arenas a').in_use =
      if a' = chosen st then 0 else ((entered st).arenas a').in_use := by
  by_cases h : (n + 8) % 2 ^ 64 ≤ 2048
  · rw [xmalloc_small_eq st n ret h]
    dsimp only
    rw [set_in_use_in_use]
    split
    · rfl
    · rw [get_block_in_use, with_bucket_in_use]
  · rw [xmalloc_large_eq st n ret (by omega)]
    dsimp only
    rw [set_in_use_in_use]

theorem xmalloc_idle {st : State} (h : Idle st) (n ret : Nat) : Idle (xmalloc st n ret).2 := by
  intro a ha
  rw [xmalloc_in_use, chosen_idle h, entered_in_use h ha]
  split <;> rfl

/-! ## One allocation, one release: what changes -/

/-- One `get_block` on the bucket of arena `a` for class `k`, in full. -/
theorem get_block_step {st : State} {live bs : List (Nat × Nat)} (inv : InvG st live bs)
    {a k n b : Nat} (ha : a < 8) (hk : k < 8) (hn : n + 8 ≤ 2048) (hn2 : n + 16 < 2 ^ 64)
    (hc : size_class (n + 8) = k) (hb : (st.arenas a).bucket_head k = b) (hh : b ≠ 0) :
    ∃ i, divs (sz k) ≤ i ∧ i < 1024 ∧ (get_block st b k a).1 = b + sz k * i ∧
      (∀ q m, (q, m) ∈ live → q ≠ b + sz k * i + 8) ∧
      read32 (get_block st b k a).2.mem (b + 8) = read32 st.mem (b + 8) + 1 ∧
      read32 (get_block st b k a).2.mem (b + 12) = a ∧
      ((get_block st b k a).2.arenas a).bucket_head k
        = (if read32 (get_block st b k a).2.mem (b + 8) = 1024 then 0 else b) ∧
      (b, k) ∈ bs ∧
      InvG (get_block st b k a).2 (((get_block st b k a).1 + 8, n) :: live) bs := by
  subst hb
  have ginv := get_block_inv inv ha hk hn hn2 hc hh
  obtain ⟨hbs, how, hfl⟩ := inv.heads a k ha hk hh
  obtain ⟨_, hb0, hal, wf⟩ := inv.buckets _ k hbs
  obtain ⟨hi1, hi2, hi3⟩ := scan_free wf hfl
  obtain ⟨_, _, _, t4, t5, _, _, _⟩ :=
    take_slot st.mem (b := (st.arenas a).bucket_head k) (f := read32 st.mem
      ((st.arenas a).bucket_head k + 8)) hi2 (slot_above_meta hk hi1)
      (slot_bounds k hi2) (sz_pos hk).1 hfl (sz_pos hk).2
  have hfresh := slot_ptr_fresh inv hbs hi1 hi2 hi3
  refine ⟨_, hi1, hi2, ?_, hfresh, ?_, ?_, ?_, hbs, ginv⟩
  · rw [get_block_eq a hk wf hfl]
  · rw [get_block_eq a hk wf hfl]; dsimp only; exact t4
  · rw [get_block_eq a hk wf hfl]; dsimp only; rw [t5]; exact how
  · rw [get_block_eq a hk wf hfl]; dsimp only
    rw [t4]
    split
    · rw [set_head_head, if_pos ⟨rfl, rfl⟩]
    · rfl

/-- One small `xmalloc`, in full: the bucket `b` and slot `i` it takes, the new fill of
the bucket, the head of the chosen arena afterwards, and whether a region was mapped. -/
theorem small_step {st : State} {live bs : List (Nat × Nat)} (inv : InvG st live bs)
    {n : Nat} (ret : Nat) (hsm : n + 8 ≤ 2048)
    (hf : (st.arenas (chosen st)).bucket_head (size_class (n + 8)) = 0 →
      Fresh st.calls ret (PAGE_SIZE * pn (size_class (n + 8)))) :
    ∃ b i bs', InvG (xmalloc st n ret).2 (((xmalloc st n ret).1, n) :: live) bs' ∧
      (b, size_class (n + 8)) ∈ bs' ∧
      divs (sz (size_class (n + 8))) ≤ i ∧ i < 1024 ∧
      (xmalloc st n ret).1 = b + sz (size_class (n + 8)) * i + 8 ∧
      (∀ q m, (q, m) ∈ live → q ≠ (xmalloc st n ret).1) ∧
      ((xmalloc st n ret).2.arenas (chosen st)).bucket_head (size_class (n + 8))
        = (if read32 (xmalloc st n ret).2.mem (b + 8) = 1024 then 0 else b) ∧
      read32 (xmalloc st n ret).2.mem (b + 12) = chosen st ∧
      (if (st.arenas (chosen st)).bucket_head (size_class (n + 8)) = 0 then
        b = ret ∧ bs' = (ret, size_class (n + 8)) :: bs ∧
        (xmalloc st n ret).2.calls
          = Call.mmap (PAGE_SIZE * pn (size_class (n + 8))) ret :: st.calls ∧
        read32 (xmalloc st n ret).2.mem (b + 8) = divs (sz (size_class (n + 8))) + 1
       else
        b = (st.arenas (chosen st)).bucket_head (size_class (n + 8)) ∧ bs' = bs ∧
        (xmalloc st n ret).2.calls = st.calls ∧
        read32 (xmalloc st n ret).2.mem (b + 8) = read32 st.mem (b + 8) + 1) := by
  have hmod : (n + 8) % 2 ^ 64 = n + 8 := Nat.mod_eq_of_lt (by omega)
  have hx := xmalloc_small_eq st n ret (by rw [hmod]; exact hsm)
  rw [hmod] at hx
  have hk := (size_class_spec (n + 8) hsm).1
  have ha := chosen_lt st
  have inv1 := entered_inv inv
  generalize hkdef : size_class (n + 8) = k at hx hk hf ⊢
  generalize hadef : chosen st = a at hx ha hf ⊢
  have hhd : ((entered st).arenas a).bucket_head k = (st.arenas a).bucket_head k := by
    rw [entered_head]
  by_cases hh : (st.arenas a).bucket_head k = 0
  · have hh' : ((entered st).arenas a).bucket_head k = 0 := by rw [hhd]; exact hh
    have hfr : Fresh (entered st).calls ret (PAGE_SIZE * pn k) := by
      rw [entered_calls]; exact hf hh
    have inv2 := with_bucket_new_inv inv1 (entered_init st) ha hk hh' hfr
    have hhead := with_bucket_head_new ret hh'
    have hcalls := with_bucket_calls_new ret hh'
    have hfill : read32 (with_bucket (entered st) a k ret).mem (ret + 8) = divs (sz k) := by
      rw [with_bucket_new ret hh']
      have hid : ((entered st).arenas a).id < 8 := by
        rw [inv1.ids (entered_init st) a ha]; exact ha
      exact (page_setup_spec (entered st) ret hk hid).2.2.2.1
    rw [hhead] at hx
    generalize with_bucket (entered st) a k ret = W at inv2 hhead hcalls hfill hx
    obtain ⟨i, s1, s2, s3, s4, s5, s6, s7, s8, s9⟩ :=
      get_block_step (n := n) inv2 ha hk hsm (by omega) hkdef hhead hfr.1
    refine ⟨ret, i, (ret, k) :: bs, ?_⟩
    rw [if_pos hh, hx]
    dsimp only
    refine ⟨InvG_in_use s9 _ _, ?_⟩
    rw [set_in_use_head, s3, get_block_calls, hcalls, entered_calls, s5, hfill]
    refine ⟨s8, s1, s2, rfl, s4, ?_, s6, rfl, rfl, rfl, rfl⟩
    rw [s7, s5, hfill]
  · have hh' : ((entered st).arenas a).bucket_head k ≠ 0 := by rw [hhd]; exact hh
    rw [with_bucket_old ret hh', hhd] at hx
    obtain ⟨i, s1, s2, s3, s4, s5, s6, s7, s8, s9⟩ :=
      get_block_step (n := n) inv1 ha hk hsm (by omega) hkdef hhd hh
    refine ⟨(st.arenas a).bucket_head k, i, bs, ?_⟩
    rw [if_neg hh, hx]
    dsimp only
    refine ⟨InvG_in_use s9 _ _, ?_⟩
    rw [set_in_use_head, s3, get_block_calls, entered_calls, s5, entered_mem]
    refine ⟨s8, s1, s2, rfl, s4, ?_, s6, rfl, rfl, rfl, rfl⟩
    rw [s7, s5, entered_mem]

theorem xfree_live_in_use {st st' : State} {live bs : List (Nat × Nat)}
    (inv : InvG st live bs) {p n : Nat} (hl : (p, n) ∈ live) (hx : xfree st p = some st')
    (a : Nat) : (st'.arenas a).in_use = (st.arenas a).in_use := by
  by_cases hsm : n + 8 ≤ 2048
  · obtain ⟨b, k, i, st2, _, _, _, _, _, _, _, _, _, _, e11, _, _, _, _, e16, _⟩ :=
      xfree_small_effect inv hl hsm
    rw [hx] at e11
    cases e11
    rw [e16]
    split
    · rw [set_head_in_use]
    · rfl
  · have h := (inv.lives p n hl).2
    rw [if_neg hsm] at h
    have := xfree_large_eq h (by omega)
    rw [hx] at this
    cases this
    rfl

theorem reach_idle {st : State} {live : List (Nat × Nat)} (h : Reach st live) : Idle st := by
  induction h with
  | start m => intro a _; rfl
  | malloc n ret _ _ _ ih => exact xmalloc_idle ih n ret
  | free p n hr hl hx ih =>
    obtain ⟨bs, inv⟩ := reach_inv hr
    intro a ha
    rw [xfree_live_in_use inv hl hx a]
    exact ih a ha

/-- A slot address belongs to one tracked bucket and one slot only. -/
theorem slot_bucket_unique {st : State} {live bs : List (Nat × Nat)} (inv : InvG st live bs)
    {b k i r c j : Nat} (hb : (b, k) ∈ bs) (hr : (r, c) ∈ bs) (hi : i < 1024) (hj : j < 1024)
    (h : b + sz k * i = r + sz c * j) : b = r ∧ k = c ∧ i = j := by
  have hk := (inv.buckets b k hb).1
  have hc := (inv.buckets r c hr).1
  have h1 := slot_bounds k hi
  have h2 := slot_bounds c hj
  have h3 := pages_eq hk
  have h4 := pages_eq hc
  have h5 := sz_pos hk
  have h6 := sz_pos hc
  by_cases e : b = r
  · subst e
    have := bucket_class_unique inv hb hr
    subst this
    refine ⟨rfl, rfl, ?_⟩
    have h7 : sz k * i = sz k * j := by omega
    exact Nat.eq_of_mul_eq_mul_left (by omega) h7
  · rcases inv.regs_disj _ _ (bucket_region live hb) (bucket_region live hr) with h7 | h7
    · exact absurd (Prod.mk.inj h7).1 e
    · exact absurd (bytes_apart h7 (a := b + sz k * i) (by simp only; omega)
        (by simp only; omega) (by simp only; omega) (by simp only; omega)) id

/-- Releasing distinct live pointers of one bucket, while the bucket keeps other data:
no system call is made, the arenas do not change, and `fill` drops by the number of
pointers released. -/
theorem free_run {r0 c : Nat} : ∀ (ps : List Nat) (S : State) (L bs : List (Nat × Nat))
    (extra : Nat), Reach S L → InvG S L bs → (r0, c) ∈ bs → ps.Nodup →
    (∀ p, p ∈ ps → ∃ n i, (p, n) ∈ L ∧ n + 8 ≤ 2048 ∧ i < 1024 ∧ p = r0 + sz c * i + 8) →
    read32 S.mem (r0 + 8) = divs (sz c) + ps.length + extra → 0 < extra →
    ∃ S', free_all S ps = some S' ∧ S'.calls = S.calls ∧ S'.arenas = S.arenas ∧
      read32 S'.mem (r0 + 8) = divs (sz c) + extra ∧
      read32 S'.mem (r0 + 12) = read32 S.mem (r0 + 12) ∧
      Reach S' (live_less L ps) ∧ InvG S' (live_less L ps) bs := by
  intro ps
  induction ps with
  | nil =>
    intro S L bs extra hr inv _ _ _ hfill _
    exact ⟨S, rfl, rfl, rfl, by simpa using hfill, rfl, hr, inv⟩
  | cons p ps ih =>
    intro S L bs extra hr inv hb hnd hps hfill hex
    obtain ⟨n, i, hl, hn, hi, hp⟩ := hps p (List.mem_cons_self _ _)
    obtain ⟨b, k, i', st', e1, e2, e3, e4, e5, e6, e7, e8, e9, e10, e11, e12, e13, e14, e15,
      e16, e17, e18⟩ := xfree_small_effect inv hl hn
    obtain ⟨u1, u2, u3⟩ := slot_bucket_unique inv e2 hb e4 hi (by omega)
    subst u1 u2 u3
    have hlen : (p :: ps).length = ps.length + 1 := rfl
    rw [hlen] at hfill
    have hne : ¬ read32 st'.mem (b + 8) = divs (sz k) := by omega
    rw [if_neg hne] at e15 e16 e18
    have hr' := Reach.free p n hr hl e11
    have hps' : ∀ p', p' ∈ ps →
        ∃ n i, (p', n) ∈ L.filter (fun e => decide (e.1 ≠ p)) ∧ n + 8 ≤ 2048 ∧ i < 1024 ∧
          p' = b + sz k * i + 8 := by
      intro p' hp'
      obtain ⟨n', j, h1, h2, h3, h4⟩ := hps p' (List.mem_cons_of_mem _ hp')
      refine ⟨n', j, List.mem_filter.mpr ⟨h1, ?_⟩, h2, h3, h4⟩
      have : p' ≠ p := fun e => (List.nodup_cons.mp hnd).1 (e ▸ hp')
      simpa using this
    obtain ⟨S', f1, f2, f3, f4, f5, f6, f7⟩ :=
      ih st' _ bs extra hr' e18 hb (List.nodup_cons.mp hnd).2 hps' (by omega) hex
    refine ⟨S', ?_, by rw [f2, e15], by rw [f3, e16], f4, by rw [f5, e17], f6, f7⟩
    show (xfree S p).bind _ = _
    rw [e11]
    exact f1

theorem alloc_all_cons (S : State) (q : Nat × Nat) (qs : List (Nat × Nat)) :
    (alloc_all S (q :: qs)).2 = (alloc_all (xmalloc S q.1 q.2).2 qs).2 ∧
    (alloc_all S (q :: qs)).1 = (xmalloc S q.1 q.2).1 :: (alloc_all (xmalloc S q.1 q.2).2 qs).1 :=
  ⟨rfl, rfl⟩

theorem live_after_cons (S : State) (q : Nat × Nat) (qs L : List (Nat × Nat)) :
    live_after S (q :: qs) L
      = live_after (xmalloc S q.1 q.2).2 qs (((xmalloc S q.1 q.2).1, q.1) :: L) := rfl

/-- Single-threaded requests of one class served while the arena's bucket for that class
has room: all are served from that bucket and no system call is made. -/
theorem alloc_run {r0 c : Nat} : ∀ (reqs : List (Nat × Nat)) (S : State)
    (L bs : List (Nat × Nat)) (j : Nat), Reach S L → InvG S L bs → (r0, c) ∈ bs →
    read32 S.mem (r0 + 8) = divs (sz c) + j → read32 S.mem (r0 + 12) = 0 →
    (S.arenas 0).bucket_head c = (if divs (sz c) + j = 1024 then 0 else r0) →
    divs (sz c) + j + reqs.length ≤ 1024 →
    (∀ q, q ∈ reqs → q.1 + 8 ≤ 2048 ∧ size_class (q.1 + 8) = c) →
    (alloc_all S reqs).2.calls = S.calls ∧
    Reach (alloc_all S reqs).2 (live_after S reqs L) ∧
    InvG (alloc_all S reqs).2 (live_after S reqs L) bs ∧
    read32 (alloc_all S reqs).2.mem (r0 + 8) = divs (sz c) + j + reqs.length ∧
    read32 (alloc_all S reqs).2.mem (r0 + 12) = 0 ∧
    ((alloc_all S reqs).2.arenas 0).bucket_head c
      = (if divs (sz c) + j + reqs.length = 1024 then 0 else r0) ∧
    (alloc_all S reqs).1.Nodup ∧ (alloc_all S reqs).1.length = reqs.length ∧
    (∀ e, e ∈ L → e ∈ live_after S reqs L) ∧
    (∀ p, p ∈ (alloc_all S reqs).1 →
      (∃ n i, (p, n) ∈ live_after S reqs L ∧ n + 8 ≤ 2048 ∧ i < 1024 ∧
        p = r0 + sz c * i + 8) ∧
      ∀ e, e ∈ L → e.1 ≠ p) := by
  intro reqs
  induction reqs with
  | nil =>
    intro S L bs j hr inv _ hfill hown hhead _ _
    refine ⟨rfl, hr, inv, by simpa using hfill, hown, by simpa using hhead,
      List.nodup_nil, rfl, fun e he => he, fun p hp => ?_⟩
    exact absurd hp (List.not_mem_nil _)
  | cons q qs ih =>
    intro S L bs j hr inv hb hfill hown hhead hroom hcls
    obtain ⟨hq1, hq2⟩ := hcls q (List.mem_cons_self _ _)
    have hlen : (q :: qs).length = qs.length + 1 := rfl
    rw [hlen] at hroom
    have hidle := reach_idle hr
    have hch := chosen_idle hidle
    obtain ⟨hk, hb0, _, _⟩ := inv.buckets r0 c hb
    rw [if_neg (by omega)] at hhead
    have hh : (S.arenas (chosen S)).bucket_head (size_class (q.1 + 8)) ≠ 0 := by
      rw [hch, hq2, hhead]; exact hb0
    obtain ⟨b, i, bs', s1, s2, s3, s4, s5, s6, s7, s8, s9⟩ :=
      small_step inv q.2 hq1 (fun h0 => absurd h0 hh)
    rw [if_neg hh] at s9
    obtain ⟨t1, t2, t3, t4⟩ := s9
    rw [hch, hq2] at t1 s7
    rw [hch] at s8
    rw [hq2] at s2 s3 s5
    rw [hhead] at t1
    have t1' := t1.symm
    have t2' := t2.symm
    subst t1' t2'
    have hr' : Reach (xmalloc S q.1 q.2).2 (((xmalloc S q.1 q.2).1, q.1) :: L) :=
      Reach.malloc q.1 q.2 hr (by omega)
        (fun len h => absurd (t3 ▸ h : S.calls = _) (List.cons_ne_self _ _).symm)
    rw [hfill] at t4
    have hhead' : ((xmalloc S q.1 q.2).2.arenas 0).bucket_head c
        = (if divs (sz c) + (j + 1) = 1024 then 0 else r0) := by
      rw [s7, t4]
      by_cases e : divs (sz c) + j + 1 = 1024
      · rw [if_pos e, if_pos (by omega)]
      · rw [if_neg e, if_neg (by omega)]
    obtain ⟨g1, g2, g3, g4, g5, g6, g7, g8, g9, g10⟩ :=
      ih (xmalloc S q.1 q.2).2 (((xmalloc S q.1 q.2).1, q.1) :: L) bs (j + 1) hr' s1 hb
        (by rw [t4]; omega) s8 hhead' (by omega)
        (fun q' hq' => hcls q' (List.mem_cons_of_mem _ hq'))
    rw [(alloc_all_cons S q qs).1, (alloc_all_cons S q qs).2, live_after_cons, hlen]
    refine ⟨by rw [← t3]; exact g1, g2, g3, by rw [g4]; omega, g5, ?_, ?_, ?_,
      fun e he => g9 e (List.mem_cons_of_mem _ he), ?_⟩
    · rw [g6]
      by_cases e : divs (sz c) + (j + 1) + qs.length = 1024
      · rw [if_pos e, if_pos (by omega)]
      · rw [if_neg e, if_neg (by omega)]
    · refine List.nodup_cons.mpr ⟨fun hmem => ?_, g7⟩
      exact (g10 _ hmem).2 ((xmalloc S q.1 q.2).1, q.1) (List.mem_cons_self _ _) rfl
    · rw [List.length_cons, g8]
    · intro p hp
      rcases List.mem_cons.mp hp with e | e
      · subst e
        refine ⟨⟨q.1, i, g9 _ (List.mem_cons_self _ _), hq1, s4, s5⟩, fun e he => ?_⟩
        exact s6 e.1 e.2 he
      · obtain ⟨h1, h2⟩ := g10 p e
        exact ⟨h1, fun e' he' => h2 e' (List.mem_cons_of_mem _ he')⟩

/-! ## Bookkeeping of the live list over runs -/

theorem free_all_append (xs ys : List Nat) : ∀ (S : State),
    free_all S (xs ++ ys) = (free_all S xs).bind (fun s => free_all s ys) := by
  induction xs with
  | nil => intro S; rfl
  | cons x xs ih =>
    intro S
    show (xfree S x).bind (fun s => free_all s (xs ++ ys)) = _
    cases h : xfree S x with
    | none => simp [free_all, h]
    | some s => simp [free_all, h, ih]

theorem live_less_filter (ps : List Nat) : ∀ (L : List (Nat × Nat)),
    live_less L ps = L.filter (fun e => decide (e.1 ∉ ps)) := by
  induction ps with
  | nil => intro L; simp [live_less]
  | cons p ps ih =>
    intro L
    rw [live_less, ih, List.filter_filter]
    congr 1
    funext e
    simp only [List.mem_cons, not_or, Bool.decide_and, ne_eq]
    rw [Bool.and_comm]

theorem live_after_split : ∀ (reqs : List (Nat × Nat)) (S : State) (L : List (Nat × Nat)),
    ∃ news, live_after S reqs L = news ++ L ∧
      ∀ e, e ∈ news → e.1 ∈ (alloc_all S reqs).1 := by
  intro reqs
  induction reqs with
  | nil => intro S L; exact ⟨[], rfl, fun e he => absurd he (List.not_mem_nil _)⟩
  | cons q qs ih =>
    intro S L
    obtain ⟨news, h1, h2⟩ := ih (xmalloc S q.1 q.2).2 (((xmalloc S q.1 q.2).1, q.1) :: L)
    refine ⟨news ++ [((xmalloc S q.1 q.2).1, q.1)], ?_, ?_⟩
    · rw [live_after_cons, h1, List.append_assoc]; rfl
    · intro e he
      rw [(alloc_all_cons S q qs).2]
      rcases List.mem_append.mp he with h | h
      · exact List.mem_cons_of_mem _ (h2 e h)
      · rw [List.mem_singleton] at h
        rw [h]; exact List.mem_cons_self _ _

/-- Releasing exactly the pointers allocated since gives back the earlier live list. -/
theorem live_cycle {S : State} {reqs L : List (Nat × Nat)} {order : List Nat}
    (hperm : order.Perm (alloc_all S reqs).1)
    (hold : ∀ p, p ∈ (alloc_all S reqs).1 → ∀ e, e ∈ L → e.1 ≠ p) :
    live_less (live_after S reqs L) order = L := by
  obtain ⟨news, h1, h2⟩ := live_after_split reqs S L
  rw [h1, live_less_filter, List.filter_append]
  have e1 : news.filter (fun e => decide (e.1 ∉ order)) = [] := by
    rw [List.filter_eq_nil_iff]
    intro e he
    have := hperm.mem_iff.mpr (h2 e he)
    simpa using this
  have e2 : L.filter (fun e => decide (e.1 ∉ order)) = L := by
    rw [List.filter_eq_self]
    intro e he
    have : e.1 ∉ order := fun hc => hold e.1 (hperm.mem_iff.mp hc) e he rfl
    simpa using this
  rw [e1, e2]; rfl

theorem mem_live_less {L : List (Nat × Nat)} {ps : List Nat} {e : Nat × Nat} (h : e ∈ L)
    (hn : e.1 ∉ ps) : e ∈ live_less L ps := by
  rw [live_less_filter]
  exact List.mem_filter.mpr ⟨h, by simpa using hn⟩

theorem live_less_append (xs ys : List Nat) : ∀ (L : List (Nat × Nat)),
    live_less L (xs ++ ys) = live_less (live_less L xs) ys := by
  induction xs with
  | nil => intro L; rfl
  | cons x xs ih => intro L; exact ih _

/-- Mapping a fresh region and unmapping it again restores the set of mapped pages. -/
theorem mapped_cycle {cs : List Call} {ret len : Nat} (hf : Fresh cs ret len) (hlen : 0 < len)
    (pg : Nat) : mapped (Call.munmap ret len :: Call.mmap len ret :: cs) pg = mapped cs pg := by
  rw [mapped, if_pos ⟨hf.2.1, hlen⟩, mapped_mmap _ _ _ hf.2.1]
  by_cases h : pagesOf ret len pg
  · rw [hf.2.2 pg h]; simp [h]
  · simp [h]

/-- Releasing the last data slot of a bucket: the bucket is unmapped and the head of its
owner for the class is cleared. -/
theorem free_last {r0 c : Nat} {S : State} {L bs : List (Nat × Nat)} (hr : Reach S L)
    (inv : InvG S L bs) (hb : (r0, c) ∈ bs) {p n i : Nat} (hl : (p, n) ∈ L)
    (hn : n + 8 ≤ 2048) (hi : i < 1024) (hp : p = r0 + sz c * i + 8)
    (hfill : read32 S.mem (r0 + 8) = divs (sz c) + 1) :
    ∃ sf, xfree S p = some sf ∧
      sf.calls = Call.munmap r0 (PAGE_SIZE * pn c) :: S.calls ∧
      sf.arenas = set_head S.arenas (read32 S.mem (r0 + 12)) c 0 ∧
      Reach sf (L.filter (fun e => decide (e.1 ≠ p))) ∧
      xfree_bucket S.mem p = r0 := by
  obtain ⟨b, k, i', st', e1, e2, e3, e4, e5, e6, e7, e8, e9, e10, e11, e12, e13, e14, e15,
    e16, e17, e18⟩ := xfree_small_effect inv hl hn
  obtain ⟨u1, u2, u3⟩ := slot_bucket_unique inv e2 hb e4 hi (by omega)
  subst u1 u2 u3
  have hpos : read32 st'.mem (b + 8) = divs (sz k) := by omega
  rw [if_pos hpos] at e15 e16
  exact ⟨st', e11, e15, e16, Reach.free p n hr hl e11, e9⟩

/-- The allocation phase of a bucket's life cycle: in a reachable state whose serving
arena has no bucket for class `c`, the requests `q0 :: qs` of class `c` (at most
`1024 - N` of them) are all served from the bucket the first request maps at `q0.2`. -/
theorem alloc_phase {st : State} {live : List (Nat × Nat)} {c : Nat} {q0 : Nat × Nat}
    {qs : List (Nat × Nat)} (hr : Reach st live) (hc : c < 8)
    (hlen : (q0 :: qs).length ≤ 1024 - divs (sz c))
    (hcls : ∀ q, q ∈ q0 :: qs → q.1 + 8 ≤ 2048 ∧ size_class (q.1 + 8) = c)
    (hhead : (st.arenas (chosen st)).bucket_head c = 0)
    (hfresh : Fresh st.calls q0.2 (PAGE_SIZE * pn c)) :
    ∃ bs bs', InvG st live bs ∧ bs' = (q0.2, c) :: bs ∧
      (alloc_all st (q0 :: qs)).2.calls = Call.mmap (PAGE_SIZE * pn c) q0.2 :: st.calls ∧
      Reach (alloc_all st (q0 :: qs)).2 (live_after st (q0 :: qs) live) ∧
      InvG (alloc_all st (q0 :: qs)).2 (live_after st (q0 :: qs) live) bs' ∧
      read32 (alloc_all st (q0 :: qs)).2.mem (q0.2 + 8) = divs (sz c) + (qs.length + 1) ∧
      read32 (alloc_all st (q0 :: qs)).2.mem (q0.2 + 12) = 0 ∧
      ((alloc_all st (q0 :: qs)).2.arenas 0).bucket_head c
        = (if divs (sz c) + (qs.length + 1) = 1024 then 0 else q0.2) ∧
      (alloc_all st (q0 :: qs)).1.Nodup ∧
      (alloc_all st (q0 :: qs)).1.length = qs.length + 1 ∧
      (∀ e, e ∈ live → e ∈ live_after st (q0 :: qs) live) ∧
      (∀ p, p ∈ (alloc_all st (q0 :: qs)).1 →
        (∃ n i, (p, n) ∈ live_after st (q0 :: qs) live ∧ n + 8 ≤ 2048 ∧ i < 1024 ∧
          p = q0.2 + sz c * i + 8) ∧ ∀ e, e ∈ live → e.1 ≠ p) := by
  obtain ⟨bs, inv⟩ := reach_inv hr
  have hidle := reach_idle hr
  have hch := chosen_idle hidle
  obtain ⟨hq1, hq2⟩ := hcls q0 (List.mem_cons_self _ _)
  have hd := divs_bounds hc
  have hlen' : (q0 :: qs).length = qs.length + 1 := rfl
  rw [hlen'] at hlen
  rw [← hq2] at hhead hfresh
  obtain ⟨b, i, bs', s1, s2, s3, s4, s5, s6, s7, s8, s9⟩ :=
    small_step inv q0.2 hq1 (fun _ => hfresh)
  rw [if_pos hhead] at s9
  obtain ⟨t1, t2, t3, t4⟩ := s9
  rw [hq2] at s2 s3 s5 s7 t2 t3 t4
  rw [hch] at s7 s8
  subst t1
  have hr1 : Reach (xmalloc st q0.1 q0.2).2 (((xmalloc st q0.1 q0.2).1, q0.1) :: live) :=
    Reach.malloc q0.1 q0.2 hr (by omega) (fun len h => by
      rw [t3] at h
      have := (Call.mmap.inj (List.cons.inj h).1).1
      rw [← this, ← hq2]; exact hfresh)
  have hhead1 : ((xmalloc st q0.1 q0.2).2.arenas 0).bucket_head c
      = (if divs (sz c) + 1 = 1024 then 0 else q0.2) := by
    rw [s7, t4]
  obtain ⟨g1, g2, g3, g4, g5, g6, g7, g8, g9, g10⟩ :=
    alloc_run qs (xmalloc st q0.1 q0.2).2 (((xmalloc st q0.1 q0.2).1, q0.1) :: live) bs' 1
      hr1 s1 s2 t4 s8 hhead1 (by omega) (fun q hq => hcls q (List.mem_cons_of_mem _ hq))
  rw [(alloc_all_cons st q0 qs).1, (alloc_all_cons st q0 qs).2, live_after_cons]
  refine ⟨bs, bs', inv, t2, by rw [g1, t3], g2, g3, by rw [g4]; omega, g5, ?_, ?_, ?_,
    fun e he => g9 e (List.mem_cons_of_mem _ he), ?_⟩
  · rw [g6]
    by_cases e : divs (sz c) + 1 + qs.length = 1024
    · rw [if_pos e, if_pos (by omega)]
    · rw [if_neg e, if_neg (by omega)]
  · refine List.nodup_cons.mpr ⟨fun hmem => ?_, g7⟩
    exact (g10 _ hmem).2 ((xmalloc st q0.1 q0.2).1, q0.1) (List.mem_cons_self _ _) rfl
  · rw [List.length_cons, g8]
  · intro p hp
    rcases List.mem_cons.mp hp with e | e
    · subst e
      exact ⟨⟨q0.1, i, g9 _ (List.mem_cons_self _ _), hq1, s4, s5⟩,
        fun e he => s6 e.1 e.2 he⟩
    · obtain ⟨h1, h2⟩ := g10 p e
      exact ⟨h1, fun e' he' => h2 e' (List.mem_cons_of_mem _ he')⟩

/-- C6: the life cycle of a bucket.  In a reachable state whose serving arena has no
bucket for class `c`, `k >= 1` single-threaded requests of class `c`, with
`k <= 1024 - N`, are served from one bucket mapped by the first of them (one `mmap` call,
every pointer the data pointer of a slot of that bucket, all distinct).  Releasing these
pointers in any order makes no system call during the first `k - 1` releases, and the
`k`-th release unmaps exactly that bucket and leaves the arena without a bucket for `c`.
After the cycle the mapped pages and the live allocations are what they were before it,
and the state is again one the statement applies to, so repeated cycles never have more
than this one bucket mapped. -/
theorem bucket_lifecycle (st : State) (live : List (Nat × Nat)) (c : Nat) (q0 : Nat × Nat)
    (qs : List (Nat × Nat)) (order : List Nat)
    (hr : Reach st live) (hc : c < 8)
    (hlen : (q0 :: qs).length ≤ 1024 - divs (sz c))
    (hcls : ∀ q, q ∈ q0 :: qs → q.1 + 8 ≤ 2048 ∧ size_class (q.1 + 8) = c)
    (hhead : (st.arenas (chosen st)).bucket_head c = 0)
    (hfresh : Fresh st.calls q0.2 (PAGE_SIZE * pn c))
    (hperm : order.Perm (alloc_all st (q0 :: qs)).1) :
    (alloc_all st (q0 :: qs)).2.calls = Call.mmap (PAGE_SIZE * pn c) q0.2 :: st.calls ∧
    (∀ p, p ∈ (alloc_all st (q0 :: qs)).1 → ∃ i, i < 1024 ∧ p = q0.2 + sz c * i + 8) ∧
    (alloc_all st (q0 :: qs)).1.Nodup ∧
    (alloc_all st (q0 :: qs)).1.length = (q0 :: qs).length ∧
    (∀ j, j < order.length →
      ∃ s, free_all (alloc_all st (q0 :: qs)).2 (order.take j) = some s ∧
        s.calls = (alloc_all st (q0 :: qs)).2.calls) ∧
    ∃ sf, free_all (alloc_all st (q0 :: qs)).2 order = some sf ∧
      sf.calls = Call.munmap q0.2 (PAGE_SIZE * pn c) :: (alloc_all st (q0 :: qs)).2.calls ∧
      (sf.arenas (chosen st)).bucket_head c = 0 ∧
      (∀ pg, mapped sf.calls pg = mapped st.calls pg) ∧
      Reach sf live ∧ (sf.arenas (chosen sf)).bucket_head c = 0 := by
  obtain ⟨bs, bs', _, hbs', hcalls, g2, g3, hfill, g5, _, hnd, hplen, _, hptr⟩ :=
    alloc_phase hr hc hlen hcls hhead hfresh
  have hch := chosen_idle (reach_idle hr)
  have hlen' : (q0 :: qs).length = qs.length + 1 := rfl
  have s2 : (q0.2, c) ∈ bs' := by
    rw [hbs']; exact List.mem_cons_self _ _
  have hond : order.Nodup := hperm.nodup_iff.mpr hnd
  have holen : order.length = qs.length + 1 := by rw [hperm.length_eq, hplen]
  have hcyc : live_less (live_after st (q0 :: qs) live) order = live :=
    live_cycle hperm (fun p hp => (hptr p hp).2)
  generalize (alloc_all st (q0 :: qs)).2 = S at *
  generalize live_after st (q0 :: qs) live = L at *
  have hmem : ∀ (ps : List Nat), (∀ p, p ∈ ps → p ∈ order) → ∀ p, p ∈ ps →
      ∃ n i, (p, n) ∈ L ∧ n + 8 ≤ 2048 ∧ i < 1024 ∧ p = q0.2 + sz c * i + 8 :=
    fun ps hsub p hp => (hptr p (hperm.mem_iff.mp (hsub p hp))).1
  refine ⟨hcalls, fun p hp => ?_, hnd, by rw [hplen, hlen'], fun j hj => ?_, ?_⟩
  · obtain ⟨⟨n, i, _, _, h3, h4⟩, _⟩ := hptr p hp
    exact ⟨i, h3, h4⟩
  · obtain ⟨S', f1, f2, _⟩ := free_run (order.take j) S L bs' (qs.length + 1 - j) g2 g3 s2
      (hond.sublist (List.take_sublist _ _))
      (hmem _ (fun p hp => List.mem_of_mem_take hp))
      (by rw [List.length_take, hfill]; omega) (by omega)
    exact ⟨S', f1, f2⟩
  · rcases List.eq_nil_or_concat order with h | ⟨init, last, h⟩
    · rw [h] at holen; simp at holen
    · rw [List.concat_eq_append] at h
      subst h
      obtain ⟨hind, _, hdis⟩ := List.nodup_append.mp hond
      have hlast : last ∉ init := fun hc => hdis hc (List.mem_singleton_self _)
      have hilen : init.length = qs.length := by
        rw [List.length_append] at holen
        simpa using holen
      obtain ⟨S1, f1, f2, f3, f4, f5, f6, f7⟩ := free_run init S L bs' 1 g2 g3 s2 hind
        (hmem _ (fun p hp => List.mem_append_left _ hp))
        (by rw [hfill, hilen]; omega) (by omega)
      obtain ⟨n, i', hl, hn, hi, hp⟩ :=
        hmem [last] (fun p hp => List.mem_append_right _ hp) last (List.mem_singleton_self _)
      have hl' := mem_live_less hl hlast
      obtain ⟨sf, x1, x2, x3, x4, _⟩ := free_last f6 f7 s2 hl' hn hi hp f4
      have hx4 : Reach sf live := by
        have : live_less L (init ++ [last])
            = (live_less L init).filter (fun e => decide (e.1 ≠ last)) := by
          rw [live_less_append]; rfl
        rw [← this, hcyc] at x4
        exact x4
      have hhd : (sf.arenas 0).bucket_head c = 0 := by
        rw [x3, f5, g5, set_head_head, if_pos ⟨rfl, rfl⟩]
      have hpn : 0 < PAGE_SIZE * pn c := by
        have := pages_eq hc
        have := sz_pos hc
        omega
      refine ⟨sf, ?_, by rw [x2, f2], by rw [hch]; exact hhd, fun pg => ?_, hx4, ?_⟩
      · rw [free_all_append, f1]
        show (xfree S1 last).bind _ = _
        rw [x1]; rfl
      · rw [x2, f2, hcalls]
        exact mapped_cycle hfresh hpn pg
      · rw [chosen_idle (reach_idle hx4)]; exact hhd

/-- Witness for C6: two requests of 10 bytes at program start, released in reverse
order. -/
theorem bucket_lifecycle_witness :
    (alloc_all (initial (fun _ => 0)) [(10, 4096), (10, 0)]).2.calls
      = Call.mmap (PAGE_SIZE * pn 1) 4096 :: (initial (fun _ => 0)).calls ∧
    (∀ p, p ∈ (alloc_all (initial (fun _ => 0)) [(10, 4096), (10, 0)]).1 →
      ∃ i, i < 1024 ∧ p = 4096 + sz 1 * i + 8) ∧
    (alloc_all (initial (fun _ => 0)) [(10, 4096), (10, 0)]).1.Nodup ∧
    (alloc_all (initial (fun _ => 0)) [(10, 4096), (10, 0)]).1.length
      = [(10, 4096), (10, 0)].length ∧
    (∀ j, j < (alloc_all (initial (fun _ => 0)) [(10, 4096), (10, 0)]).1.reverse.length →
      ∃ s, free_all (alloc_all (initial (fun _ => 0)) [(10, 4096), (10, 0)]).2
          ((alloc_all (initial (fun _ => 0)) [(10, 4096), (10, 0)]).1.reverse.take j) = some s ∧
        s.calls = (alloc_all (initial (fun _ => 0)) [(10, 4096), (10, 0)]).2.calls) ∧
    ∃ sf, free_all (alloc_all (initial (fun _ => 0)) [(10, 4096), (10, 0)]).2
        (alloc_all (initial (fun _ => 0)) [(10, 4096), (10, 0)]).1.reverse = some sf ∧
      sf.calls = Call.munmap 4096 (PAGE_SIZE * pn 1)
        :: (alloc_all (initial (fun _ => 0)) [(10, 4096), (10, 0)]).2.calls ∧
      (sf.arenas (chosen (initial (fun _ => 0)))).bucket_head 1 = 0 ∧
      (∀ pg, mapped sf.calls pg = mapped (initial (fun _ => 0)).calls pg) ∧
      Reach sf [] ∧ (sf.arenas (chosen sf)).bucket_head 1 = 0 :=
  bucket_lifecycle (initial (fun _ => 0)) [] 1 (10, 4096) [(10, 0)]
    (alloc_all (initial (fun _ => 0)) [(10, 4096), (10, 0)]).1.reverse
    (Reach.start _) (by decide) (by decide)
    (fun q hq => by
      rcases List.mem_cons.mp hq with e | e
      · subst e; exact ⟨by decide, by decide⟩
      · rw [List.mem_singleton] at e
        subst e; exact ⟨by decide, by decide⟩)
    rfl ⟨by decide, by decide, fun _ _ => rfl⟩ (List.reverse_perm _)

/-! ## What a small `xmalloc` leaves untouched -/

theorem get_block_frame {st : State} {live bs : List (Nat × Nat)} (inv : InvG st live bs)
    {a k b : Nat} (ha : a < 8) (hk : k < 8) (hb : (st.arenas a).bucket_head k = b)
    (hh : b ≠ 0) :
    ∀ x, (x < b ∨ b + 1024 * sz k ≤ x) → (get_block st b k a).2.mem x = st.mem x := by
  subst hb
  obtain ⟨hbs, _, hfl⟩ := inv.heads a k ha hk hh
  obtain ⟨_, _, _, wf⟩ := inv.buckets _ k hbs
  obtain ⟨hi1, hi2, _⟩ := scan_free wf hfl
  obtain ⟨t1, _⟩ :=
    take_slot st.mem (b := (st.arenas a).bucket_head k) (f := read32 st.mem
      ((st.arenas a).bucket_head k + 8)) hi2 (slot_above_meta hk hi1)
      (slot_bounds k hi2) (sz_pos hk).1 hfl (sz_pos hk).2
  intro x hx
  rw [get_block_eq a hk wf hfl]
  exact t1 x hx

theorem bucket_bytes_apart {st : State} {live bs : List (Nat × Nat)} (inv : InvG st live bs)
    {b k b' k' : Nat} (h : (b, k) ∈ bs) (h' : (b', k') ∈ bs) (hne : b' ≠ b) :
    ∀ x, b' ≤ x → x < b' + 1024 * sz k' → (x < b ∨ b + 1024 * sz k ≤ x) := by
  intro x h1 h2
  have e1 := pages_eq (inv.buckets b k h).1
  have e2 := pages_eq (inv.buckets b' k' h').1
  rcases inv.regs_disj _ _ (bucket_region live h') (bucket_region live h) with e | e
  · exact absurd (Prod.mk.inj e).1 hne
  · by_contra hc
    exact bytes_apart e (a := x) (by simp only; omega) (by simp only; omega)
      (by simp only; omega) (by simp only; omega)

/-- A small `xmalloc` does not touch the metadata of the tracked buckets other than the
one it serves the request from. -/
theorem small_step_frame {st : State} {live bs : List (Nat × Nat)} (inv : InvG st live bs)
    {n ret : Nat} (hsm : n + 8 ≤ 2048)
    (hf : (st.arenas (chosen st)).bucket_head (size_class (n + 8)) = 0 →
      Fresh st.calls ret (PAGE_SIZE * pn (size_class (n + 8)))) :
    ∀ b' k', (b', k') ∈ bs →
      b' ≠ (st.arenas (chosen st)).bucket_head (size_class (n + 8)) →
      ∀ x, b' ≤ x → x < b' + 1040 → (xmalloc st n ret).2.mem x = st.mem x := by
  intro b' k' hb' hne x hx1 hx2
  have hk := (size_class_spec (n + 8) hsm).1
  have ha := chosen_lt st
  have inv1 := entered_inv inv
  have hk' := (inv.buckets b' k' hb').1
  have hs' := sz_pos hk'
  rw [(xmalloc_small_ptr st n ret hsm).2]
  generalize size_class (n + 8) = k at hk hf hne ⊢
  generalize chosen st = a at ha hf hne ⊢
  have hhd : ((entered st).arenas a).bucket_head k = (st.arenas a).bucket_head k := by
    rw [entered_head]
  by_cases hh : (st.arenas a).bucket_head k = 0
  · have hh' : ((entered st).arenas a).bucket_head k = 0 := by rw [hhd]; exact hh
    have hfr : Fresh (entered st).calls ret (PAGE_SIZE * pn k) := by
      rw [entered_calls]; exact hf hh
    have inv2 := with_bucket_new_inv inv1 (entered_init st) ha hk hh' hfr
    have hhead := with_bucket_head_new ret hh'
    have hne2 : b' ≠ ret := by
      intro e
      have h1 := fresh_disj inv1 hfr (bucket_region live hb')
      have h2 := pages_eq hk'
      have h3 := pages_eq hk
      have h4 := sz_pos hk
      exact bytes_apart h1 (a := b') (by simp only; omega) (by simp only; omega)
        (by simp only; omega) (by simp only; omega)
    have hW : (with_bucket (entered st) a k ret).mem x = st.mem x := by
      rw [with_bucket_new ret hh']
      dsimp only
      have hid : ((entered st).arenas a).id < 8 := by
        rw [inv1.ids (entered_init st) a ha]; exact ha
      have hm := agree_fresh inv1 (page_setup (entered st) k a ret).2.mem hfr
        (fun y hy => (page_setup_spec (entered st) ret hk hid).1 y (by
          have := pages_eq hk
          have := sz_pos hk
          omega))
      have h2 := pages_eq hk'
      rw [hm _ (bucket_region live hb') x hx1 (by simp only; omega), entered_mem]
    rw [hhead, get_block_frame inv2 ha hk hhead hfr.1 x
      (bucket_bytes_apart inv2 (List.mem_cons_self _ _) (List.mem_cons_of_mem _ hb') hne2 x hx1
        (by omega)), hW]
  · have hh' : ((entered st).arenas a).bucket_head k ≠ 0 := by rw [hhd]; exact hh
    rw [with_bucket_old ret hh', hhd]
    have hbs := (inv1.heads a k ha hk hh').1
    rw [hhd] at hbs
    rw [get_block_frame inv1 ha hk hhd hh x
      (bucket_bytes_apart inv1 hbs hb' hne x hx1 (by omega)), entered_mem]

/-! ## An emptied bucket and the head of its arena -/

/-- C10 (failing input): arena 0 fills the bucket `B` at 4096 of the 2048-byte class
(1023 requests of 2040 bytes; `B` is detached when full), serves one more request from a
new bucket `B'` at `2^30`, which becomes `bucket_head[7]`, and then all but the first
pointer of `B` are released.  In the state `s` reached, `bucket_head[7]` of arena 0 is
`B'`, a bucket other than the bucket `B` of the remaining pointer `p`.  Releasing `p`
empties `B`, and `bucket_head[7]` is cleared although it referred to `B'`. -/
theorem xfree_detaches_other_bucket :
    ∃ s p, free_all (xmalloc (alloc_all (initial (fun _ => 0)) fill_requests).2 2040 (2 ^ 30)).2
        (alloc_all (initial (fun _ => 0)) fill_requests).1.tail = some s ∧
      (alloc_all (initial (fun _ => 0)) fill_requests).1.head? = some p ∧
      (∃ live n, Reach s live ∧ (p, n) ∈ live) ∧
      (s.arenas 0).bucket_head 7 = 2 ^ 30 ∧
      xfree_bucket s.mem p = 4096 ∧
      read32 s.mem (4096 + 12) = 0 ∧
      ∃ s', xfree s p = some s' ∧ (s'.arenas 0).bucket_head 7 = 0 ∧
        s'.calls = Call.munmap 4096 (PAGE_SIZE * pn 7) :: s.calls := by
  have hd7 : divs (sz 7) = 1 := by decide
  have hpn : PAGE_SIZE * pn 7 = 2097152 := by decide
  have e7 : size_class (2040 + 8) = 7 := by decide
  have hreq : fill_requests = (2040, 4096) :: List.replicate 1022 (2040, 4096) := rfl
  rw [hreq]
  have hcls : ∀ q, q ∈ (2040, 4096) :: List.replicate 1022 (2040, 4096) →
      q.1 + 8 ≤ 2048 ∧ size_class (q.1 + 8) = 7 := by
    intro q hq
    have : q = (2040, 4096) := by
      rcases List.mem_cons.mp hq with e | e
      · exact e
      · exact List.eq_of_mem_replicate e
    subst this
    exact ⟨by decide, by decide⟩
  have hlen : ((2040, 4096) :: List.replicate 1022 (2040, 4096)).length
      ≤ 1024 - divs (sz 7) := by
    rw [hd7, List.length_cons, List.length_replicate]
  obtain ⟨bs, bs', _, hbs', hcalls, g2, g3, hfill, g5, ghead, hnd, hplen, _, hptr⟩ :=
    alloc_phase (Reach.start (fun _ => 0)) (by decide) hlen hcls rfl
      ⟨by decide, by decide, fun _ _ => rfl⟩
  dsimp only at hbs' hcalls hfill g5 hptr
  have hb1 : ((4096 : Nat), 7) ∈ bs' := by rw [hbs']; exact List.mem_cons_self _ _
  rw [List.length_replicate, hd7] at hfill ghead
  rw [List.length_replicate] at hplen
  rw [if_pos (by decide)] at ghead
  have hcalls' : (alloc_all (initial (fun _ => 0))
      ((2040, 4096) :: List.replicate 1022 (2040, 4096))).2.calls
        = [Call.mmap (PAGE_SIZE * pn 7) 4096] := hcalls
  have hch1 := chosen_idle (reach_idle g2)
  rw [(alloc_all_cons (initial (fun _ => 0)) (2040, 4096)
    (List.replicate 1022 (2040, 4096))).2] at hnd hplen hptr ⊢
  generalize (xmalloc (initial (fun _ => 0)) (2040, 4096).1 (2040, 4096).2).1 = p1
    at hnd hplen hptr ⊢
  generalize (alloc_all (xmalloc (initial (fun _ => 0)) (2040, 4096).1 (2040, 4096).2).2
    (List.replicate 1022 (2040, 4096))).1 = rest at hnd hplen hptr ⊢
  generalize live_after (initial (fun _ => 0))
    ((2040, 4096) :: List.replicate 1022 (2040, 4096)) [] = L1 at g2 g3 hptr
  generalize (alloc_all (initial (fun _ => 0))
    ((2040, 4096) :: List.replicate 1022 (2040, 4096))).2 = S1
    at g2 g3 hfill g5 ghead hcalls' hch1 ⊢
  -- the request served from the second bucket
  have hfr2 : Fresh S1.calls (2 ^ 30) (PAGE_SIZE * pn (size_class (2040 + 8))) := by
    refine ⟨by decide, by decide, fun pg hp => ?_⟩
    rw [hcalls', mapped_mmap _ _ _ (by decide)]
    rw [e7, hpn] at hp
    unfold pagesOf at hp
    have : ¬ pagesOf 4096 (PAGE_SIZE * pn 7) pg := by
      rw [hpn]; unfold pagesOf; omega
    simp [this, mapped]
  obtain ⟨b, i, bs2, s1, s2, s3, s4, s5, s6, s7, s8, s9⟩ :=
    small_step (n := 2040) g3 (2 ^ 30) (by decide) (fun _ => hfr2)
  have hframe := small_step_frame (n := 2040) g3 (by decide) (fun _ => hfr2) 4096 7 hb1
    (by rw [hch1, e7, ghead]; decide)
  rw [hch1, e7] at s7 s9
  rw [e7] at s2 hfr2
  rw [if_pos ghead] at s9
  obtain ⟨t1, t2, t3, t4⟩ := s9
  subst t1
  have hr2 : Reach (xmalloc S1 2040 (2 ^ 30)).2 (((xmalloc S1 2040 (2 ^ 30)).1, 2040) :: L1) :=
    Reach.malloc 2040 (2 ^ 30) g2 (by decide) (fun len h => by
      rw [t3] at h
      have := (Call.mmap.inj (List.cons.inj h).1).1
      rw [← this]; exact hfr2)
  generalize (xmalloc S1 2040 (2 ^ 30)).1 = p2 at hr2 s1 s5 s6
  generalize (xmalloc S1 2040 (2 ^ 30)).2 = S2 at hr2 s1 s7 s8 t3 t4 hframe ⊢
  have hfill2 : read32 S2.mem (4096 + 8) = 1024 := by
    rw [read32_congr _ (fun x h1 h2 => hframe x (by omega) (by omega)), hfill]
  have hown2 : read32 S2.mem (4096 + 12) = 0 := by
    rw [read32_congr _ (fun x h1 h2 => hframe x (by omega) (by omega)), g5]
  have hhead2 : (S2.arenas 0).bucket_head 7 = 2 ^ 30 := by
    rw [s7, t4, hd7, if_neg (by decide)]
  have hb2 : ((4096 : Nat), 7) ∈ bs2 := by rw [t2]; exact List.mem_cons_of_mem _ hb1
  -- the pointers of the first bucket
  have hmem2 : ∀ p, p ∈ p1 :: rest →
      ∃ n i, (p, n) ∈ (p2, 2040) :: L1 ∧ n + 8 ≤ 2048 ∧ i < 1024 ∧ p = 4096 + sz 7 * i + 8 := by
    intro p hp
    obtain ⟨⟨n, i, h1, h2, h3, h4⟩, _⟩ := hptr p hp
    exact ⟨n, i, List.mem_cons_of_mem _ h1, h2, h3, h4⟩
  have hrlen : rest.length = 1022 := by
    rw [List.length_cons] at hplen
    omega
  obtain ⟨S3, f1, f2, f3, f4, f5, f6, f7⟩ :=
    free_run rest S2 ((p2, 2040) :: L1) bs2 1 hr2 s1 hb2
      (List.nodup_cons.mp hnd).2 (fun p hp => hmem2 p (List.mem_cons_of_mem _ hp))
      (by rw [hfill2, hd7, hrlen]) (by omega)
  -- the last pointer of the first bucket
  obtain ⟨n, i', hl, hn, hi, hp⟩ := hmem2 p1 (List.mem_cons_self _ _)
  have hl' := mem_live_less hl (List.nodup_cons.mp hnd).1
  obtain ⟨sf, x1, x2, x3, x4, x5⟩ := free_last f6 f7 hb2 hl' hn hi hp (by rw [f4, hd7])
  refine ⟨S3, p1, f1, rfl, ⟨_, n, f6, hl'⟩, by rw [f3]; exact hhead2, x5,
    by rw [f5]; exact hown2, sf, x1, ?_, x2⟩
  rw [x3, f5, hown2, set_head_head, if_pos ⟨rfl, rfl⟩]

/-! ## Reallocation -/

theorem memcpy_other (m : Mem) (dst src : Nat) (n x : Nat) (h : x < dst ∨ dst + n ≤ x) :
    memcpy m dst src n x = m x := by
  induction n with
  | zero => rfl
  | succ n ih =>
    show write8 (memcpy m dst src n) (dst + n) (read8 m (src + n)) x = m x
    rw [write8_other _ _ _ _ (by omega)]
    exact ih (by omega)

theorem memcpy_read (m : Mem) (dst src : Nat) (n i : Nat) (h : i < n) :
    read8 (memcpy m dst src n) (dst + i) = read8 m (src + i) := by
  induction n with
  | zero => omega
  | succ n ih =>
    show read8 (write8 (memcpy m dst src n) (dst + n) (read8 m (src + n))) (dst + i) = _
    by_cases hi : i = n
    · subst hi
      rw [read8_write8, if_pos rfl]
      exact Nat.mod_eq_of_lt (read8_lt _ _)
    · rw [read8_write8, if_neg (by omega)]
      exact ih (by omega)

/-- What `xrealloc` does when both the old and the new allocation are large: the new
region receives the two header words, then `nn` bytes are copied from `prev`, whatever the
size of the old allocation, and the old pointer is passed to `xfree`. -/
theorem xrealloc_large (st : State) {r n : Nat} (nn ret : Nat)
    (q3 : read64 st.mem r = n + 16) (q4 : read64 st.mem (r + 8) = 8) (hbig : 2048 < n + 8)
    (hnn : 2048 < nn + 8) (hn2 : nn + 16 < 2 ^ 64) (hsep : r + 16 + nn ≤ ret) :
    ∃ s, xrealloc st (r + 16) nn ret = some (ret + 16, s) ∧
      ∀ i, i < nn → read8 s.mem (ret + 16 + i) = read8 st.mem (r + 16 + i) := by
  have hmod : (nn + 8) % 2 ^ 64 = nn + 8 := Nat.mod_eq_of_lt (by omega)
  have hx := xmalloc_large_eq st nn ret (by rw [hmod]; omega)
  have hlen : ((nn + 8) % 2 ^ 64 + 8) % 2 ^ 64 = nn + 16 := by
    rw [hmod]; exact Nat.mod_eq_of_lt (by omega)
  rw [hlen] at hx
  have hold : ∀ x, x < ret → write64 (write64 st.mem ret (nn + 16)) (ret + 8) 8 x = st.mem x := by
    intro x hx1
    rw [write64_other _ _ _ _ (by omega), write64_other _ _ _ _ (by omega)]
  have hcp : ∀ x, x < ret →
      memcpy (write64 (write64 st.mem ret (nn + 16)) (ret + 8) 8) (ret + 16) (r + 16) nn x
        = st.mem x := by
    intro x hx1
    rw [memcpy_other _ _ _ _ _ (by omega)]
    exact hold x hx1
  unfold xrealloc
  rw [hx]
  dsimp only
  rw [xfree_large_raw (n := n) ?_ ?_ hbig]
  · refine ⟨_, rfl, fun i hi => ?_⟩
    show read8 (memcpy _ (ret + 16) (r + 16) nn) (ret + 16 + i) = _
    rw [memcpy_read _ _ _ _ _ hi]
    exact read8_congr _ (hold _ (by omega))
  · exact (read64_congr _ (fun x h1 h2 => hcp x (by omega))).trans q3
  · exact (read64_congr _ (fun x h1 h2 => hcp x (by omega))).trans q4

/-- The memory after a large `xmalloc`: the old memory with the two header words. -/
theorem xmalloc_large_mem (st : State) (n ret : Nat) (h1 : 2041 ≤ n) (h2 : n + 16 < 2 ^ 64) :
    (xmalloc st n ret).1 = ret + 16 ∧
    (xmalloc st n ret).2.calls = Call.mmap (n + 16) ret :: st.calls ∧
    (xmalloc st n ret).2.mem = write64 (write64 st.mem ret (n + 16)) (ret + 8) 8 := by
  have hmod : (n + 8) % 2 ^ 64 = n + 8 := Nat.mod_eq_of_lt (by omega)
  have hx := xmalloc_large_eq st n ret (by rw [hmod]; omega)
  have hlen : ((n + 8) % 2 ^ 64 + 8) % 2 ^ 64 = n + 16 := by
    rw [hmod]; exact Nat.mod_eq_of_lt (by omega)
  rw [hlen] at hx
  rw [hx]
  exact ⟨rfl, rfl, rfl⟩

theorem large_header (m : Mem) (ret v : Nat) (hv : v < 2 ^ 64) :
    read64 (write64 (write64 m ret v) (ret + 8) 8) ret = v ∧
    read64 (write64 (write64 m ret v) (ret + 8) 8) (ret + 8) = 8 ∧
    ∀ x, (x < ret ∨ ret + 16 ≤ x) → write64 (write64 m ret v) (ret + 8) 8 x = m x := by
  refine ⟨?_, ?_, fun x hx => ?_⟩
  · rw [read64_congr (m := write64 m ret v) _
      (fun x h1 h2 => write64_other _ _ _ _ (by omega)), read64_write64]
    exact Nat.mod_eq_of_lt hv
  · rw [read64_write64]; norm_num
  · rw [write64_other _ _ _ _ (by omega), write64_other _ _ _ _ (by omega)]

/-- C11 (failing input): `p = xmalloc(3000)` at program start, with the region of 3016
bytes mapped at 4096 (it lies on the page of addresses 4096..8191), then
`xrealloc(p, 5000)` with the new region mapped at 1048576.  The usable size of `p` is 3000 bytes, so at most 3000 bytes may be copied.  The
code copies all 5000: byte 3000 of the new block is the byte at address `p + 3000`, the
first one past the old allocation, byte 4080 is the byte at address 8192, which lies on a
page that is not mapped, and byte 4999 is the byte at `p + 4999`. -/
theorem xrealloc_copies_past_end (m0 : Mem) :
    (xmalloc (initial m0) 3000 4096).1 = 4096 + 16 ∧
    (xmalloc (initial m0) 3000 4096).2.calls = [Call.mmap 3016 4096] ∧
    mapped [Call.mmap 3016 4096] (8192 / 4096) = false ∧
    ∃ s, xrealloc (xmalloc (initial m0) 3000 4096).2 (4096 + 16) 5000 1048576
        = some (1048576 + 16, s) ∧
      read8 s.mem (1048576 + 16 + 3000) = read8 m0 (4096 + 16 + 3000) ∧
      read8 s.mem (1048576 + 16 + 4080) = read8 m0 8192 ∧
      read8 s.mem (1048576 + 16 + 4999) = read8 m0 (4096 + 16 + 4999) := by
  obtain ⟨e1, e2, e3⟩ := xmalloc_large_mem (initial m0) 3000 4096 (by decide) (by decide)
  obtain ⟨g1, g2, g3⟩ := large_header m0 4096 (3000 + 16) (by decide)
  have e3' : (xmalloc (initial m0) 3000 4096).2.mem
      = write64 (write64 m0 4096 (3000 + 16)) (4096 + 8) 8 := e3
  obtain ⟨s, x1, x2⟩ := xrealloc_large (xmalloc (initial m0) 3000 4096).2
    (r := 4096) (n := 3000) 5000 1048576 (by rw [e3']; exact g1) (by rw [e3']; exact g2)
    (by decide) (by decide) (by decide) (by decide)
  refine ⟨e1, e2, by decide, s, x1, ?_, ?_, ?_⟩
  · rw [x2 3000 (by decide)]
    exact read8_congr _ (by rw [e3']; exact g3 _ (by omega))
  · rw [x2 4080 (by decide)]
    exact read8_congr _ (by rw [e3']; exact g3 _ (by omega))
  · rw [x2 4999 (by decide)]
    exact read8_congr _ (by rw [e3']; exact g3 _ (by omega))

/-! ## One `get_block`, without the invariant -/

/-- Everything `get_block` does on a consistent bucket that is not full: it takes the
least free slot `i`. -/
theorem get_block_raw {st : State} {b k : Nat} (a : Nat) (hk : k < 8)
    (wf : BucketWF st.mem b k) (hfill : read32 st.mem (b + 8) < 1024) :
    ∃ i, divs (sz k) ≤ i ∧ i < 1024 ∧ bitmap st.mem b i = 0 ∧
      (∀ j, j < i → bitmap st.mem b j ≠ 0) ∧
      (get_block st b k a).1 = b + sz k * i ∧
      bitmap (get_block st b k a).2.mem b i = 1 ∧
      (∀ j, j < 1024 → j ≠ i → bitmap (get_block st b k a).2.mem b j = bitmap st.mem b j) ∧
      read32 (get_block st b k a).2.mem (b + 8) = read32 st.mem (b + 8) + 1 ∧
      read32 (get_block st b k a).2.mem (b + 12) = read32 st.mem (b + 12) ∧
      read64 (get_block st b k a).2.mem b = sz k ∧
      read64 (get_block st b k a).2.mem (b + sz k * i) = sz k * i ∧
      (get_block st b k a).2.arenas
        = (if read32 st.mem (b + 8) + 1 = 1024 then set_head st.arenas a k 0 else st.arenas) ∧
      (∀ x, (x < b ∨ b + 1024 * sz k ≤ x) → (get_block st b k a).2.mem x = st.mem x) := by
  obtain ⟨hi1, hi2, hi3⟩ := scan_free wf hfill
  obtain ⟨_, _, hsc, _⟩ := scan_spec st.mem b 1024 0
  obtain ⟨t1, t2, t3, t4, t5, t6, t7, _⟩ :=
    take_slot st.mem (b := b) (f := read32 st.mem (b + 8)) hi2 (slot_above_meta hk hi1)
      (slot_bounds k hi2) (sz_pos hk).1 hfill (sz_pos hk).2
  refine ⟨scan st.mem b 1024 0, hi1, hi2, hi3, fun j hj => hsc j (Nat.zero_le _) hj,
    ?_, ?_, ?_, ?_, ?_, ?_, ?_, ?_, ?_⟩
  · rw [get_block_eq a hk wf hfill]
  · rw [get_block_eq a hk wf hfill]; dsimp only; exact t3
  · rw [get_block_eq a hk wf hfill]; dsimp only; exact t2
  · rw [get_block_eq a hk wf hfill]; dsimp only; exact t4
  · rw [get_block_eq a hk wf hfill]; dsimp only; exact t5
  · rw [get_block_eq a hk wf hfill]; dsimp only; rw [t6]; exact wf.size_eq
  · rw [get_block_eq a hk wf hfill]; dsimp only; exact t7
  · rw [get_block_eq a hk wf hfill]
  · rw [get_block_eq a hk wf hfill]; dsimp only; exact t1

/-- A small `xmalloc` whose arena has no bucket for the class: the region `mmap` returns is
set up as a bucket and its first free slot, number `N`, is handed out.  Nothing is assumed
of the address `ret`. -/
theorem xmalloc_small_new_raw (st : State) {n : Nat} (ret : Nat) (hsm : n + 8 ≤ 2048)
    (hh : (st.arenas (chosen st)).bucket_head (size_class (n + 8)) = 0)
    (hid : ((entered st).arenas (chosen st)).id < 8) :
    (xmalloc st n ret).1
      = ret + sz (size_class (n + 8)) * divs (sz (size_class (n + 8))) + 8 ∧
    read64 (xmalloc st n ret).2.mem ret = sz (size_class (n + 8)) ∧
    read32 (xmalloc st n ret).2.mem (ret + 12) = ((entered st).arenas (chosen st)).id ∧
    read32 (xmalloc st n ret).2.mem (ret + 8) = divs (sz (size_class (n + 8))) + 1 ∧
    (∀ j, j < 1024 → bitmap (xmalloc st n ret).2.mem ret j
      = if j < divs (sz (size_class (n + 8))) + 1 then 1 else 0) ∧
    read64 (xmalloc st n ret).2.mem
        (ret + sz (size_class (n + 8)) * divs (sz (size_class (n + 8))))
      = sz (size_class (n + 8)) * divs (sz (size_class (n + 8))) ∧
    (∀ x, (x < ret ∨ ret + 1024 * sz (size_class (n + 8)) ≤ x) →
      (xmalloc st n ret).2.mem x = st.mem x) := by
  obtain ⟨hp, hm⟩ := xmalloc_small_ptr st n ret hsm
  have hk := (size_class_spec (n + 8) hsm).1
  generalize size_class (n + 8) = k at hp hm hk hh ⊢
  generalize hadef : chosen st = a at hp hm hh hid ⊢
  have hh' : ((entered st).arenas a).bucket_head k = 0 := by rw [entered_head]; exact hh
  have hhead := with_bucket_head_new ret hh'
  obtain ⟨p1, p2, p3, p4, p5⟩ := page_setup_spec (entered st) ret hk hid
  have wf0 := page_setup_wf (entered st) ret hk hid
  have hmem : (with_bucket (entered st) a k ret).mem = (page_setup (entered st) k a ret).2.mem := by
    rw [with_bucket_new ret hh']
  rw [hhead] at hp hm
  generalize with_bucket (entered st) a k ret = W at hp hm hmem
  rw [← hmem] at p1 p2 p3 p4 p5 wf0
  obtain ⟨i, g1, g2, g3, g4, g5, g6, g7, g8, g9, g10, g11, _, g13⟩ :=
    get_block_raw a hk wf0 (by rw [p4]; have := (divs_bounds hk).2.1; omega)
  have hd := divs_bounds hk
  have hi : i = divs (sz k) := by
    by_contra hne
    have hlt : divs (sz k) < i := by omega
    have := g4 _ hlt
    rw [p5 _ (by omega), if_neg (by omega)] at this
    exact this rfl
  subst hi
  rw [hp, hm]
  refine ⟨by rw [g5], g10, by rw [g9, p3], by rw [g8, p4], fun j hj => ?_, g11, fun x hx => ?_⟩
  · by_cases hj2 : j = divs (sz k)
    · subst hj2; rw [g6, if_pos (by omega)]
    · rw [g7 j hj hj2, p5 j hj]
      by_cases hj3 : j < divs (sz k)
      · rw [if_pos hj3, if_pos (by omega)]
      · rw [if_neg hj3, if_neg (by omega)]
  · rw [g13 x hx, p1 x (by have := (sz_pos hk).1; omega), entered_mem]

/-- C12 (failing input): the page provider fails, so `mmap` returns `MAP_FAILED`.
Large path, `xmalloc(3000)` at program start: the result is `MAP_FAILED + 16`, which is
not null (15 as a 64-bit pointer), and the size 3016 has been stored at `MAP_FAILED`.
Small path, `xmalloc(10)` at program start: `page_setup` has stored the class size 32 at
`MAP_FAILED`, the fill counter and the bitmap follow it, slot 33 has been taken, and the
result is `MAP_FAILED + 32 * 33 + 8`, not null either (1063 as a 64-bit pointer). -/
theorem xmalloc_ignores_mmap_failure (m0 : Mem) :
    (xmalloc (initial m0) 3000 MAP_FAILED).2.calls = [Call.mmap 3016 MAP_FAILED] ∧
    (xmalloc (initial m0) 3000 MAP_FAILED).1 = MAP_FAILED + 16 ∧
    (xmalloc (initial m0) 3000 MAP_FAILED).1 % 2 ^ 64 = 15 ∧
    read64 (xmalloc (initial m0) 3000 MAP_FAILED).2.mem MAP_FAILED = 3016 ∧
    (xmalloc (initial m0) 10 MAP_FAILED).2.calls = [Call.mmap 32768 MAP_FAILED] ∧
    (xmalloc (initial m0) 10 MAP_FAILED).1 = MAP_FAILED + 32 * 33 + 8 ∧
    (xmalloc (initial m0) 10 MAP_FAILED).1 % 2 ^ 64 = 1063 ∧
    read64 (xmalloc (initial m0) 10 MAP_FAILED).2.mem MAP_FAILED = 32 ∧
    read32 (xmalloc (initial m0) 10 MAP_FAILED).2.mem (MAP_FAILED + 8) = 34 ∧
    bitmap (xmalloc (initial m0) 10 MAP_FAILED).2.mem MAP_FAILED 33 = 1 := by
  obtain ⟨e1, e2, e3⟩ := xmalloc_large_mem (initial m0) 3000 MAP_FAILED (by decide) (by decide)
  obtain ⟨g1, _, _⟩ := large_header m0 MAP_FAILED (3000 + 16) (by decide)
  have hidle : Idle (initial m0) := fun a _ => rfl
  have hc : chosen (initial m0) = 0 := chosen_idle hidle
  have hid : ((entered (initial m0)).arenas (chosen (initial m0))).id < 8 := by
    rw [hc, entered_id (initial m0) (fun h => absurd rfl h) (by decide)]; decide
  obtain ⟨s1, s2, _, s4, s5, _, _⟩ :=
    xmalloc_small_new_raw (initial m0) (n := 10) MAP_FAILED (by decide) rfl hid
  have hk : size_class (10 + 8) = 1 := by decide
  have hs : sz 1 = 32 := by decide
  have hd : divs 32 = 33 := by decide
  rw [hk, hs] at s1 s2 s4 s5
  rw [hd] at s1 s4 s5
  refine ⟨e2, e1, by rw [e1]; decide, ?_, ?_, s1, by rw [s1]; decide, s2, s4, ?_⟩
  · rw [e3]; exact g1
  · rw [xmalloc_small_calls _ _ _ (by decide)]
    rw [with_bucket_calls_new MAP_FAILED (by rw [entered_head]; rfl), entered_calls]
    rfl
  · rw [s5 33 (by decide)]; rfl

/-! ## The arena selector -/

theorem choose_arena_loop_least (ars : Nat → Arena) (a : Nat) :
    ∀ fuel ii, ii ≤ a → a < ii + fuel → (ars a).in_use = 0 →
      (∀ j, ii ≤ j → j < a → (ars j).in_use ≠ 0) →
      choose_arena_loop ars fuel ii = (a, set_in_use ars a 1) := by
  intro fuel
  induction fuel with
  | zero => intro ii h1 h2; omega
  | succ fuel ih =>
    intro ii h1 h2 h3 h4
    by_cases e : ii = a
    · subst e
      rw [choose_arena_loop, if_pos h3]
    · rw [choose_arena_loop, if_neg (h4 ii (Nat.le_refl _) (by omega))]
      exact ih (ii + 1) (by omega) (by omega) h3 (fun j hj1 hj2 => h4 j (by omega) hj2)

theorem choose_arena_loop_none (ars : Nat → Arena) :
    ∀ fuel ii, (∀ j, ii ≤ j → j < ii + fuel → (ars j).in_use ≠ 0) →
      choose_arena_loop ars fuel ii = (0, ars) := by
  intro fuel
  induction fuel with
  | zero => intro ii _; rfl
  | succ fuel ih =>
    intro ii h
    rw [choose_arena_loop, if_neg (h ii (Nat.le_refl _) (by omega))]
    exact ih (ii + 1) (fun j hj1 hj2 => h j (by omega) (by omega))

/-- Among the first eight arenas, one with a clear busy flag has a least such. -/
theorem least_idle (ars : Nat → Arena) (h : ∃ a, a < 8 ∧ (ars a).in_use = 0) :
    ∃ a, a < 8 ∧ (ars a).in_use = 0 ∧ ∀ j, j < a → (ars j).in_use ≠ 0 := by
  classical
  refine ⟨Nat.find h, (Nat.find_spec h).1, (Nat.find_spec h).2, fun j hj hz => ?_⟩
  exact Nat.find_min h hj ⟨by have := (Nat.find_spec h).1; omega, hz⟩

theorem set_in_use_self (ars : Nat → Arena) (a v : Nat) :
    (set_in_use ars a v a).in_use = v := by
  unfold set_in_use
  rw [Function.update_same]

theorem set_in_use_other (ars : Nat → Arena) (a v : Nat) {b : Nat} (h : b ≠ a) :
    set_in_use ars a v b = ars b := by
  unfold set_in_use
  rw [Function.update_noteq h]

/-- C14: for every state `ars` of the pool, if one of the eight arenas has its busy flag
clear, `choose_arena` returns the least index `a` of such an arena and sets the busy flag
of arena `a` to 1, leaving its other fields and every other arena as they were; if all
eight are busy it returns index 0 and the pool is unchanged. -/
theorem choose_arena_lowest_idle (ars : Nat → Arena) :
    ((∃ a, a < 8 ∧ (ars a).in_use = 0) →
      ∃ a, a < 8 ∧ (ars a).in_use = 0 ∧ (∀ j, j < a → (ars j).in_use ≠ 0) ∧
        (choose_arena ars).1 = a ∧
        ((choose_arena ars).2 a).in_use = 1 ∧
        ((choose_arena ars).2 a).id = (ars a).id ∧
        ((choose_arena ars).2 a).bucket_head = (ars a).bucket_head ∧
        ∀ b, b ≠ a → (choose_arena ars).2 b = ars b) ∧
    ((∀ j, j < 8 → (ars j).in_use ≠ 0) → choose_arena ars = (0, ars)) := by
  constructor
  · intro h
    obtain ⟨a, h1, h2, h3⟩ := least_idle ars h
    have e : choose_arena ars = (a, set_in_use ars a 1) :=
      choose_arena_loop_least ars a 8 0 (Nat.zero_le _) (by omega) h2 (fun j _ hj => h3 j hj)
    refine ⟨a, h1, h2, h3, ?_⟩
    rw [e]
    refine ⟨rfl, set_in_use_self _ _ _, ?_, ?_, fun b hb => set_in_use_other _ _ _ hb⟩
    · show (set_in_use ars a 1 a).id = _
      rw [set_in_use_id]
    · show (set_in_use ars a 1 a).bucket_head = _
      rw [set_in_use_head]
  · intro h
    exact choose_arena_loop_none ars 8 0 (fun j _ hj => h j (by omega))

/-- Witness for C14: a pool whose arenas 0 and 1 are busy (arena 2 is chosen), and a pool
whose arenas are all busy. -/
theorem choose_arena_lowest_idle_witness :
    ((∃ a, a < 8 ∧ (pool_two_busy a).in_use = 0) ∧ (choose_arena pool_two_busy).1 = 2) ∧
    ((∀ j, j < 8 → (pool_all_busy j).in_use ≠ 0) ∧ (choose_arena pool_all_busy).1 = 0) := by
  refine ⟨⟨⟨2, by decide, rfl⟩, ?_⟩, ⟨fun _ _ => Nat.one_ne_zero, ?_⟩⟩
  · obtain ⟨a, h1, h2, h3, h4, _⟩ :=
      (choose_arena_lowest_idle pool_two_busy).1 ⟨2, by decide, rfl⟩
    rw [h4]
    have ha : ¬ a < 2 := fun hlt => by
      have : (if a < 2 then 1 else 0) = 0 := h2
      rw [if_pos hlt] at this
      exact absurd this (by decide)
    have hb : ¬ 2 < a := fun hlt => h3 2 hlt rfl
    omega
  · rw [(choose_arena_lowest_idle pool_all_busy).2 (fun _ _ => Nat.one_ne_zero)]

/-! ## Large-object operations and the arenas -/

theorem xmalloc_locks_eq (st : State) (n : Nat) :
    xmalloc_locks st n = (if st.init = 0 then init_arenas_locks else []) ++
      [LockOp.lock Mutex.global, LockOp.unlock Mutex.global,
       LockOp.lock (Mutex.arena (chosen st)), LockOp.unlock (Mutex.arena (chosen st))] := by
  unfold xmalloc_locks chosen
  dsimp only
  rw [ite_self, List.append_assoc]
  rfl

/-- The selection made on entry of `xmalloc` when some arena is not busy: the chosen arena
was not busy, and the busy flags of the others are not touched. -/
theorem entered_flags (st : State) (hinit : st.init = 0 → Idle st)
    (hfree : ∃ a, a < 8 ∧ (st.arenas a).in_use = 0) :
    chosen st < 8 ∧ (st.arenas (chosen st)).in_use = 0 ∧
    ∀ a, a < 8 → a ≠ chosen st → ((entered st).arenas a).in_use = (st.arenas a).in_use := by
  have h0 : ∀ a, a < 8 →
      ((if st.init = 0 then init_arenas st else st).arenas a).in_use = (st.arenas a).in_use := by
    intro a ha
    by_cases hi : st.init = 0
    · rw [if_pos hi, init_arenas_in_use st ha, hinit hi a ha]
    · rw [if_neg hi]
  have hfree' : ∃ a, a < 8 ∧
      ((if st.init = 0 then init_arenas st else st).arenas a).in_use = 0 := by
    obtain ⟨a, ha, hz⟩ := hfree
    exact ⟨a, ha, by rw [h0 a ha]; exact hz⟩
  obtain ⟨a0, k1, k2, k3⟩ := least_idle _ hfree'
  have e : choose_arena (if st.init = 0 then init_arenas st else st).arenas
      = (a0, set_in_use (if st.init = 0 then init_arenas st else st).arenas a0 1) :=
    choose_arena_loop_least _ a0 8 0 (Nat.zero_le _) (by omega) k2 (fun j _ hj => k3 j hj)
  have hc : chosen st = a0 := by unfold chosen; rw [e]
  have he : (entered st).arenas
      = set_in_use (if st.init = 0 then init_arenas st else st).arenas a0 1 := by
    unfold entered; dsimp only; rw [e]
  rw [hc]
  refine ⟨k1, by rw [← h0 a0 k1]; exact k2, fun a ha hne => ?_⟩
  rw [he, set_in_use_other _ _ _ hne, h0 a ha]

/-- C13 (counterexample): `xmalloc(3000)` at program start takes the large path
(`3000 + 8 > 2048`), and its mutex calls, after the eight `pthread_mutex_init` of
`init_arenas`, include locking and unlocking the lock of arena 0. -/
theorem xmalloc_large_locks_arena :
    2048 < (3000 + 8) % 2 ^ 64 ∧
    xmalloc_locks (initial (fun _ => 0)) 3000
      = init_arenas_locks ++
        [LockOp.lock Mutex.global, LockOp.unlock Mutex.global,
         LockOp.lock (Mutex.arena 0), LockOp.unlock (Mutex.arena 0)] ∧
    LockOp.lock (Mutex.arena 0) ∈ xmalloc_locks (initial (fun _ => 0)) 3000 := by
  have hc : chosen (initial (fun _ => 0)) = 0 := chosen_idle (fun a _ => rfl)
  have e := xmalloc_locks_eq (initial (fun _ => 0)) 3000
  rw [hc, if_pos (show (initial (fun _ => 0)).init = 0 from rfl)] at e
  refine ⟨by decide, e, ?_⟩
  rw [e]
  exact List.mem_append_right _ (by decide)

/-- C13 (amended): the mutex calls of a large request `n` (`n + 8 > 2048`,
`n + 16 < 2^64`) are, in every state: on a call that finds `init` clear the eight
`pthread_mutex_init` of `init_arenas`; then locking and unlocking `global_lock`; then
locking and unlocking the lock of the arena `choose_arena` picked; and no other.  The call
leaves the bucket pointers of every arena as they were, in every state, and, when some
arena is not busy on entry (and no flag is set while `init` is still clear, the statics
being zero at program start), the busy flag of every arena as it was.  `xfree` of a large
allocation makes no mutex call and changes neither the arenas nor the memory. -/
theorem large_ops_arenas (st : State) (n ret : Nat) (h1 : 2048 < n + 8)
    (h2 : n + 16 < 2 ^ 64) :
    (chosen st < 8 ∧
     xmalloc_locks st n = (if st.init = 0 then init_arenas_locks else []) ++
       [LockOp.lock Mutex.global, LockOp.unlock Mutex.global,
        LockOp.lock (Mutex.arena (chosen st)), LockOp.unlock (Mutex.arena (chosen st))] ∧
     (∀ a k, ((xmalloc st n ret).2.arenas a).bucket_head k = (st.arenas a).bucket_head k) ∧
     ((st.init = 0 → Idle st) → (∃ a, a < 8 ∧ (st.arenas a).in_use = 0) →
       ∀ a, a < 8 → ((xmalloc st n ret).2.arenas a).in_use = (st.arenas a).in_use)) ∧
    (∀ (s0 : State) (p m : Nat), LargeLive s0.mem p m → 2048 < m + 8 →
      xfree_locks s0 p = [] ∧
      ∃ s, xfree s0 p = some s ∧ s.arenas = s0.arenas ∧ s.mem = s0.mem) := by
  have hmod : (n + 8) % 2 ^ 64 = n + 8 := Nat.mod_eq_of_lt (by omega)
  refine ⟨⟨chosen_lt st, xmalloc_locks_eq st n, fun a k => ?_, fun hinit hfree a ha => ?_⟩,
    fun s0 p m hl hm => ?_⟩
  · rw [xmalloc_large_eq st n ret (by rw [hmod]; exact h1)]
    dsimp only
    rw [set_in_use_head, entered_head]
  · obtain ⟨_, c2, c3⟩ := entered_flags st hinit hfree
    rw [xmalloc_in_use]
    by_cases e : a = chosen st
    · rw [if_pos e, e, c2]
    · rw [if_neg e, c3 a ha e]
  · refine ⟨?_, _, xfree_large_eq hl hm, rfl, rfl⟩
    obtain ⟨r, q1, _, q3, q4⟩ := hl
    subst q1
    have e : r + 16 - 8 = r + 8 := by omega
    have d1 : xfree_offset s0.mem (r + 16) = 8 := by unfold xfree_offset; rw [e, q4]
    have d2 : xfree_bucket s0.mem (r + 16) = r := by unfold xfree_bucket; rw [d1, e]; omega
    have d3 : xfree_size s0.mem (r + 16) = m + 16 := by unfold xfree_size; rw [d2, q3]
    unfold xfree_locks
    rw [d3, if_pos (by omega)]

/-- Witness for C13: a request of `1 << 20` bytes at program start (the first call, which
runs `init_arenas`). -/
theorem large_ops_arenas_witness :
    (chosen (initial (fun _ => 0)) < 8 ∧
     xmalloc_locks (initial (fun _ => 0)) 1048576
       = (if (initial (fun _ => 0)).init = 0 then init_arenas_locks else []) ++
         [LockOp.lock Mutex.global, LockOp.unlock Mutex.global,
          LockOp.lock (Mutex.arena (chosen (initial (fun _ => 0)))),
          LockOp.unlock (Mutex.arena (chosen (initial (fun _ => 0))))] ∧
     (∀ a k, ((xmalloc (initial (fun _ => 0)) 1048576 4096).2.arenas a).bucket_head k
        = ((initial (fun _ => 0)).arenas a).bucket_head k) ∧
     (((initial (fun _ => 0)).init = 0 → Idle (initial (fun _ => 0))) →
       (∃ a, a < 8 ∧ ((initial (fun _ => 0)).arenas a).in_use = 0) →
       ∀ a, a < 8 → ((xmalloc (initial (fun _ => 0)) 1048576 4096).2.arenas a).in_use
         = ((initial (fun _ => 0)).arenas a).in_use)) ∧
    (∀ (s0 : State) (p m : Nat), LargeLive s0.mem p m → 2048 < m + 8 →
      xfree_locks s0 p = [] ∧
      ∃ s, xfree s0 p = some s ∧ s.arenas = s0.arenas ∧ s.mem = s0.mem) :=
  large_ops_arenas (initial (fun _ => 0)) 1048576 4096 (by decide) (by decide)

/-! ## Bucket set-up and slot acquisition -/

/-- The fields of the bucket `page_setup` returns, for any arena: the owner field holds the
32-bit pattern of the arena's id. -/
theorem page_setup_fields (st : State) {k : Nat} (a ret : Nat) (hk : k < 8) :
    read64 (page_setup st k a ret).2.mem ret = sz k ∧
    read32 (page_setup st k a ret).2.mem (ret + 12) = (st.arenas a).id % 2 ^ 32 ∧
    read32 (page_setup st k a ret).2.mem (ret + 8) = divs (sz k) ∧
    (∀ i, i < 1024 →
      bitmap (page_setup st k a ret).2.mem ret i = if i < divs (sz k) then 1 else 0) := by
  have hd := divs_bounds hk
  have hs := sz_pos hk
  refine ⟨?_, ?_, ?_, ?_⟩
  · rw [read64_congr (m := write64 st.mem ret (sz k)) _ (fun x h1 h2 => by
      rw [page_setup_mem, if_neg (by omega), if_neg (by omega),
        write32_other _ _ _ _ (by omega), write32_other _ _ _ _ (by omega)]), read64_write64]
    exact Nat.mod_eq_of_lt (by omega)
  · rw [read32_congr (m := write32 (write64 st.mem ret (sz k)) (ret + 12) (st.arenas a).id) _
      (fun x h1 h2 => by
        rw [page_setup_mem, if_neg (by omega), if_neg (by omega),
          write32_other _ _ _ _ (by omega)]), read32_write32]
  · rw [read32_congr (m := write32 (write32 (write64 st.mem ret (sz k)) (ret + 12)
        (st.arenas a).id) (ret + 8) (divs (sz k))) _
      (fun x h1 h2 => by
        rw [page_setup_mem, if_neg (by omega), if_neg (by omega)]), read32_write32]
    exact Nat.mod_eq_of_lt (by omega)
  · intro i hi
    unfold bitmap read8
    rw [page_setup_mem]
    by_cases h : i < divs (sz k)
    · rw [if_neg (by omega), if_pos (by omega), if_pos h]
    · rw [if_pos (by omega), if_neg h]

/-- C16: for every class index `k < 8` and arena `a` (its id being the value of an `int`,
here a 32-bit pattern), `page_setup(k, a)` makes one `mmap` call of
`PAGE_SIZE * page_nums[k]` bytes, which is `4096 * page_nums[k] = 1024 * sizes[k]`, and
returns the mapped address as a bucket with `size = sizes[k]`, owner `a.id`, `fill = N` and
`bitmap[i] = 1` for `i < N`, 0 for `N <= i < 1024`, where `N = ceil(1040 / sizes[k])` is
65, 33, 17, 9, 5, 3, 2, 1 for the eight classes. -/
theorem page_setup_bucket (st : State) (k a ret : Nat) (hk : k < 8)
    (hid : (st.arenas a).id < 2 ^ 32) :
    (page_setup st k a ret).1 = ret ∧
    (page_setup st k a ret).2.calls = Call.mmap (PAGE_SIZE * pn k) ret :: st.calls ∧
    PAGE_SIZE * pn k = 4096 * pn k ∧ 4096 * pn k = 1024 * sz k ∧
    read64 (page_setup st k a ret).2.mem ret = sz k ∧
    read32 (page_setup st k a ret).2.mem (ret + 12) = (st.arenas a).id ∧
    read32 (page_setup st k a ret).2.mem (ret + 8) = divs (sz k) ∧
    (∀ i, i < 1024 →
      bitmap (page_setup st k a ret).2.mem ret i = if i < divs (sz k) then 1 else 0) ∧
    divs (sz k) = (1040 + sz k - 1) / sz k ∧
    divs (sz k) = [65, 33, 17, 9, 5, 3, 2, 1].getD k 0 := by
  obtain ⟨p2, p3, p4, p5⟩ := page_setup_fields st a ret hk
  rw [Nat.mod_eq_of_lt hid] at p3
  refine ⟨rfl, page_setup_calls st k a ret, rfl, pages_eq hk, p2, p3, p4, p5, ?_, ?_⟩
  · interval_cases k <;> decide
  · interval_cases k <;> decide

/-- Witness for C16: the bucket of class 0 set up for arena 0 at program start. -/
theorem page_setup_bucket_witness :
    (page_setup (initial (fun _ => 0)) 0 0 4096).1 = 4096 ∧
    (page_setup (initial (fun _ => 0)) 0 0 4096).2.calls
      = Call.mmap (PAGE_SIZE * pn 0) 4096 :: (initial (fun _ => 0)).calls ∧
    PAGE_SIZE * pn 0 = 4096 * pn 0 ∧ 4096 * pn 0 = 1024 * sz 0 ∧
    read64 (page_setup (initial (fun _ => 0)) 0 0 4096).2.mem 4096 = sz 0 ∧
    read32 (page_setup (initial (fun _ => 0)) 0 0 4096).2.mem (4096 + 12)
      = ((initial (fun _ => 0)).arenas 0).id ∧
    read32 (page_setup (initial (fun _ => 0)) 0 0 4096).2.mem (4096 + 8) = divs (sz 0) ∧
    (∀ i, i < 1024 →
      bitmap (page_setup (initial (fun _ => 0)) 0 0 4096).2.mem 4096 i
        = if i < divs (sz 0) then 1 else 0) ∧
    divs (sz 0) = (1040 + sz 0 - 1) / sz 0 ∧
    divs (sz 0) = [65, 33, 17, 9, 5, 3, 2, 1].getD 0 0 :=
  page_setup_bucket (initial (fun _ => 0)) 0 0 4096 (by decide) (by decide)

/-- A consistent bucket with a free bitmap entry is not full. -/
theorem fill_lt_of_free {m : Mem} {b k : Nat} (wf : BucketWF m b k)
    (hz : ∃ i, i < 1024 ∧ bitmap m b i = 0) : read32 m (b + 8) < 1024 := by
  rw [wf.fill_eq]
  have hle := ones_le m b 1024
  by_contra hge
  have hfull : ones m b 1024 = 1024 := by omega
  obtain ⟨i, hi, h0⟩ := hz
  have := ones_full 1024 hfull i hi
  omega

/-- C17: on a bucket (of class `k`, at `b`, with consistent metadata) whose bitmap has a
zero entry, `get_block` is first-fit.  It selects the least index `i` with
`bitmap[i] = 0`, returns the address of slot `i`, sets `bitmap[i]` to 1 and leaves every
other entry unchanged, increments `fill` by exactly 1, stores the byte offset `size * i` in
the first 8 bytes of slot `i`, and clears the pointer of arena `a` for class `k` when the
new `fill` is 1024 and leaves the arenas unchanged when it is not. -/
theorem get_block_first_fit (st : State) (b k a : Nat) (hk : k < 8)
    (wf : BucketWF st.mem b k) (hz : ∃ i, i < 1024 ∧ bitmap st.mem b i = 0) :
    ∃ i, i < 1024 ∧ bitmap st.mem b i = 0 ∧ (∀ j, j < i → bitmap st.mem b j ≠ 0) ∧
      (get_block st b k a).1 = b + read64 st.mem b * i ∧
      bitmap (get_block st b k a).2.mem b i = 1 ∧
      (∀ j, j < 1024 → j ≠ i → bitmap (get_block st b k a).2.mem b j = bitmap st.mem b j) ∧
      read32 (get_block st b k a).2.mem (b + 8) = read32 st.mem (b + 8) + 1 ∧
      read64 (get_block st b k a).2.mem (b + read64 st.mem b * i) = read64 st.mem b * i ∧
      (read32 (get_block st b k a).2.mem (b + 8) = 1024 →
        (get_block st b k a).2.arenas = set_head st.arenas a k 0) ∧
      (read32 (get_block st b k a).2.mem (b + 8) ≠ 1024 →
        (get_block st b k a).2.arenas = st.arenas) := by
  have hfill := fill_lt_of_free wf hz
  obtain ⟨i, _, g2, g3, g4, g5, g6, g7, g8, _, _, g11, g12, _⟩ :=
    get_block_raw a hk wf hfill
  rw [wf.size_eq]
  refine ⟨i, g2, g3, g4, g5, g6, g7, g8, g11, fun h => ?_, fun h => ?_⟩
  · rw [g8] at h
    rw [g12, if_pos h]
  · rw [g8] at h
    rw [g12, if_neg h]

/-- Witness for C17: the bucket of class 0 just set up at address 4096. -/
theorem get_block_first_fit_witness :
    BucketWF setup_state.mem 4096 0 ∧ (∃ i, i < 1024 ∧ bitmap setup_state.mem 4096 i = 0) ∧
    ∃ i, i < 1024 ∧ bitmap setup_state.mem 4096 i = 0 ∧
      (∀ j, j < i → bitmap setup_state.mem 4096 j ≠ 0) ∧
      (get_block setup_state 4096 0 0).1 = 4096 + read64 setup_state.mem 4096 * i ∧
      bitmap (get_block setup_state 4096 0 0).2.mem 4096 i = 1 ∧
      (∀ j, j < 1024 → j ≠ i →
        bitmap (get_block setup_state 4096 0 0).2.mem 4096 j = bitmap setup_state.mem 4096 j) ∧
      read32 (get_block setup_state 4096 0 0).2.mem (4096 + 8)
        = read32 setup_state.mem (4096 + 8) + 1 ∧
      read64 (get_block setup_state 4096 0 0).2.mem (4096 + read64 setup_state.mem 4096 * i)
        = read64 setup_state.mem 4096 * i ∧
      (read32 (get_block setup_state 4096 0 0).2.mem (4096 + 8) = 1024 →
        (get_block setup_state 4096 0 0).2.arenas = set_head setup_state.arenas 0 0 0) ∧
      (read32 (get_block setup_state 4096 0 0).2.mem (4096 + 8) ≠ 1024 →
        (get_block setup_state 4096 0 0).2.arenas = setup_state.arenas) := by
  have wf : BucketWF setup_state.mem 4096 0 :=
    page_setup_wf (initial (fun _ => 0)) 4096 (by decide) (by decide)
  have hz : ∃ i, i < 1024 ∧ bitmap setup_state.mem 4096 i = 0 :=
    ⟨65, by decide,
      ((page_setup_spec (initial (fun _ => 0)) 4096 (k := 0) (a := 0) (by decide)
        (by decide)).2.2.2.2 65 (by decide)).trans (by decide)⟩
  exact ⟨wf, hz, get_block_first_fit setup_state 4096 0 0 (by decide) wf hz⟩

/-! ## The bucket an arena points to -/

/-- After the first `xmalloc(10)` of the program, with the bucket mapped at 4096, arena 0
points to that bucket for class 1. -/
theorem first_alloc_head (m0 : Mem) :
    ((xmalloc (initial m0) 10 4096).2.arenas 0).bucket_head 1 = 4096 := by
  have hc : chosen (initial m0) = 0 := chosen_idle (fun a _ => rfl)
  have hk : size_class (10 + 8) = 1 := by decide
  obtain ⟨b, i, bs', _, _, _, _, _, _, s7, _, s9⟩ :=
    small_step (initial_inv m0) (n := 10) 4096 (by decide)
      (fun _ => ⟨by decide, by decide, fun _ _ => rfl⟩)
  rw [hc, hk] at s7 s9
  rw [if_pos (show ((initial m0).arenas 0).bucket_head 1 = 0 from rfl)] at s9
  obtain ⟨e1, _, _, e4⟩ := s9
  rw [s7, e4, e1, if_neg (by decide)]

/-- C19: in every reachable state, a bucket `b` referenced from `bucket_head[k]` of an
arena has `fill < 1024` and so a zero bitmap entry; the scan of `get_block` stops at an
index `ii < 1024` whose entry is 0, and the slot `[s * ii, s * (ii + 1))` it hands out,
where `s = sizes[k]` is the size stored in the bucket, lies inside the
`4096 * page_nums[k] = 1024 * s` bytes of the bucket, all of which are mapped. -/
theorem head_bucket_has_room (st : State) (live : List (Nat × Nat)) (a k : Nat)
    (hr : Reach st live) (ha : a < 8) (hk : k < 8) (hh : (st.arenas a).bucket_head k ≠ 0) :
    read32 st.mem ((st.arenas a).bucket_head k + 8) < 1024 ∧
    (∃ i, i < 1024 ∧ bitmap st.mem ((st.arenas a).bucket_head k) i = 0) ∧
    scan st.mem ((st.arenas a).bucket_head k) 1024 0 < 1024 ∧
    bitmap st.mem ((st.arenas a).bucket_head k)
      (scan st.mem ((st.arenas a).bucket_head k) 1024 0) = 0 ∧
    read64 st.mem ((st.arenas a).bucket_head k) = sz k ∧
    (get_block st ((st.arenas a).bucket_head k) k a).1
      = (st.arenas a).bucket_head k + sz k * scan st.mem ((st.arenas a).bucket_head k) 1024 0 ∧
    sz k * (scan st.mem ((st.arenas a).bucket_head k) 1024 0 + 1) ≤ 4096 * pn k ∧
    4096 * pn k = 1024 * sz k ∧
    (∀ pg, pagesOf ((st.arenas a).bucket_head k) (4096 * pn k) pg →
      mapped st.calls pg = true) := by
  obtain ⟨bs, inv⟩ := reach_inv hr
  obtain ⟨hbs, _, hfl⟩ := inv.heads a k ha hk hh
  obtain ⟨_, _, _, wf⟩ := inv.buckets _ k hbs
  obtain ⟨_, hi2, hi3⟩ := scan_free wf hfl
  have hpg : 4096 * pn k = 1024 * sz k := pages_eq hk
  refine ⟨hfl, ⟨_, hi2, hi3⟩, hi2, hi3, wf.size_eq, ?_, ?_, hpg, fun pg hp => ?_⟩
  · rw [get_block_eq a hk wf hfl]
  · rw [hpg]
    have := Nat.mul_le_mul_left (sz k) (show scan st.mem ((st.arenas a).bucket_head k) 1024 0 + 1
      ≤ 1024 by omega)
    rw [Nat.mul_comm 1024]
    exact this
  · exact inv.regs_mapped _ (bucket_region live hbs) pg hp

/-- Witness for C19: the state after the first `xmalloc(10)`, arena 0 and class 1. -/
theorem head_bucket_has_room_witness :
    ((xmalloc (initial (fun _ => 0)) 10 4096).2.arenas 0).bucket_head 1 ≠ 0 ∧
    ∃ b, b = ((xmalloc (initial (fun _ => 0)) 10 4096).2.arenas 0).bucket_head 1 ∧
      read32 (xmalloc (initial (fun _ => 0)) 10 4096).2.mem (b + 8) < 1024 ∧
      scan (xmalloc (initial (fun _ => 0)) 10 4096).2.mem b 1024 0 < 1024 ∧
      sz 1 * (scan (xmalloc (initial (fun _ => 0)) 10 4096).2.mem b 1024 0 + 1)
        ≤ 4096 * pn 1 := by
  have hh : ((xmalloc (initial (fun _ => 0)) 10 4096).2.arenas 0).bucket_head 1 ≠ 0 := by
    rw [first_alloc_head]; decide
  have h := head_bucket_has_room (xmalloc (initial (fun _ => 0)) 10 4096).2
    [((xmalloc (initial (fun _ => 0)) 10 4096).1, 10)] 0 1
    (Reach.malloc 10 4096 (Reach.start _) (by decide)
      (fun _ _ => ⟨by decide, by decide, fun _ _ => rfl⟩))
    (by decide) (by decide) hh
  exact ⟨hh, _, rfl, h.1, h.2.2.1, h.2.2.2.2.2.2.1⟩

/-! ## The history of the buckets -/

/-- One `xmalloc` in a state that satisfies the invariant: the list of buckets grows by the
new bucket exactly when `page_setup` is called, and the size and owner fields of the
buckets that exist are not changed. -/
theorem malloc_track {st : State} {live bs : List (Nat × Nat)} (inv : InvG st live bs)
    {n ret : Nat} (hn : n + 16 < 2 ^ 64)
    (hf : ∀ len, (xmalloc st n ret).2.calls = Call.mmap len ret :: st.calls →
      Fresh st.calls ret len) :
    InvG (xmalloc st n ret).2 (((xmalloc st n ret).1, n) :: live)
      (if n + 8 ≤ 2048 ∧ ((entered st).arenas (chosen st)).bucket_head (size_class (n + 8)) = 0
       then (ret, size_class (n + 8)) :: bs else bs) ∧
    (∀ b k, (b, k) ∈ bs →
      read32 (xmalloc st n ret).2.mem (b + 12) = read32 st.mem (b + 12)) ∧
    (n + 8 ≤ 2048 → ((entered st).arenas (chosen st)).bucket_head (size_class (n + 8)) = 0 →
      read32 (xmalloc st n ret).2.mem (ret + 12) = chosen st) := by
  have hmod : (n + 8) % 2 ^ 64 = n + 8 := Nat.mod_eq_of_lt (by omega)
  have hhd : ((entered st).arenas (chosen st)).bucket_head (size_class (n + 8))
      = (st.arenas (chosen st)).bucket_head (size_class (n + 8)) := by rw [entered_head]
  rw [hhd]
  by_cases hsm : n + 8 ≤ 2048
  · have hcalls := xmalloc_small_calls st n ret (by rw [hmod]; exact hsm)
    rw [hmod] at hcalls
    have hfr : (st.arenas (chosen st)).bucket_head (size_class (n + 8)) = 0 →
        Fresh st.calls ret (PAGE_SIZE * pn (size_class (n + 8))) := by
      intro hh
      apply hf
      rw [hcalls, with_bucket_calls_new ret (by rw [hhd]; exact hh), entered_calls]
    obtain ⟨b, i, bs', s1, s2, _, _, _, _, _, s8, s9⟩ := small_step inv ret hsm hfr
    have hframe := small_step_frame inv hsm hfr
    have ha := chosen_lt st
    have hk := (size_class_spec (n + 8) hsm).1
    by_cases hh : (st.arenas (chosen st)).bucket_head (size_class (n + 8)) = 0
    · rw [if_pos hh] at s9
      obtain ⟨e1, e2, _, _⟩ := s9
      subst e1
      rw [if_pos ⟨hsm, hh⟩]
      refine ⟨by rw [← e2]; exact s1, fun b' k' hb' => ?_, fun _ _ => s8⟩
      have hne : b' ≠ (st.arenas (chosen st)).bucket_head (size_class (n + 8)) := by
        rw [hh]; exact (inv.buckets b' k' hb').2.1
      exact read32_congr _ (fun x h1 h2 => hframe b' k' hb' hne x (by omega) (by omega))
    · rw [if_neg hh] at s9
      obtain ⟨e1, e2, _, _⟩ := s9
      rw [if_neg (fun h => hh h.2)]
      refine ⟨by rw [← e2]; exact s1, fun b' k' hb' => ?_, fun _ h0 => absurd h0 hh⟩
      by_cases hne : b' = (st.arenas (chosen st)).bucket_head (size_class (n + 8))
      · rw [hne, ← e1, s8, e1]
        exact (inv.heads _ _ ha hk hh).2.1.symm
      · exact read32_congr _ (fun x h1 h2 => hframe b' k' hb' hne x (by omega) (by omega))
  · have hbig : 2048 < n + 8 := by omega
    have hx := xmalloc_large_eq st n ret (by rw [hmod]; exact hbig)
    have hlen : ((n + 8) % 2 ^ 64 + 8) % 2 ^ 64 = n + 16 := by
      rw [hmod]; exact Nat.mod_eq_of_lt (by omega)
    rw [hlen] at hx
    have inv1 := entered_inv inv
    have hfr : Fresh (entered st).calls ret (n + 16) := by
      rw [entered_calls]
      apply hf
      rw [hx]
    have h := large_inv inv1 (entered_init st) hbig hn hfr
    rw [entered_calls, entered_mem] at h
    have h2 := InvG_in_use h (chosen st) 0
    rw [if_neg (fun h => hsm h.1), hx]
    refine ⟨h2, fun b' k' hb' => ?_, fun h0 => absurd h0 hsm⟩
    dsimp only
    have hfr' : Fresh st.calls ret (n + 16) := by rw [entered_calls] at hfr; exact hfr
    have hag := agree_fresh inv (write64 (write64 st.mem ret (n + 16)) (ret + 8) 8) hfr'
      (fun a ha => (large_header st.mem ret (n + 16) hn).2.2 a (by omega))
      (b', PAGE_SIZE * pn k') (bucket_region live hb')
    have hk' := (inv.buckets b' k' hb').1
    have hpg := pages_eq hk'
    have hs := (sz_pos hk').1
    exact read32_congr _ (fun x h1 h2 => hag x (by show b' ≤ x; omega)
      (by show x < b' + PAGE_SIZE * pn k'; omega))

theorem calls_ne_cons (cs : List Call) (c : Call) : cs ≠ c :: cs := by
  intro h
  have := congrArg List.length h
  simp at this

/-- One `xfree` of a live pointer in a state that satisfies the invariant: the list of
buckets loses exactly the bucket whose region the call unmaps, if any, and the owner field
of every bucket is unchanged. -/
theorem free_track {st st' : State} {live bs : List (Nat × Nat)} (inv : InvG st live bs)
    {p n : Nat} (hl : (p, n) ∈ live) (hx : xfree st p = some st') :
    InvG st' (live.filter (fun e => decide (e.1 ≠ p)))
      (bs.filter (fun e =>
        decide (st'.calls ≠ Call.munmap e.1 (PAGE_SIZE * pn e.2) :: st.calls))) ∧
    (∀ b k, (b, k) ∈ bs → read32 st'.mem (b + 12) = read32 st.mem (b + 12)) := by
  obtain ⟨_, g2⟩ := inv.lives p n hl
  by_cases hsm : n + 8 ≤ 2048
  · rw [if_pos hsm] at g2
    obtain ⟨b, k, i, q1, q2, q3, q4, q5, q6, q7⟩ := g2
    obtain ⟨hk, hb0, hal, wf⟩ := inv.buckets b k q1
    have hgt := fill_gt_of_live wf q2 q3 q5
    have hle := (BucketWF_fill_ge hk wf).2
    have hx2 := xfree_small_eq hk wf.size_eq wf.owner_lt q3 q6
    rw [← q4, hx] at hx2
    have hmod : (read32 st.mem (b + 8) + (2 ^ 32 - 1)) % 2 ^ 32 = read32 st.mem (b + 8) - 1 := by
      omega
    rw [hmod] at hx2
    obtain ⟨sh1, _⟩ := free_shared inv q1 q2 q3 q4 q5
    have hown : ∀ (M : Mem), M = write32 (write8 st.mem (b + 16 + i) 0) (b + 8)
        (read32 st.mem (b + 8) + (2 ^ 32 - 1)) →
        ∀ b' k', (b', k') ∈ bs → read32 M (b' + 12) = read32 st.mem (b' + 12) := by
      intro M hM b' k' hb'
      subst hM
      by_cases e : b' = b
      · subst e
        exact read32_congr _ (fun x h1 h2 => by
          rw [write32_other _ _ _ _ (by omega), write8_other _ _ _ _ (by omega)])
      · exact (sh1 b' k' hb' e).2.1
    by_cases hf : read32 st.mem (b + 8) - 1 = divs (sz k)
    · rw [if_pos hf] at hx2
      have hst := Option.some.inj hx2
      have hinv := free_unmap_inv inv q1 q2 q3 q4 q5 hf
      rw [← hst] at hinv
      have hcalls : st'.calls = Call.munmap b (PAGE_SIZE * pn k) :: st.calls := by rw [hst]; rfl
      have hflt : bs.filter (fun e =>
            decide (st'.calls ≠ Call.munmap e.1 (PAGE_SIZE * pn e.2) :: st.calls))
          = bs.filter (fun e => decide (e.1 ≠ b)) := by
        apply List.filter_congr
        intro e he
        rw [decide_eq_decide, hcalls]
        constructor
        · intro h1 h2
          apply h1
          have hc : e.2 = k := bucket_class_unique inv (b := b) (by rw [← h2]; exact he) q1
          rw [h2, hc]
        · intro h1 h2
          apply h1
          exact (Call.munmap.inj (List.cons.inj h2).1).1.symm
      rw [hflt]
      refine ⟨hinv, hown st'.mem (by rw [hst]; rfl)⟩
    · rw [if_neg hf] at hx2
      have hst := Option.some.inj hx2
      have hinv := free_keep_inv inv q1 q2 q3 q4 q5
      rw [← hst] at hinv
      have hcalls : st'.calls = st.calls := by rw [hst]
      have hflt : bs.filter (fun e =>
            decide (st'.calls ≠ Call.munmap e.1 (PAGE_SIZE * pn e.2) :: st.calls)) = bs := by
        rw [List.filter_eq_self]
        intro e _
        rw [decide_eq_true_eq, hcalls]
        exact calls_ne_cons _ _
      rw [hflt]
      exact ⟨hinv, hown st'.mem (by rw [hst])⟩
  · rw [if_neg hsm] at g2
    have hx2 := xfree_large_eq g2 (by omega)
    rw [hx] at hx2
    have hst := Option.some.inj hx2
    have hinv := xfree_large_inv inv hl (by omega)
    rw [← hst] at hinv
    obtain ⟨r, r1, r2, _, _⟩ := g2
    have hflt : bs.filter (fun e =>
          decide (st'.calls ≠ Call.munmap e.1 (PAGE_SIZE * pn e.2) :: st.calls)) = bs := by
      rw [List.filter_eq_self]
      intro e he
      rw [decide_eq_true_eq, hst]
      intro h2
      have h3 : Call.munmap (p - 8) (n + 16) = Call.munmap e.1 (PAGE_SIZE * pn e.2) :=
        (List.cons.inj h2).1
      have h4 := (Call.munmap.inj h3).1
      have := (inv.buckets e.1 e.2 he).2.2.1
      omega
    rw [hflt]
    exact ⟨hinv, fun b k _ => by rw [hst]; rfl⟩

/-- Every state reached with a bucket history satisfies the invariant for the buckets of
the history, and the owner field of each bucket holds the index of the arena that created
it. -/
theorem reachB_inv {st : State} {live : List (Nat × Nat)} {bk : List (Nat × Nat × Nat)}
    (h : ReachB st live bk) :
    InvG st live (bk.map (fun e => (e.1, e.2.1))) ∧
    ∀ e, e ∈ bk → e.2.2 < 8 ∧ read32 st.mem (e.1 + 12) = e.2.2 := by
  induction h with
  | start m => exact ⟨initial_inv m, fun e he => absurd he (List.not_mem_nil _)⟩
  | @malloc st live bk n ret _ hn hf ih =>
    obtain ⟨inv, own⟩ := ih
    obtain ⟨t1, t2, t3⟩ := malloc_track inv hn hf
    by_cases hc : n + 8 ≤ 2048 ∧
        ((entered st).arenas (chosen st)).bucket_head (size_class (n + 8)) = 0
    · rw [if_pos hc] at t1 ⊢
      refine ⟨t1, fun e he => ?_⟩
      rcases List.mem_cons.1 he with e1 | e1
      · subst e1
        exact ⟨chosen_lt st, t3 hc.1 hc.2⟩
      · refine ⟨(own e e1).1, ?_⟩
        rw [t2 e.1 e.2.1 (List.mem_map_of_mem _ e1)]
        exact (own e e1).2
    · rw [if_neg hc] at t1 ⊢
      refine ⟨t1, fun e e1 => ⟨(own e e1).1, ?_⟩⟩
      rw [t2 e.1 e.2.1 (List.mem_map_of_mem _ e1)]
      exact (own e e1).2
  | @free st st' live bk p n _ hl hx ih =>
    obtain ⟨inv, own⟩ := ih
    obtain ⟨t1, t2⟩ := free_track inv hl hx
    rw [List.filter_map] at t1
    refine ⟨t1, fun e he => ?_⟩
    have e1 := List.mem_of_mem_filter he
    refine ⟨(own e e1).1, ?_⟩
    rw [t2 e.1 e.2.1 (List.mem_map_of_mem _ e1)]
    exact (own e e1).2

theorem reachB_reach {st : State} {live : List (Nat × Nat)} {bk : List (Nat × Nat × Nat)}
    (h : ReachB st live bk) : Reach st live := by
  induction h with
  | start m => exact Reach.start m
  | malloc n ret _ hn hf ih => exact Reach.malloc n ret ih hn hf
  | free p n _ hl hx ih => exact Reach.free p n ih hl hx

theorem reach_reachB {st : State} {live : List (Nat × Nat)} (h : Reach st live) :
    ∃ bk, ReachB st live bk := by
  induction h with
  | start m => exact ⟨[], ReachB.start m⟩
  | malloc n ret _ hn hf ih =>
    obtain ⟨bk, hb⟩ := ih
    exact ⟨_, ReachB.malloc n ret hb hn hf⟩
  | free p n _ hl hx ih =>
    obtain ⟨bk, hb⟩ := ih
    exact ⟨_, ReachB.free p n hb hl hx⟩

/-- The history after the first `xmalloc(10)` of the program, with the bucket mapped at
4096: one bucket, of class 1, created by arena 0. -/
theorem first_alloc_history :
    ReachB (xmalloc (initial (fun _ => 0)) 10 4096).2
      [((xmalloc (initial (fun _ => 0)) 10 4096).1, 10)] [(4096, 1, 0)] := by
  have h := ReachB.malloc 10 4096 (ReachB.start (fun _ => 0)) (by decide)
    (fun _ _ => ⟨by decide, by decide, fun _ _ => rfl⟩)
  have hc : chosen (initial (fun _ => 0)) = 0 := chosen_idle (fun a _ => rfl)
  have hk : size_class (10 + 8) = 1 := by decide
  rw [if_pos ⟨by decide, by rw [entered_head]; rfl⟩, hc, hk] at h
  exact h

/-- The buckets of the history are all the buckets in use: the bucket an arena points to
and the bucket of a live small allocation are in the history. -/
theorem history_complete {st : State} {live : List (Nat × Nat)}
    {bk : List (Nat × Nat × Nat)} (hr : ReachB st live bk) :
    (∀ a k, a < 8 → k < 8 → (st.arenas a).bucket_head k ≠ 0 →
      ((st.arenas a).bucket_head k, k, a) ∈ bk) ∧
    (∀ p n, (p, n) ∈ live → n + 8 ≤ 2048 →
      ∃ k a, (xfree_bucket st.mem p, k, a) ∈ bk ∧ xfree_size st.mem p = sz k) := by
  obtain ⟨inv, own⟩ := reachB_inv hr
  constructor
  · intro a k ha hk hh
    obtain ⟨hbs, how, _⟩ := inv.heads a k ha hk hh
    obtain ⟨e, he, hfe⟩ := List.mem_map.1 hbs
    have h1 : e.1 = (st.arenas a).bucket_head k := congrArg Prod.fst hfe
    have h2 : e.2.1 = k := congrArg Prod.snd hfe
    have h3 : e.2.2 = a := by rw [← (own e he).2, h1, how]
    have : e = ((st.arenas a).bucket_head k, k, a) := by
      rw [← h1, ← h2, ← h3]
    rw [← this]; exact he
  · intro p n hl hn
    obtain ⟨_, g2⟩ := inv.lives p n hl
    rw [if_pos hn] at g2
    obtain ⟨b, k, i, q1, _, _, q4, _, q6, _⟩ := g2
    obtain ⟨e, he, hfe⟩ := List.mem_map.1 q1
    have h1 : e.1 = b := congrArg Prod.fst hfe
    have h2 : e.2.1 = k := congrArg Prod.snd hfe
    have hd := (xfree_decode q6).2
    rw [← q4] at hd
    have hsz : xfree_size st.mem p = sz k := by
      unfold xfree_size; rw [hd]; exact (inv.buckets b k q1).2.2.2.size_eq
    refine ⟨k, e.2.2, ?_, hsz⟩
    rw [hd, ← h1, ← h2]; exact he

/-- C18: in every reachable state, every bucket that exists (created by `page_setup` and
not unmapped since), of class `k` with `s = sizes[k]` and `N = ceil(1040 / s)`, is mapped,
has all its bitmap entries in {0, 1}, `bitmap[i] = 1` for every `i < N`, `fill` equal to
the number of bitmap entries that are 1, and `N <= fill <= 1024`.  The buckets that exist
include every bucket an arena points to and the bucket of every live small allocation. -/
theorem bucket_metadata_consistent (st : State) (live : List (Nat × Nat))
    (bk : List (Nat × Nat × Nat)) (hr : ReachB st live bk) :
    (∀ b k a, (b, k, a) ∈ bk →
      k < 8 ∧ read64 st.mem b = sz k ∧
      (∀ pg, pagesOf b (4096 * pn k) pg → mapped st.calls pg = true) ∧
      (∀ i, i < 1024 → bitmap st.mem b i = 0 ∨ bitmap st.mem b i = 1) ∧
      (∀ i, i < divs (sz k) → bitmap st.mem b i = 1) ∧
      read32 st.mem (b + 8) = ones st.mem b 1024 ∧
      divs (sz k) ≤ read32 st.mem (b + 8) ∧ read32 st.mem (b + 8) ≤ 1024 ∧
      divs (sz k) = (1040 + sz k - 1) / sz k) ∧
    (∀ a k, a < 8 → k < 8 → (st.arenas a).bucket_head k ≠ 0 →
      ((st.arenas a).bucket_head k, k, a) ∈ bk) ∧
    (∀ p n, (p, n) ∈ live → n + 8 ≤ 2048 →
      ∃ k a, (xfree_bucket st.mem p, k, a) ∈ bk) := by
  obtain ⟨inv, _⟩ := reachB_inv hr
  obtain ⟨c1, c2⟩ := history_complete hr
  refine ⟨fun b k a he => ?_, c1, fun p n hl hn => ?_⟩
  · have hbs : (b, k) ∈ bk.map (fun e => (e.1, e.2.1)) := List.mem_map_of_mem _ he
    obtain ⟨hk, _, _, wf⟩ := inv.buckets b k hbs
    obtain ⟨f1, f2⟩ := BucketWF_fill_ge hk wf
    refine ⟨hk, wf.size_eq, fun pg hp => inv.regs_mapped _ (bucket_region live hbs) pg hp,
      wf.bits01, wf.meta_set, wf.fill_eq, f1, f2, ?_⟩
    interval_cases k <;> decide
  · obtain ⟨k, a, h, _⟩ := c2 p n hl hn
    exact ⟨k, a, h⟩

/-- Witness for C18: the bucket that exists after the first `xmalloc(10)`. -/
theorem bucket_metadata_consistent_witness :
    ReachB (xmalloc (initial (fun _ => 0)) 10 4096).2
      [((xmalloc (initial (fun _ => 0)) 10 4096).1, 10)] [(4096, 1, 0)] ∧
    read64 (xmalloc (initial (fun _ => 0)) 10 4096).2.mem 4096 = sz 1 ∧
    read32 (xmalloc (initial (fun _ => 0)) 10 4096).2.mem (4096 + 8)
      = ones (xmalloc (initial (fun _ => 0)) 10 4096).2.mem 4096 1024 ∧
    divs (sz 1) ≤ read32 (xmalloc (initial (fun _ => 0)) 10 4096).2.mem (4096 + 8) ∧
    read32 (xmalloc (initial (fun _ => 0)) 10 4096).2.mem (4096 + 8) ≤ 1024 := by
  have h := (bucket_metadata_consistent _ _ _ first_alloc_history).1 4096 1 0
    (List.mem_singleton_self _)
  exact ⟨first_alloc_history, h.2.1, h.2.2.2.2.2.1, h.2.2.2.2.2.2.1, h.2.2.2.2.2.2.2.1⟩

/-- C20: in every reachable state, every bucket that exists (created by `page_setup` for
class index `k` by arena `a`, and not unmapped since) still stores the size `sizes[k]`,
one of the eight table sizes, and the owner id `a < 8`: neither field has changed.  Hence
for every live small allocation the bucket `xfree` computes is such a bucket, the lookup
loop `while (sizes[bucket_num] != size)` stops at `bucket_num = k <= 7`, the index the
bucket was created for, and `bucket->arena` is the index of the arena that created it. -/
theorem bucket_size_owner_stable (st : State) (live : List (Nat × Nat))
    (bk : List (Nat × Nat × Nat)) (hr : ReachB st live bk) :
    (∀ b k a, (b, k, a) ∈ bk →
      k < 8 ∧ a < 8 ∧ read64 st.mem b = sz k ∧ read64 st.mem b ∈ sizes ∧
      read32 st.mem (b + 12) = a ∧ (st.arenas a).id = a ∧
      bucket_num_loop (read64 st.mem b) 9 0 = some k) ∧
    (∀ p n, (p, n) ∈ live → n + 8 ≤ 2048 →
      ∃ k a, (xfree_bucket st.mem p, k, a) ∈ bk ∧ k ≤ 7 ∧
        bucket_num_loop (xfree_size st.mem p) 9 0 = some k ∧
        read32 st.mem (xfree_bucket st.mem p + 12) = a) := by
  obtain ⟨inv, own⟩ := reachB_inv hr
  obtain ⟨_, c2⟩ := history_complete hr
  have hall : ∀ b k a, (b, k, a) ∈ bk →
      k < 8 ∧ a < 8 ∧ read64 st.mem b = sz k ∧ read64 st.mem b ∈ sizes ∧
      read32 st.mem (b + 12) = a ∧ (st.arenas a).id = a ∧
      bucket_num_loop (read64 st.mem b) 9 0 = some k := by
    intro b k a he
    have hbs : (b, k) ∈ bk.map (fun e => (e.1, e.2.1)) := List.mem_map_of_mem _ he
    obtain ⟨hk, _, _, wf⟩ := inv.buckets b k hbs
    obtain ⟨o1, o2⟩ := own _ he
    have hinit : st.init ≠ 0 := fun h0 => by
      have := (inv.pre h0).1
      rw [this] at hbs
      exact absurd hbs (List.not_mem_nil _)
    refine ⟨hk, o1, wf.size_eq, ?_, o2, inv.ids hinit a o1, ?_⟩
    · rw [wf.size_eq]
      interval_cases k <;> decide
    · rw [wf.size_eq]
      exact bucket_num_loop_sz hk
  refine ⟨hall, fun p n hl hn => ?_⟩
  obtain ⟨k, a, h1, h2⟩ := c2 p n hl hn
  obtain ⟨hk, _, _, _, ho, _, _⟩ := hall _ k a h1
  exact ⟨k, a, h1, by omega, by rw [h2]; exact bucket_num_loop_sz hk, ho⟩

/-- Witness for C20: the bucket that exists after the first `xmalloc(10)`. -/
theorem bucket_size_owner_stable_witness :
    ReachB (xmalloc (initial (fun _ => 0)) 10 4096).2
      [((xmalloc (initial (fun _ => 0)) 10 4096).1, 10)] [(4096, 1, 0)] ∧
    read64 (xmalloc (initial (fun _ => 0)) 10 4096).2.mem 4096 = sz 1 ∧
    read32 (xmalloc (initial (fun _ => 0)) 10 4096).2.mem (4096 + 12) = 0 ∧
    bucket_num_loop (read64 (xmalloc (initial (fun _ => 0)) 10 4096).2.mem 4096) 9 0
      = some 1 := by
  have h := (bucket_size_owner_stable _ _ _ first_alloc_history).1 4096 1 0
    (List.mem_singleton_self _)
  exact ⟨first_alloc_history, h.2.2.1, h.2.2.2.2.1, h.2.2.2.2.2.2⟩

end XMalloc
